import Mathlib

/-!
Verification development for the single-instrument matching engine in
`src/engine1.cpp`.  The C++ data structures are shallowly embedded:

* pointer-linked FIFO lists of orders become `List Order`;
* the intrusive AVL tree of price levels (`struct Limit`) becomes the
  inductive `LTree`, whose nodes carry the recorded `height` field of the
  source (heights are *recorded*, not derived, so that the source's height
  bookkeeping can itself be verified);
* the two fixed arenas are represented by their free-slot counts, which is
  the observable the specification talks about;
* `std::unordered_map<uint64_t, Order*>` becomes an association list from
  order id to the data the engine actually dereferences through the stored
  pointer: the order's side and the price of its parent level
  (`o->side`, `o->parentLimit`);
* the SPSC trade ring is represented by the emitted trade sequence: the
  book-state claims under study never fill the 65536-slot buffer, and
  `lastExecutedPrice`/timestamps are updated by the source on every push
  attempt regardless of ring capacity;
* machine integers: `uint64_t` ids and `uint32_t` quantities become `Nat`
  (the source never wraps them: quantities only decrease by `min`),
  `int64_t` prices become `Int` with the i64 range carried as an explicit
  hypothesis where a claim depends on it.

Loops whose termination depends on the search-tree invariant
(`processOrderInternal`'s matching loop, `checkStopOrders`) are embedded
with an explicit fuel argument; the engine passes the fuel the loop needs
(one unit per price level plus one), and the development proves that under
the search-tree invariant the fuel is never exhausted.
-/

set_option maxHeartbeats 1000000

namespace Engine

/-- `enum class Side`. -/
inductive Side where
  | Buy
  | Sell
deriving DecidableEq, Repr

/-- `enum class OrderType`. -/
inductive OrderType where
  | Market
  | Limit
  | Stop
  | StopLimit
deriving DecidableEq, Repr

/-- `struct TradeReport`. -/
structure TradeReport where
  takerId : Nat
  makerId : Nat
  qty : Nat
  price : Int
  timestamp : Nat
deriving DecidableEq, Repr

/-- `struct Order` (payload fields; the intrusive `next/prev/parentLimit`
pointers are represented by the order's position in its level's list). -/
structure Order where
  id : Nat
  side : Side
  type : OrderType
  shares : Nat
  price : Int
  stopPrice : Int
deriving DecidableEq, Repr

/-- `struct TriggeredStop`. -/
structure TriggeredStop where
  originalId : Nat
  side : Side
  convertToType : OrderType
  shares : Nat
  limitPrice : Int
deriving DecidableEq, Repr

/-- The price-level tree (`struct Limit` nodes).  A node stores the level
price, the FIFO of resting orders at that price (head first), the recorded
`height` field, and the two children. -/
inductive LTree where
  | nil
  | node (left : LTree) (price : Int) (fifo : List Order) (height : Nat) (right : LTree)
deriving DecidableEq, Repr

namespace LTree

/-- `OrderBook::h`: recorded height, 0 for a null pointer. -/
def hgt : LTree → Nat
  | nil => 0
  | node _ _ _ ht _ => ht

/-- `OrderBook::up`: recompute the root's recorded height from the
children's recorded heights. -/
def upH : LTree → LTree
  | nil => nil
  | node l p f _ r => node l p f (1 + max (hgt l) (hgt r)) r

/-- `OrderBook::getBal`: recorded balance factor. -/
def getBal : LTree → Int
  | nil => 0
  | node l _ _ _ r => (hgt l : Int) - (hgt r : Int)

/-- `OrderBook::rotR` (single right rotation, with both height updates).
Only reachable when the left child is non-null, as in the source. -/
def rotR : LTree → LTree
  | node (node a xp xf _ b) yp yf _ c =>
      let y' := upH (node b yp yf 0 c)
      upH (node a xp xf 0 y')
  | t => t

/-- `OrderBook::rotL` (single left rotation). -/
def rotL : LTree → LTree
  | node a xp xf _ (node b yp yf _ c) =>
      let x' := upH (node a xp xf 0 b)
      upH (node x' yp yf 0 c)
  | t => t

/-- Price of the root node (never taken of `nil` on source-reachable
paths). -/
def rootPrice : LTree → Int
  | nil => 0
  | node _ p _ _ _ => p

def leftOf : LTree → LTree
  | nil => nil
  | node l _ _ _ _ => l

def rightOf : LTree → LTree
  | nil => nil
  | node _ _ _ _ r => r

def withLeft : LTree → LTree → LTree
  | nil, _ => nil
  | node _ p f ht r, l' => node l' p f ht r

def withRight : LTree → LTree → LTree
  | nil, _ => nil
  | node l p f ht _, r' => node l p f ht r'

/-- The rebalancing cascade at the end of `OrderBook::insert`, performed
after `up(n)`; the four cases are guarded exactly as in the source (key
comparisons against the child prices). -/
def rebalIns (p : Int) (n : LTree) : LTree :=
  if 1 < getBal n ∧ p < rootPrice (leftOf n) then rotR n
  else if getBal n < -1 ∧ rootPrice (rightOf n) < p then rotL n
  else if 1 < getBal n ∧ rootPrice (leftOf n) < p then rotR (withLeft n (rotL (leftOf n)))
  else if getBal n < -1 ∧ p < rootPrice (rightOf n) then rotL (withRight n (rotR (rightOf n)))
  else n

/-- `OrderBook::insert`, in the case where `MemoryManager::getLimit`
succeeds: a fresh empty level is created at an absent price, an existing
level is found (and returned unchanged, skipping the rebalance).  The
allocation-failure path of the source leaves the tree unchanged (it only
recomputes the already-correct heights on the search path) and is handled
at the call sites by not invoking `insertT` when the level pool is empty. -/
def insertT : LTree → Int → LTree
  | nil, p => node nil p [] 1 nil
  | node l np nf nh r, p =>
    if p < np then rebalIns p (upH (node (insertT l p) np nf nh r))
    else if np < p then rebalIns p (upH (node l np nf nh (insertT r p)))
    else node l np nf nh r

/-- `OrderBook::getMin`: price and FIFO of the leftmost node. -/
def getMinT : LTree → Option (Int × List Order)
  | nil => none
  | node nil p f _ _ => some (p, f)
  | node (node a b c d e) _ _ _ _ => getMinT (node a b c d e)

/-- `OrderBook::getMax`: price and FIFO of the rightmost node. -/
def getMaxT : LTree → Option (Int × List Order)
  | nil => none
  | node _ p f _ nil => some (p, f)
  | node _ _ _ _ (node a b c d e) => getMaxT (node a b c d e)

/-- The rebalancing cascade at the end of `OrderBook::removeLimit`,
guarded by recorded balance factors exactly as in the source. -/
def rebalDel (n : LTree) : LTree :=
  if 1 < getBal n ∧ 0 ≤ getBal (leftOf n) then rotR n
  else if 1 < getBal n ∧ getBal (leftOf n) < 0 then rotR (withLeft n (rotL (leftOf n)))
  else if getBal n < -1 ∧ getBal (rightOf n) ≤ 0 then rotL n
  else if getBal n < -1 ∧ 0 < getBal (rightOf n) then rotL (withRight n (rotR (rightOf n)))
  else n

/-- `OrderBook::removeLimit`.  Returns the new tree together with the
number of `recycleLimit` calls performed (slots returned to the level
pool).  The two-children case replants the successor's payload (price and
FIFO) into the victim node and deletes the successor, exactly as in the
source; updating each moved order's `parentLimit` back-pointer is implicit
here because orders are owned by the node that holds them. -/
def removeLimit : LTree → Int → LTree × Nat
  | nil, _ => (nil, 0)
  | node l np nf nh r, p =>
    if p < np then
      let res := removeLimit l p
      (rebalDel (upH (node res.1 np nf nh r)), res.2)
    else if np < p then
      let res := removeLimit r p
      (rebalDel (upH (node l np nf nh res.1)), res.2)
    else
      match l, r with
      | nil, _ => (r, 1)
      | node a b c d e, nil => (node a b c d e, 1)
      | node _ _ _ _ _, node a b c d e =>
        match getMinT (node a b c d e) with
        | none => (node l np nf nh r, 0)
        | some (sp, sf) =>
          let res := removeLimit (node a b c d e) sp
          (rebalDel (upH (node l sp sf nh res.1)), res.2)

/-- Number of levels in a tree (size of its slice of the level pool). -/
def limitCount : LTree → Nat
  | nil => 0
  | node l _ _ _ r => limitCount l + 1 + limitCount r

/-- Locate the level with the given price by binary search (the engine
reaches such a level through a stored pointer; under the search-tree
invariant the price identifies the node uniquely). -/
def containsP : LTree → Int → Bool
  | nil, _ => false
  | node l np _ _ r, p =>
    if p < np then containsP l p
    else if np < p then containsP r p
    else true

/-- FIFO of the level at the given price (`[]` if absent). -/
def fifoAtD : LTree → Int → List Order
  | nil, _ => []
  | node l np nf _ r, p =>
    if p < np then fifoAtD l p
    else if np < p then fifoAtD r p
    else nf

/-- Replace the FIFO of the level at the given price (writing through the
level pointer in the source). -/
def setFifo : LTree → Int → List Order → LTree
  | nil, _, _ => nil
  | node l np nf nh r, p, f =>
    if p < np then node (setFifo l p f) np nf nh r
    else if np < p then node l np nf nh (setFifo r p f)
    else node l np f nh r

/-- Append an order at the tail of the level with the given price
(`L->tail->next = o; ...` through the level pointer). -/
def appendAt : LTree → Int → Order → LTree
  | nil, _, _ => nil
  | node l np nf nh r, p, o =>
    if p < np then node (appendAt l p o) np nf nh r
    else if np < p then node l np nf nh (appendAt r p o)
    else node l np (nf ++ [o]) nh r

/-- In-order listing of the levels: ascending price order under the
search-tree invariant. -/
def inorder : LTree → List (Int × List Order)
  | nil => []
  | node l p f _ r => inorder l ++ (p, f) :: inorder r

/-- Search-tree invariant on prices (strict, so prices are unique). -/
def SortedT : LTree → Prop
  | nil => True
  | node l p _ _ r =>
      SortedT l ∧ SortedT r ∧
      (∀ q ∈ (inorder l).map Prod.fst, q < p) ∧
      (∀ q ∈ (inorder r).map Prod.fst, p < q)

instance instDecSortedT : (t : LTree) → Decidable (SortedT t)
  | nil => .isTrue trivial
  | node l _ _ _ r =>
    have : Decidable (SortedT l) := instDecSortedT l
    have : Decidable (SortedT r) := instDecSortedT r
    inferInstanceAs (Decidable (_ ∧ _ ∧ _ ∧ _))

/-- Real height ignoring the recorded field. -/
def realH : LTree → Nat
  | nil => 0
  | node l _ _ _ r => 1 + max (realH l) (realH r)

/-- Every recorded height equals `1 + max` of the children's. -/
def HeightsOk : LTree → Prop
  | nil => True
  | node l _ _ ht r => HeightsOk l ∧ HeightsOk r ∧ ht = 1 + max (realH l) (realH r)

instance instDecHeightsOk : (t : LTree) → Decidable (HeightsOk t)
  | nil => .isTrue trivial
  | node l _ _ _ r =>
    have : Decidable (HeightsOk l) := instDecHeightsOk l
    have : Decidable (HeightsOk r) := instDecHeightsOk r
    inferInstanceAs (Decidable (_ ∧ _ ∧ _))

/-- AVL balance on real heights. -/
def BalancedT : LTree → Prop
  | nil => True
  | node l _ _ _ r =>
      BalancedT l ∧ BalancedT r ∧
      (realH l : Int) - (realH r : Int) ≤ 1 ∧ (realH r : Int) - (realH l : Int) ≤ 1

instance instDecBalancedT : (t : LTree) → Decidable (BalancedT t)
  | nil => .isTrue trivial
  | node l _ _ _ r =>
    have : Decidable (BalancedT l) := instDecBalancedT l
    have : Decidable (BalancedT r) := instDecBalancedT r
    inferInstanceAs (Decidable (_ ∧ _ ∧ _ ∧ _))

/-- The claim C8 property: recorded heights correct and AVL-balanced. -/
def AVL (t : LTree) : Prop := HeightsOk t ∧ BalancedT t

instance : DecidablePred AVL := fun _ => inferInstanceAs (Decidable (_ ∧ _))

end LTree

open LTree

/-! ## The matching engine (`class OrderBook` plus the two arenas) -/

/-- Engine state: the four level trees, the two id indices, the two arena
free-slot counts, the emitted trade sequence, `timestampCounter`, and
`generatedIdCounter`.  An index entry `(id, side, price)` stands for the
stored `Order*`: the side of the pointed-to order and the price of its
`parentLimit` (what cancel/modify dereference through the pointer). -/
structure EngineState where
  buyTree : LTree
  sellTree : LTree
  stopBuyTree : LTree
  stopSellTree : LTree
  orderMap : List (Nat × Side × Int)
  stopOrderMap : List (Nat × Side × Int)
  freeOrders : Nat
  freeLimits : Nat
  trades : List TradeReport
  tsCounter : Nat
  genId : Nat
deriving DecidableEq, Repr

/-- Engine construction over `MemoryManager mm(n)`: empty book, order pool
of `n` slots, level pool of `n / 5` slots, `generatedIdCounter`
initialised to 1000000000. -/
def initState (n : Nat) : EngineState :=
  ⟨.nil, .nil, .nil, .nil, [], [], n, n / 5, [], 0, 1000000000⟩

/-- `unordered_map::find`. -/
def mapLookup : List (Nat × Side × Int) → Nat → Option (Side × Int)
  | [], _ => none
  | (k, v) :: rest, id => if k = id then some v else mapLookup rest id

/-- `map[id] = o` (insert or overwrite). -/
def mapSet : List (Nat × Side × Int) → Nat → Side × Int → List (Nat × Side × Int)
  | [], id, v => [(id, v)]
  | (k, w) :: rest, id, v => if k = id then (id, v) :: rest else (k, w) :: mapSet rest id v

/-- `map.erase(id)`. -/
def mapErase : List (Nat × Side × Int) → Nat → List (Nat × Side × Int)
  | [], _ => []
  | (k, w) :: rest, id => if k = id then rest else (k, w) :: mapErase rest id

/-- `getOrderCount` / `getStopOrderCount` expose the two index sizes. -/
def restingCount (st : EngineState) : Nat := st.orderMap.length

def stopCount (st : EngineState) : Nat := st.stopOrderMap.length

/-- Result of the inner maker-FIFO walk of the matching loop. -/
structure WalkRes where
  remaining : Nat
  fifo : List Order
  trades : List TradeReport
  ts : Nat
  removedIds : List Nat
deriving Repr

/-- The inner loop of `processOrderInternal`: walk the maker FIFO head to
tail while the taker has shares, trading `min` at the level price,
unlinking and recycling exhausted makers, breaking when a maker
survives. -/
def walkFIFO (takerId : Nat) (lvlPrice : Int) : Nat → List Order → Nat → WalkRes
  | s, [], ts => ⟨s, [], [], ts, []⟩
  | 0, fifo, ts => ⟨0, fifo, [], ts, []⟩
  | s + 1, m :: rest, ts =>
    let traded := min (s + 1) m.shares
    let tr : TradeReport := ⟨takerId, m.id, traded, lvlPrice, ts⟩
    let s' := s + 1 - traded
    let ms := m.shares - traded
    if ms = 0 then
      let w := walkFIFO takerId lvlPrice s' rest (ts + 1)
      ⟨w.remaining, w.fifo, tr :: w.trades, w.ts, m.id :: w.removedIds⟩
    else
      ⟨s', { m with shares := ms } :: rest, [tr], ts + 1, []⟩

/-- `(side == Side::Buy && price < best->price) || (side == Side::Sell &&
price > best->price)`: the cross test failing. -/
def crossFail (side : Side) (price bp : Int) : Bool :=
  match side with
  | .Buy => price < bp
  | .Sell => bp < price

/-- Best opposite level for the aggressor: `getMin(sellRoot)` for a buy,
`getMax(buyRoot)` for a sell (the tree passed in is the opposite tree). -/
def bestFor (side : Side) (t : LTree) : Option (Int × List Order) :=
  match side with
  | .Buy => getMinT t
  | .Sell => getMaxT t

/-- Result of the outer matching loop. -/
structure MatchRes where
  remaining : Nat
  tree : LTree
  trades : List TradeReport
  ts : Nat
  removedIds : List Nat
  recycledLimits : Nat
  lastExec : Int
deriving Repr

/-- The outer matching loop of `processOrderInternal` (`while
(taker->shares > 0) { ... }`), with explicit fuel.  Each continuing
iteration removes a price level from the opposite tree, so the engine's
call with fuel `limitCount + 1` never exhausts it under the search-tree
invariant. -/
def matchLoop (takerId : Nat) (side : Side) (price : Int) :
    Nat → Nat → LTree → Nat → Int → MatchRes
  | 0, s, t, ts, le => ⟨s, t, [], ts, [], 0, le⟩
  | fuel + 1, s, t, ts, le =>
    if s = 0 then ⟨s, t, [], ts, [], 0, le⟩ else
    match bestFor side t with
    | none => ⟨s, t, [], ts, [], 0, le⟩
    | some (bp, bf) =>
      if crossFail side price bp then ⟨s, t, [], ts, [], 0, le⟩
      else
        let w := walkFIFO takerId bp s bf ts
        let le' := if w.trades = [] then le else bp
        let tr := if w.fifo = [] then removeLimit t bp else (setFifo t bp w.fifo, 0)
        let r := matchLoop takerId side price fuel w.remaining tr.1 w.ts le'
        ⟨r.remaining, r.tree, w.trades ++ r.trades, r.ts, w.removedIds ++ r.removedIds,
          tr.2 + r.recycledLimits, r.lastExec⟩

/-- Convert every order of a fired stop level into its triggered
descriptor (stop → market, stop-limit → limit, side/qty/limit price
preserved). -/
def fireLevel (fifo : List Order) : List TriggeredStop :=
  fifo.map fun o =>
    ⟨o.id, o.side, (if o.type = OrderType.Stop then OrderType.Market else OrderType.Limit),
      o.shares, o.price⟩

/-- Result of one `checkStopOrders` scan. -/
structure StopsRes where
  tree : LTree
  triggered : List TriggeredStop
  freedOrders : Nat
  erasedIds : List Nat
  freedLimits : Nat
deriving Repr

/-- `checkStopOrders`, sell-aggressor branch: scan the stop-sell tree from
the highest price down, firing every level with `executedPrice ≤ price`. -/
def checkStopsSell (px : Int) : Nat → LTree → StopsRes
  | 0, t => ⟨t, [], 0, [], 0⟩
  | fuel + 1, t =>
    match getMaxT t with
    | none => ⟨t, [], 0, [], 0⟩
    | some (hp, hf) =>
      if px ≤ hp then
        let tr := removeLimit t hp
        let r := checkStopsSell px fuel tr.1
        ⟨r.tree, fireLevel hf ++ r.triggered, hf.length + r.freedOrders,
          hf.map (·.id) ++ r.erasedIds, tr.2 + r.freedLimits⟩
      else ⟨t, [], 0, [], 0⟩

/-- `checkStopOrders`, buy-aggressor branch: scan the stop-buy tree from
the lowest price up, firing every level with `price ≤ executedPrice`. -/
def checkStopsBuy (px : Int) : Nat → LTree → StopsRes
  | 0, t => ⟨t, [], 0, [], 0⟩
  | fuel + 1, t =>
    match getMinT t with
    | none => ⟨t, [], 0, [], 0⟩
    | some (lp, lf) =>
      if lp ≤ px then
        let tr := removeLimit t lp
        let r := checkStopsBuy px fuel tr.1
        ⟨r.tree, fireLevel lf ++ r.triggered, lf.length + r.freedOrders,
          lf.map (·.id) ++ r.erasedIds, tr.2 + r.freedLimits⟩
      else ⟨t, [], 0, [], 0⟩

/-- The stop/stop-limit branch of `processOrderInternal`: allocate the
order, insert a level keyed by the stop price into the stop tree of the
order's own side, append at that level's tail, index it.  If the order
pool is exhausted the call returns with nothing changed; if the level pool
is exhausted the allocated order is *not* returned to the pool (the source
leaks it) and the trees and indices stay as they were. -/
def armStop (st : EngineState) (id : Nat) (side : Side) (ty : OrderType) (qty : Nat)
    (price stopPrice : Int) : EngineState :=
  if st.freeOrders = 0 then st else
  let st₁ := { st with freeOrders := st.freeOrders - 1 }
  let o : Order := ⟨id, side, ty, qty, price, stopPrice⟩
  let t := match side with
    | .Buy => st₁.stopBuyTree
    | .Sell => st₁.stopSellTree
  if ¬ (containsP t stopPrice) ∧ st₁.freeLimits = 0 then st₁
  else
    let fl := if containsP t stopPrice then st₁.freeLimits else st₁.freeLimits - 1
    let t' := appendAt (insertT t stopPrice) stopPrice o
    match side with
    | .Buy =>
      { st₁ with stopBuyTree := t', freeLimits := fl,
                 stopOrderMap := mapSet st₁.stopOrderMap id (side, stopPrice) }
    | .Sell =>
      { st₁ with stopSellTree := t', freeLimits := fl,
                 stopOrderMap := mapSet st₁.stopOrderMap id (side, stopPrice) }

/-- Fold the matching-loop result into the engine state: new opposite
tree, emitted trades, timestamps, fully-filled makers erased from the
resting index and their slots recycled, emptied levels recycled. -/
def applyMatch (st : EngineState) (side : Side) (m : MatchRes) : EngineState :=
  { st with
    sellTree := match side with | .Buy => m.tree | .Sell => st.sellTree,
    buyTree := match side with | .Buy => st.buyTree | .Sell => m.tree,
    trades := st.trades ++ m.trades,
    tsCounter := m.ts,
    orderMap := m.removedIds.foldl mapErase st.orderMap,
    freeOrders := st.freeOrders + m.removedIds.length,
    freeLimits := st.freeLimits + m.recycledLimits }

/-- Residual policy at the end of `processOrderInternal`: a limit taker
with remaining shares rests on its own side (level created if needed; on
level-pool exhaustion the source returns, leaking the taker), anything
else is recycled. -/
def restOrRecycle (st : EngineState) (id : Nat) (side : Side) (ty : OrderType)
    (price stopPrice : Int) (remaining : Nat) : EngineState :=
  if 0 < remaining ∧ ty = OrderType.Limit then
    let t := match side with
      | .Buy => st.buyTree
      | .Sell => st.sellTree
    if ¬ (containsP t price) ∧ st.freeLimits = 0 then st
    else
      let fl := if containsP t price then st.freeLimits else st.freeLimits - 1
      let o : Order := ⟨id, side, ty, remaining, price, stopPrice⟩
      let t' := appendAt (insertT t price) price o
      match side with
      | .Buy =>
        { st with buyTree := t', freeLimits := fl,
                  orderMap := mapSet st.orderMap id (side, price) }
      | .Sell =>
        { st with sellTree := t', freeLimits := fl,
                  orderMap := mapSet st.orderMap id (side, price) }
  else
    { st with freeOrders := st.freeOrders + 1 }

/-- `processOrderInternal` with `checkStops = false`.  On such re-entries
the trigger pass is suppressed, so `triggeredStops` stays empty and the
final re-submission loop of the source does nothing; the source's
recursion therefore bottoms out here. -/
def processNoChk (st : EngineState) (id : Nat) (side : Side) (ty : OrderType) (qty : Nat)
    (price stopPrice : Int) : EngineState :=
  if ty = OrderType.Stop ∨ ty = OrderType.StopLimit then
    armStop st id side ty qty price stopPrice
  else if st.freeOrders = 0 then st
  else
    let st₁ := { st with freeOrders := st.freeOrders - 1 }
    let opp := match side with
      | .Buy => st₁.sellTree
      | .Sell => st₁.buyTree
    let m := matchLoop id side price (limitCount opp + 1) qty opp st₁.tsCounter 0
    let st₂ := applyMatch st₁ side m
    restOrRecycle st₂ id side ty price stopPrice m.remaining

/-- Run the trigger pass on the engine state: scan the matching stop tree,
erase fired ids from the stop index, recycle their order slots and the
removed levels, and return the collected descriptors in firing order. -/
def runCheckStops (st : EngineState) (px : Int) (side : Side) :
    EngineState × List TriggeredStop :=
  match side with
  | .Sell =>
    let r := checkStopsSell px (limitCount st.stopSellTree) st.stopSellTree
    ({ st with stopSellTree := r.tree,
               stopOrderMap := r.erasedIds.foldl mapErase st.stopOrderMap,
               freeOrders := st.freeOrders + r.freedOrders,
               freeLimits := st.freeLimits + r.freedLimits }, r.triggered)
  | .Buy =>
    let r := checkStopsBuy px (limitCount st.stopBuyTree) st.stopBuyTree
    ({ st with stopBuyTree := r.tree,
               stopOrderMap := r.erasedIds.foldl mapErase st.stopOrderMap,
               freeOrders := st.freeOrders + r.freedOrders,
               freeLimits := st.freeLimits + r.freedLimits }, r.triggered)

/-- `processOrderInternal` with `checkStops = true`: match, then (only if
`lastExecutedPrice > 0`) run the trigger pass once, then apply the
residual policy, then re-submit each triggered descriptor under a freshly
generated id with the trigger pass suppressed. -/
def processOrderInternalT (st : EngineState) (id : Nat) (side : Side) (ty : OrderType)
    (qty : Nat) (price stopPrice : Int) : EngineState :=
  if ty = OrderType.Stop ∨ ty = OrderType.StopLimit then
    armStop st id side ty qty price stopPrice
  else if st.freeOrders = 0 then st
  else
    let st₁ := { st with freeOrders := st.freeOrders - 1 }
    let opp := match side with
      | .Buy => st₁.sellTree
      | .Sell => st₁.buyTree
    let m := matchLoop id side price (limitCount opp + 1) qty opp st₁.tsCounter 0
    let st₂ := applyMatch st₁ side m
    let str := if 0 < m.lastExec then runCheckStops st₂ m.lastExec side else (st₂, [])
    let st₄ := restOrRecycle str.1 id side ty price stopPrice m.remaining
    str.2.foldl
      (fun s d =>
        processNoChk { s with genId := s.genId + 1 } s.genId d.side d.convertToType
          d.shares d.limitPrice 0)
      st₄

/-- Public `processOrder`. -/
def processOrder (st : EngineState) (id : Nat) (side : Side) (ty : OrderType) (qty : Nat)
    (price stopPrice : Int) : EngineState :=
  processOrderInternalT st id side ty qty price stopPrice

/-- Remove the first order with the given id from a FIFO (`o->prev/next`
unlinking through the stored pointer). -/
def eraseById : List Order → Nat → List Order
  | [], _ => []
  | o :: rest, id => if o.id = id then rest else o :: eraseById rest id

/-- Unlink the order with the given id from the level at `lp`; if the
level's FIFO becomes empty, remove the level from the tree.  Returns the
new tree and the number of level slots recycled. -/
def unlinkAt (t : LTree) (lp : Int) (id : Nat) : LTree × Nat :=
  let f := fifoAtD t lp
  let f' := eraseById f id
  if f' = [] then removeLimit t lp else (setFifo t lp f', 0)

/-- `OrderBook::cancelOrder`. -/
def cancelOrder (st : EngineState) (id : Nat) : EngineState × Bool :=
  match mapLookup st.orderMap id with
  | some (side, lp) =>
    let t := match side with
      | .Buy => st.buyTree
      | .Sell => st.sellTree
    let tr := unlinkAt t lp id
    (match side with
      | .Buy =>
        { st with buyTree := tr.1, orderMap := mapErase st.orderMap id,
                  freeOrders := st.freeOrders + 1, freeLimits := st.freeLimits + tr.2 }
      | .Sell =>
        { st with sellTree := tr.1, orderMap := mapErase st.orderMap id,
                  freeOrders := st.freeOrders + 1, freeLimits := st.freeLimits + tr.2 },
      true)
  | none =>
    match mapLookup st.stopOrderMap id with
    | some (side, lp) =>
      let t := match side with
        | .Buy => st.stopBuyTree
        | .Sell => st.stopSellTree
      let tr := unlinkAt t lp id
      (match side with
        | .Buy =>
          { st with stopBuyTree := tr.1, stopOrderMap := mapErase st.stopOrderMap id,
                    freeOrders := st.freeOrders + 1, freeLimits := st.freeLimits + tr.2 }
        | .Sell =>
          { st with stopSellTree := tr.1, stopOrderMap := mapErase st.stopOrderMap id,
                    freeOrders := st.freeOrders + 1, freeLimits := st.freeLimits + tr.2 },
        true)
    | none => (st, false)

/-- Find the order with the given id in the FIFO of the level at `lp`
(dereferencing the stored `Order*`; under the book invariants the pair
(level price, id) identifies it). -/
def orderAt (t : LTree) (lp : Int) (id : Nat) : Option Order :=
  (fifoAtD t lp).find? (fun o => o.id = id)

/-- Overwrite the share count of the order with the given id
(`o->shares = newQty` in place). -/
def setSharesFifo : List Order → Nat → Nat → List Order
  | [], _, _ => []
  | o :: rest, id, q =>
    if o.id = id then { o with shares := q } :: rest else o :: setSharesFifo rest id q

/-- `OrderBook::modifyOrder`.  Only resting orders are found; same-price
modify overwrites the quantity in place; otherwise the order is unlinked
from its old level (removing the level if emptied), its price and quantity
are overwritten, and it is appended at the tail of the (possibly new)
level at the new price.  If the level pool is exhausted at the re-homing
step the source returns `false`, leaving the removal already done. -/
def modifyOrder (st : EngineState) (id : Nat) (newQty : Nat) (newPrice : Int) :
    EngineState × Bool :=
  match mapLookup st.orderMap id with
  | none => (st, false)
  | some (side, lp) =>
    let t := match side with
      | .Buy => st.buyTree
      | .Sell => st.sellTree
    match orderAt t lp id with
    | none => (st, false)
    | some o =>
      if newPrice = o.price then
        let t' := setFifo t lp (setSharesFifo (fifoAtD t lp) id newQty)
        (match side with
          | .Buy => ({ st with buyTree := t' }, true)
          | .Sell => ({ st with sellTree := t' }, true))
      else
        let tr := unlinkAt t lp id
        let o' : Order := { o with price := newPrice, shares := newQty }
        let fl₀ := st.freeLimits + tr.2
        if ¬ (containsP tr.1 newPrice) ∧ fl₀ = 0 then
          (match side with
            | .Buy => ({ st with buyTree := tr.1, freeLimits := fl₀ }, false)
            | .Sell => ({ st with sellTree := tr.1, freeLimits := fl₀ }, false))
        else
          let fl := if containsP tr.1 newPrice then fl₀ else fl₀ - 1
          let t₂ := appendAt (insertT tr.1 newPrice) newPrice o'
          (match side with
            | .Buy =>
              ({ st with buyTree := t₂, freeLimits := fl,
                         orderMap := mapSet st.orderMap id (side, newPrice) }, true)
            | .Sell =>
              ({ st with sellTree := t₂, freeLimits := fl,
                         orderMap := mapSet st.orderMap id (side, newPrice) }, true))

/-- A public engine action. -/
inductive Act where
  | submit (id : Nat) (side : Side) (ty : OrderType) (qty : Nat) (price stopPrice : Int)
  | cancel (id : Nat)
  | modify (id : Nat) (newQty : Nat) (newPrice : Int)
deriving DecidableEq, Repr

def applyAct (st : EngineState) : Act → EngineState
  | .submit id side ty qty price stopPrice => processOrder st id side ty qty price stopPrice
  | .cancel id => (cancelOrder st id).1
  | .modify id q p => (modifyOrder st id q p).1

/-- The state after a sequence of public actions on a fresh engine with an
order pool of `n` slots. -/
def runActs (n : Nat) (acts : List Act) : EngineState :=
  acts.foldl applyAct (initState n)

/-! ## Concrete scenarios used by individual claims -/

/-- Scenario of claim C1 (spec end-to-end scenario 4): rest a sell limit
10@90, arm a sell stop (qty 5, stop 95), submit a buy limit 4@100. -/
def c1Run : EngineState :=
  runActs 100
    [ .submit 1 .Sell .Limit 10 90 0,
      .submit 2 .Sell .Stop 5 0 95,
      .submit 3 .Buy .Limit 4 100 0 ]

/-- Stop-sell tree holding two armed sell stops, at stop prices 95 (id 10)
and 99 (id 11); used by claim C3. -/
def c3StopTree : LTree :=
  (runActs 100 [ .submit 10 .Sell .Stop 1 0 95, .submit 11 .Sell .Stop 1 0 99 ]).stopSellTree

/-- Scenario of claim C4: a sell limit resting at price 0, an armed buy
stop with stop price 0, then a buy limit that trades at price 0. -/
def c4Run : EngineState :=
  runActs 100
    [ .submit 1 .Sell .Limit 5 0 0,
      .submit 2 .Buy .Stop 3 10 0,
      .submit 3 .Buy .Limit 2 0 0 ]

/-- Book with a single resting buy level at the negative price −1; used by
claim C5. -/
def c5BuyTree : LTree := (runActs 100 [ .submit 1 .Buy .Limit 5 (-1) 0 ]).buyTree

/-- Scenario of claim C6: an engine whose level pool has exactly one slot
(order pool 5, level pool 5/5 = 1) after two buy limits rest at price 100,
so the level pool is exhausted; then order 1 is modified to price 101. -/
def c6Pre : EngineState :=
  runActs 5 [ .submit 1 .Buy .Limit 5 100 0, .submit 2 .Buy .Limit 5 100 0 ]

/-- Scenario of claim C7: a resting buy limit modified in place to
quantity 0. -/
def c7Run : EngineState :=
  (modifyOrder (runActs 100 [ .submit 1 .Buy .Limit 5 100 0 ]) 1 0 100).1

/-! ## Derived notions the claims are stated with -/

/-- Price keys of a tree, in in-order. -/
def keysT (t : LTree) : List Int := (LTree.inorder t).map Prod.fst

/-- Flatten a list of levels into the maker stream: each order tagged with
its level price, levels in list order, FIFOs head first. -/
def flattenLevels : List (Int × List Order) → List (Int × Order)
  | [] => []
  | (p, f) :: rest => f.map (fun o => (p, o)) ++ flattenLevels rest

/-- The priority view of the resting side an aggressor of the given side
matches against: ascending price for a buy aggressor (resting sells),
descending price for a sell aggressor (resting buys). -/
def prio (side : Side) (t : LTree) : List (Int × Order) :=
  match side with
  | .Buy => flattenLevels (LTree.inorder t)
  | .Sell => flattenLevels (LTree.inorder t).reverse

/-- "At least as good a price for the aggressor": `p ≤ q` when the resting
side is the sell side (buy aggressor), `q ≤ p` when it is the buy side. -/
def priorityLE (side : Side) (p q : Int) : Prop :=
  match side with
  | .Buy => p ≤ q
  | .Sell => q ≤ p

/-- Every order resting at any level of the tree has strictly positive
remaining shares. -/
def PosShares (t : LTree) : Prop :=
  ∀ e ∈ LTree.inorder t, ∀ o ∈ e.2, 0 < o.shares

/-- Every level present in the tree has a non-empty FIFO. -/
def NonemptyFifos (t : LTree) : Prop :=
  ∀ e ∈ LTree.inorder t, e.2 ≠ []

/-- The observable book state of claim C9: the price-level/FIFO contents
of the four trees (shape-independent), the two indices, the two arena
free-slot counts, and the emitted trades. -/
def obs (st : EngineState) :
    List (Int × List Order) × List (Int × List Order) × List (Int × List Order) ×
      List (Int × List Order) × List (Nat × Side × Int) × List (Nat × Side × Int) ×
      Nat × Nat × List TradeReport :=
  (LTree.inorder st.buyTree, LTree.inorder st.sellTree, LTree.inorder st.stopBuyTree,
    LTree.inorder st.stopSellTree, st.orderMap, st.stopOrderMap,
    st.freeOrders, st.freeLimits, st.trades)

/-- Every modify action in the list carries a strictly positive new
quantity. -/
def ModsPos (acts : List Act) : Prop :=
  ∀ a ∈ acts, ∀ id q p, a = Act.modify id q p → 0 < q

/-- The stop tree of the given side. -/
def stopTreeOf (st : EngineState) (side : Side) : LTree :=
  match side with
  | .Buy => st.stopBuyTree
  | .Sell => st.stopSellTree

/-- A book with one resting sell level, used as a C10 witness state. -/
def c10Pre : EngineState := runActs 100 [ .submit 1 .Sell .Limit 10 90 0 ]

/-- The `INT64_MAX` sentinel price of a buy market order. -/
def maxI64 : Int := 9223372036854775807

/-- Real (recomputed) balance factor. -/
def realBal : LTree → Int
  | .nil => 0
  | .node l _ _ _ r => (LTree.realH l : Int) - LTree.realH r

/-- Fire a list of levels in order: concatenation of their converted
descriptors. -/
def fireLevels : List (Int × List Order) → List TriggeredStop
  | [] => []
  | e :: rest => fireLevel e.2 ++ fireLevels rest

/-- A two-level sorted sell book used as witness input. -/
def c2Tree : LTree :=
  .node (.node .nil 95 [⟨7, .Sell, .Limit, 2, 95, 0⟩] 1 .nil) 100
    [⟨8, .Sell, .Limit, 3, 100, 0⟩, ⟨9, .Sell, .Limit, 1, 100, 0⟩] 2 .nil

/-- Price of the last trade of a list, or the default when there is none
(`lastExecutedPrice` accumulation). -/
def lastPriceD (le : Int) (trs : List TradeReport) : Int :=
  match trs.getLast? with
  | none => le
  | some tr => tr.price

/-- Drop every level entry with the given price key from a level list. -/
def eraseKeyA (p : Int) : List (Int × List Order) → List (Int × List Order)
  | [] => []
  | e :: rest => if e.1 = p then eraseKeyA p rest else e :: eraseKeyA p rest

/-- Insert a fresh empty level at its sorted position in a level list. -/
def insKey (p : Int) : List (Int × List Order) → List (Int × List Order)
  | [] => [(p, [])]
  | e :: rest => if p < e.1 then (p, []) :: e :: rest else e :: insKey p rest

/-- Replace the FIFO stored under the given price key in a level list. -/
def setKeyA (p : Int) (f : List Order) (L : List (Int × List Order)) :
    List (Int × List Order) :=
  L.map fun e => if e.1 = p then (e.1, f) else e

/-- Append an order to the FIFO stored under the given price key. -/
def appKeyA (p : Int) (o : Order) (L : List (Int × List Order)) :
    List (Int × List Order) :=
  L.map fun e => if e.1 = p then (e.1, e.2 ++ [o]) else e

/-- FIFO stored under the given price key (`[]` when absent). -/
def lookKeyA (p : Int) : List (Int × List Order) → List Order
  | [] => []
  | e :: rest => if e.1 = p then e.2 else lookKeyA p rest

/-- The tree the aggressor matches against. -/
def oppTreeOf (st : EngineState) (side : Side) : LTree :=
  match side with
  | .Buy => st.sellTree
  | .Sell => st.buyTree


/-- The tree a residual rests in. -/
def restTreeOf (st : EngineState) (side : Side) : LTree :=
  match side with
  | .Buy => st.buyTree
  | .Sell => st.sellTree


/-- Replace the resting-side tree. -/
def withRestTree (st : EngineState) (side : Side) (t : LTree) : EngineState :=
  match side with
  | .Buy => { st with buyTree := t }
  | .Sell => { st with sellTree := t }


/-- Matching-loop result of the C4 witness submit: a buy market order for 4
shares against the one-level sell book. -/
def c4wM : MatchRes :=
  matchLoop 3 .Buy maxI64 (limitCount (oppTreeOf c10Pre .Buy) + 1) 4
    (oppTreeOf c10Pre .Buy) c10Pre.tsCounter 0


/-- The book invariant carried through the C7 induction: all four trees
are search trees and every order resting in the buy or sell tree has
strictly positive remaining shares. -/
def PosInv (st : EngineState) : Prop :=
  SortedT st.buyTree ∧ SortedT st.sellTree ∧ SortedT st.stopBuyTree ∧
  SortedT st.stopSellTree ∧ PosShares st.buyTree ∧ PosShares st.sellTree


/-- The AVL invariant carried through the C8 induction: all four price
trees have correct recorded heights and are height-balanced. -/
def AvlInv (st : EngineState) : Prop :=
  AVL st.buyTree ∧ AVL st.sellTree ∧ AVL st.stopBuyTree ∧ AVL st.stopSellTree


/-! ## Level-tree lemmas: in-order contents of each mutating operation -/

namespace LTree

theorem inorder_upH (t : LTree) : inorder (upH t) = inorder t := by
  cases t <;> rfl

theorem inorder_rotR (t : LTree) : inorder (rotR t) = inorder t := by
  unfold rotR
  split
  · simp [inorder, inorder_upH, upH, List.append_assoc]
  · rfl

theorem inorder_rotL (t : LTree) : inorder (rotL t) = inorder t := by
  unfold rotL
  split
  · simp [inorder, inorder_upH, upH, List.append_assoc]
  · rfl

theorem inorder_withLeft_rotL (t : LTree) :
    inorder (withLeft t (rotL (leftOf t))) = inorder t := by
  cases t with
  | nil => rfl
  | node l p f h r => simp [withLeft, leftOf, inorder, inorder_rotL]

theorem inorder_withRight_rotR (t : LTree) :
    inorder (withRight t (rotR (rightOf t))) = inorder t := by
  cases t with
  | nil => rfl
  | node l p f h r => simp [withRight, rightOf, inorder, inorder_rotR]

theorem inorder_rebalIns (p : Int) (t : LTree) : inorder (rebalIns p t) = inorder t := by
  unfold rebalIns
  split_ifs <;>
    simp [inorder_rotR, inorder_rotL, inorder_withLeft_rotL, inorder_withRight_rotR]

theorem inorder_rebalDel (t : LTree) : inorder (rebalDel t) = inorder t := by
  unfold rebalDel
  split_ifs <;>
    simp [inorder_rotR, inorder_rotL, inorder_withLeft_rotL, inorder_withRight_rotR]

theorem inorder_eq_nil_iff (t : LTree) : inorder t = [] ↔ t = nil := by
  cases t with
  | nil => simp [inorder]
  | node l p f h r => simp [inorder]

theorem getMinT_eq_head (t : LTree) : getMinT t = (inorder t).head? := by
  induction t with
  | nil => rfl
  | node l p f h r ihl ihr =>
    cases l with
    | nil => simp [getMinT, inorder]
    | node a b c d e =>
      rw [getMinT, ihl]
      conv_rhs => rw [inorder]
      rw [List.head?_append_of_ne_nil _ (by simp [inorder])]

theorem getLast?_cons_append_cons {α : Type _} (x y : α) (A B : List α) :
    (x :: (A ++ y :: B)).getLast? = (y :: B).getLast? := by
  rw [← List.cons_append, List.getLast?_append_cons]

theorem getLast?_inorder_node (l : LTree) (p : Int) (f : List Order) (h : Nat) (r : LTree) :
    (inorder (node l p f h r)).getLast? = ((p, f) :: inorder r).getLast? := by
  rw [inorder, List.getLast?_append_cons]

theorem getMaxT_eq_getLast (t : LTree) : getMaxT t = (inorder t).getLast? := by
  induction t with
  | nil => rfl
  | node l p f h r ihl ihr =>
    cases r with
    | nil => simp [getMaxT, getLast?_inorder_node, inorder]
    | node a b c d e =>
      rw [getMaxT, ihr, getLast?_inorder_node, getLast?_inorder_node]
      conv_rhs => rw [inorder]
      rw [getLast?_cons_append_cons]

theorem limitCount_eq_length (t : LTree) : limitCount t = (inorder t).length := by
  induction t with
  | nil => rfl
  | node l p f h r ihl ihr => simp [limitCount, inorder, ihl, ihr]; omega

theorem sortedT_node {l r : LTree} {p : Int} {f : List Order} {h : Nat} :
    SortedT (node l p f h r) ↔
      SortedT l ∧ SortedT r ∧ (∀ q ∈ (inorder l).map Prod.fst, q < p) ∧
        (∀ q ∈ (inorder r).map Prod.fst, p < q) := Iff.rfl

theorem sortedT_iff_pairwise (t : LTree) :
    SortedT t ↔ ((inorder t).map Prod.fst).Pairwise (· < ·) := by
  induction t with
  | nil => simp [SortedT, inorder]
  | node l p f h r ihl ihr =>
    rw [sortedT_node, ihl, ihr, inorder]
    rw [List.map_append, List.map_cons, List.pairwise_append, List.pairwise_cons]
    constructor
    · rintro ⟨hl, hr, hlp, hpr⟩
      refine ⟨hl, ⟨hpr, hr⟩, ?_⟩
      intro x hx y hy
      rcases List.mem_cons.1 hy with rfl | hy
      · exact hlp x hx
      · exact lt_trans (hlp x hx) (hpr y hy)
    · rintro ⟨hl, ⟨hpr, hr⟩, hcross⟩
      exact ⟨hl, hr, fun q hq => hcross q hq p (List.mem_cons_self _ _), hpr⟩

theorem sortedT_of_inorder_eq {t t' : LTree} (he : inorder t' = inorder t)
    (hs : SortedT t) : SortedT t' := by
  rw [sortedT_iff_pairwise, he, ← sortedT_iff_pairwise]
  exact hs

end LTree

/-! ## Association-list lemmas for the level contents -/

theorem eraseKeyA_nil (p : Int) : eraseKeyA p [] = [] := rfl

theorem eraseKeyA_cons (p : Int) (e : Int × List Order) (L : List (Int × List Order)) :
    eraseKeyA p (e :: L) = if e.1 = p then eraseKeyA p L else e :: eraseKeyA p L := rfl

theorem eraseKeyA_append (p : Int) (A B : List (Int × List Order)) :
    eraseKeyA p (A ++ B) = eraseKeyA p A ++ eraseKeyA p B := by
  induction A with
  | nil => rfl
  | cons e rest ih =>
    by_cases he : e.1 = p <;> simp [eraseKeyA_cons, he, ih]

theorem eraseKeyA_of_not_mem {p : Int} {L : List (Int × List Order)}
    (h : p ∉ L.map Prod.fst) : eraseKeyA p L = L := by
  induction L with
  | nil => rfl
  | cons e rest ih =>
    simp only [List.map_cons, List.mem_cons, not_or] at h
    rw [eraseKeyA_cons, if_neg (fun hh => h.1 hh.symm), ih h.2]

theorem eraseKeyA_sublist (p : Int) (L : List (Int × List Order)) :
    (eraseKeyA p L).Sublist L := by
  induction L with
  | nil => simp [eraseKeyA_nil]
  | cons e rest ih =>
    rw [eraseKeyA_cons]
    split
    · exact ih.cons e
    · exact ih.cons₂ e

theorem setKeyA_nil (p : Int) (f : List Order) : setKeyA p f [] = [] := rfl

theorem setKeyA_cons (p : Int) (f : List Order) (e : Int × List Order)
    (L : List (Int × List Order)) :
    setKeyA p f (e :: L) = (if e.1 = p then (e.1, f) else e) :: setKeyA p f L := rfl

theorem setKeyA_append (p : Int) (f : List Order) (A B : List (Int × List Order)) :
    setKeyA p f (A ++ B) = setKeyA p f A ++ setKeyA p f B := by
  simp [setKeyA]

theorem setKeyA_of_not_mem {p : Int} (f : List Order) {L : List (Int × List Order)}
    (h : p ∉ L.map Prod.fst) : setKeyA p f L = L := by
  induction L with
  | nil => rfl
  | cons e rest ih =>
    simp only [List.map_cons, List.mem_cons, not_or] at h
    rw [setKeyA_cons, if_neg (fun hh => h.1 hh.symm), ih h.2]

theorem map_fst_setKeyA (p : Int) (f : List Order) (L : List (Int × List Order)) :
    (setKeyA p f L).map Prod.fst = L.map Prod.fst := by
  induction L with
  | nil => rfl
  | cons e rest ih =>
    by_cases he : e.1 = p <;> simp [setKeyA_cons, he, ih]

theorem appKeyA_nil (p : Int) (o : Order) : appKeyA p o [] = [] := rfl

theorem appKeyA_cons (p : Int) (o : Order) (e : Int × List Order)
    (L : List (Int × List Order)) :
    appKeyA p o (e :: L) = (if e.1 = p then (e.1, e.2 ++ [o]) else e) :: appKeyA p o L := rfl

theorem appKeyA_append (p : Int) (o : Order) (A B : List (Int × List Order)) :
    appKeyA p o (A ++ B) = appKeyA p o A ++ appKeyA p o B := by
  simp [appKeyA]

theorem appKeyA_of_not_mem {p : Int} (o : Order) {L : List (Int × List Order)}
    (h : p ∉ L.map Prod.fst) : appKeyA p o L = L := by
  induction L with
  | nil => rfl
  | cons e rest ih =>
    simp only [List.map_cons, List.mem_cons, not_or] at h
    rw [appKeyA_cons, if_neg (fun hh => h.1 hh.symm), ih h.2]

theorem map_fst_appKeyA (p : Int) (o : Order) (L : List (Int × List Order)) :
    (appKeyA p o L).map Prod.fst = L.map Prod.fst := by
  induction L with
  | nil => rfl
  | cons e rest ih =>
    by_cases he : e.1 = p <;> simp [appKeyA_cons, he, ih]

theorem lookKeyA_nil (p : Int) : lookKeyA p [] = [] := rfl

theorem lookKeyA_cons (p : Int) (e : Int × List Order) (L : List (Int × List Order)) :
    lookKeyA p (e :: L) = if e.1 = p then e.2 else lookKeyA p L := rfl

theorem lookKeyA_of_not_mem {p : Int} {L : List (Int × List Order)}
    (h : p ∉ L.map Prod.fst) : lookKeyA p L = [] := by
  induction L with
  | nil => rfl
  | cons e rest ih =>
    simp only [List.map_cons, List.mem_cons, not_or] at h
    rw [lookKeyA_cons, if_neg (fun hh => h.1 hh.symm), ih h.2]

theorem lookKeyA_append_not_mem {p : Int} {A : List (Int × List Order)}
    (B : List (Int × List Order)) (h : p ∉ A.map Prod.fst) :
    lookKeyA p (A ++ B) = lookKeyA p B := by
  induction A with
  | nil => rfl
  | cons e rest ih =>
    simp only [List.map_cons, List.mem_cons, not_or] at h
    rw [List.cons_append, lookKeyA_cons, if_neg (fun hh => h.1 hh.symm), ih h.2]

theorem lookKeyA_append_right {p : Int} (A : List (Int × List Order))
    {B : List (Int × List Order)} (hB : p ∉ B.map Prod.fst) :
    lookKeyA p (A ++ B) = lookKeyA p A := by
  induction A with
  | nil => rw [List.nil_append, lookKeyA_nil, lookKeyA_of_not_mem hB]
  | cons e rest ih =>
    rw [List.cons_append, lookKeyA_cons, lookKeyA_cons]
    split
    · rfl
    · exact ih

theorem insKey_cons_of_lt {p q : Int} (hq : q < p) (f : List Order)
    (L : List (Int × List Order)) :
    insKey p ((q, f) :: L) = (q, f) :: insKey p L := by
  rw [insKey, if_neg (not_lt.2 (le_of_lt hq))]

theorem insKey_append_right {p : Int} (A : List (Int × List Order))
    {B : List (Int × List Order)} (hB : ∀ e ∈ B, p < e.1) :
    insKey p (A ++ B) = insKey p A ++ B := by
  induction A with
  | nil =>
    cases B with
    | nil => rfl
    | cons b B' =>
      simp only [List.nil_append, insKey, if_pos (hB b (List.mem_cons_self _ _))]
      rfl
  | cons a A' ih =>
    by_cases ha : p < a.1 <;> simp [insKey, ha, ih]

theorem insKey_append_left {p : Int} {A : List (Int × List Order)}
    (B : List (Int × List Order)) (hA : ∀ e ∈ A, e.1 < p) :
    insKey p (A ++ B) = A ++ insKey p B := by
  induction A with
  | nil => rfl
  | cons a A' ih =>
    have ha : ¬ p < a.1 := not_lt.2 (le_of_lt (hA a (List.mem_cons_self _ _)))
    simp only [List.cons_append, insKey, if_neg ha, List.append_eq]
    rw [ih (fun e he => hA e (List.mem_cons_of_mem _ he))]

theorem mem_map_fst_insKey {p q : Int} {L : List (Int × List Order)} :
    q ∈ (insKey p L).map Prod.fst ↔ q = p ∨ q ∈ L.map Prod.fst := by
  induction L with
  | nil => simp [insKey]
  | cons e rest ih =>
    by_cases hp : p < e.1
    · simp [insKey, hp]
    · simp only [insKey, if_neg hp, List.map_cons, List.mem_cons, ih]
      tauto

theorem pairwise_insKey {p : Int} {L : List (Int × List Order)}
    (hL : (L.map Prod.fst).Pairwise (· < ·)) (hp : p ∉ L.map Prod.fst) :
    ((insKey p L).map Prod.fst).Pairwise (· < ·) := by
  induction L with
  | nil => simp [insKey]
  | cons e rest ih =>
    simp only [List.map_cons, List.pairwise_cons] at hL
    simp only [List.map_cons, List.mem_cons, not_or] at hp
    by_cases hpe : p < e.1
    · simp only [insKey, if_pos hpe, List.map_cons, List.pairwise_cons]
      refine ⟨?_, ?_⟩
      · intro q hq
        rcases List.mem_cons.1 hq with rfl | hq
        · exact hpe
        · exact lt_trans hpe (hL.1 q hq)
      · exact hL
    · have hep : e.1 < p := lt_of_le_of_ne (not_lt.1 hpe) (fun hh => hp.1 hh.symm)
      simp only [insKey, if_neg hpe, List.map_cons, List.pairwise_cons]
      refine ⟨?_, ih hL.2 hp.2⟩
      intro q hq
      rcases mem_map_fst_insKey.1 hq with rfl | hq
      · exact hep
      · exact hL.1 q hq

/-! ## Characterization of the tree operations on their in-order contents -/

namespace LTree

theorem keyT_bounds_left {l : LTree} {np p : Int}
    (hkl : ∀ q ∈ (inorder l).map Prod.fst, q < np) (h : np ≤ p) :
    p ∉ (inorder l).map Prod.fst := by
  intro hmem
  exact absurd (hkl _ hmem) (not_lt.2 h)

theorem keyT_bounds_right {r : LTree} {np p : Int}
    (hkr : ∀ q ∈ (inorder r).map Prod.fst, np < q) (h : p ≤ np) :
    p ∉ (inorder r).map Prod.fst := by
  intro hmem
  exact absurd (hkr _ hmem) (not_lt.2 h)

theorem inorder_setFifo {t : LTree} (hs : SortedT t) (p : Int) (f : List Order) :
    inorder (setFifo t p f) = setKeyA p f (inorder t) := by
  induction t with
  | nil => rfl
  | node l np nf nh r ihl ihr =>
    obtain ⟨hsl, hsr, hkl, hkr⟩ := hs
    rcases lt_trichotomy p np with h | h | h
    · rw [setFifo, if_pos h, inorder, ihl hsl, inorder, setKeyA_append, setKeyA_cons,
        if_neg (by omega), setKeyA_of_not_mem f (keyT_bounds_right hkr (le_of_lt h))]
    · subst h
      rw [setFifo, if_neg (lt_irrefl p), if_neg (lt_irrefl p), inorder, inorder,
        setKeyA_append, setKeyA_cons, if_pos rfl,
        setKeyA_of_not_mem f (keyT_bounds_left hkl (le_refl _)),
        setKeyA_of_not_mem f (keyT_bounds_right hkr (le_refl _))]
    · rw [setFifo, if_neg (by omega), if_pos h, inorder, ihr hsr, inorder, setKeyA_append,
        setKeyA_cons, if_neg (by omega),
        setKeyA_of_not_mem f (keyT_bounds_left hkl (le_of_lt h))]

theorem inorder_appendAt {t : LTree} (hs : SortedT t) (p : Int) (o : Order) :
    inorder (appendAt t p o) = appKeyA p o (inorder t) := by
  induction t with
  | nil => rfl
  | node l np nf nh r ihl ihr =>
    obtain ⟨hsl, hsr, hkl, hkr⟩ := hs
    rcases lt_trichotomy p np with h | h | h
    · rw [appendAt, if_pos h, inorder, ihl hsl, inorder, appKeyA_append, appKeyA_cons,
        if_neg (by omega), appKeyA_of_not_mem o (keyT_bounds_right hkr (le_of_lt h))]
    · subst h
      rw [appendAt, if_neg (lt_irrefl p), if_neg (lt_irrefl p), inorder, inorder,
        appKeyA_append, appKeyA_cons, if_pos rfl,
        appKeyA_of_not_mem o (keyT_bounds_left hkl (le_refl _)),
        appKeyA_of_not_mem o (keyT_bounds_right hkr (le_refl _))]
    · rw [appendAt, if_neg (by omega), if_pos h, inorder, ihr hsr, inorder, appKeyA_append,
        appKeyA_cons, if_neg (by omega),
        appKeyA_of_not_mem o (keyT_bounds_left hkl (le_of_lt h))]

theorem fifoAtD_eq_lookKeyA {t : LTree} (hs : SortedT t) (p : Int) :
    fifoAtD t p = lookKeyA p (inorder t) := by
  induction t with
  | nil => rfl
  | node l np nf nh r ihl ihr =>
    obtain ⟨hsl, hsr, hkl, hkr⟩ := hs
    rcases lt_trichotomy p np with h | h | h
    · rw [fifoAtD, if_pos h, ihl hsl, inorder]
      rw [lookKeyA_append_right (inorder l)]
      simp only [List.map_cons, List.mem_cons, not_or]
      exact ⟨by omega, keyT_bounds_right hkr (le_of_lt h)⟩
    · subst h
      rw [fifoAtD, if_neg (lt_irrefl p), if_neg (lt_irrefl p), inorder,
        lookKeyA_append_not_mem _ (keyT_bounds_left hkl (le_refl _)), lookKeyA_cons,
        if_pos rfl]
    · rw [fifoAtD, if_neg (by omega), if_pos h, ihr hsr, inorder,
        lookKeyA_append_not_mem _ (keyT_bounds_left hkl (le_of_lt h)), lookKeyA_cons,
        if_neg (by omega)]

theorem containsP_iff {t : LTree} (hs : SortedT t) (p : Int) :
    containsP t p = true ↔ p ∈ (inorder t).map Prod.fst := by
  induction t with
  | nil => simp [containsP, inorder]
  | node l np nf nh r ihl ihr =>
    obtain ⟨hsl, hsr, hkl, hkr⟩ := hs
    rcases lt_trichotomy p np with h | h | h
    · rw [containsP, if_pos h, ihl hsl, inorder]
      simp only [List.map_append, List.map_cons, List.mem_append, List.mem_cons]
      constructor
      · exact fun hm => Or.inl hm
      · rintro (hm | hm | hm)
        · exact hm
        · omega
        · exact absurd hm (keyT_bounds_right hkr (le_of_lt h))
    · subst h
      rw [containsP, if_neg (lt_irrefl p), if_neg (lt_irrefl p)]
      simp [inorder]
    · rw [containsP, if_neg (by omega), if_pos h, ihr hsr, inorder]
      simp only [List.map_append, List.map_cons, List.mem_append, List.mem_cons]
      constructor
      · exact fun hm => Or.inr (Or.inr hm)
      · rintro (hm | hm | hm)
        · exact absurd hm (keyT_bounds_left hkl (le_of_lt h))
        · omega
        · exact hm

theorem inorder_insertT {t : LTree} (hs : SortedT t) (p : Int) :
    inorder (insertT t p) =
      if p ∈ (inorder t).map Prod.fst then inorder t else insKey p (inorder t) := by
  induction t with
  | nil => simp [insertT, inorder, insKey]
  | node l np nf nh r ihl ihr =>
    obtain ⟨hsl, hsr, hkl, hkr⟩ := hs
    rcases lt_trichotomy p np with h | h | h
    · rw [insertT, if_pos h, inorder_rebalIns, inorder_upH, inorder, ihl hsl, inorder]
      have hnotr : p ∉ ((np, nf) :: inorder r).map Prod.fst := by
        simp only [List.map_cons, List.mem_cons, not_or]
        exact ⟨by omega, keyT_bounds_right hkr (le_of_lt h)⟩
      by_cases hm : p ∈ (inorder l).map Prod.fst
      · rw [if_pos hm, if_pos]
        simp only [List.map_append, List.mem_append]
        exact Or.inl hm
      · rw [if_neg hm, if_neg, insKey_append_right]
        · intro e he
          rcases List.mem_cons.1 he with rfl | he
          · exact h
          · exact lt_trans h (hkr e.1 (List.mem_map_of_mem Prod.fst he))
        · simp only [List.map_append, List.mem_append, not_or]
          refine ⟨hm, ?_⟩
          simpa using hnotr
    · subst h
      rw [insertT, if_neg (lt_irrefl p), if_neg (lt_irrefl p), if_pos]
      simp [inorder]
    · rw [insertT, if_neg (by omega), if_pos h, inorder_rebalIns, inorder_upH, inorder,
        ihr hsr, inorder]
      have hnotl : p ∉ (inorder l).map Prod.fst := keyT_bounds_left hkl (le_of_lt h)
      by_cases hm : p ∈ (inorder r).map Prod.fst
      · rw [if_pos hm, if_pos]
        simp only [List.map_append, List.map_cons, List.mem_append, List.mem_cons]
        exact Or.inr (Or.inr hm)
      · rw [if_neg hm, if_neg]
        · rw [insKey_append_left ((np, nf) :: inorder r)
            (fun e he => lt_trans (hkl e.1 (List.mem_map_of_mem Prod.fst he)) h),
            insKey_cons_of_lt h]
        · simp only [List.map_append, List.map_cons, List.mem_append, List.mem_cons, not_or]
          exact ⟨hnotl, by omega, hm⟩

theorem sortedT_insertT {t : LTree} (hs : SortedT t) (p : Int) :
    SortedT (insertT t p) := by
  rw [sortedT_iff_pairwise, inorder_insertT hs p]
  by_cases hm : p ∈ (inorder t).map Prod.fst
  · rw [if_pos hm]
    exact (sortedT_iff_pairwise t).1 hs
  · rw [if_neg hm]
    exact pairwise_insKey ((sortedT_iff_pairwise t).1 hs) hm

theorem sortedT_setFifo {t : LTree} (hs : SortedT t) (p : Int) (f : List Order) :
    SortedT (setFifo t p f) := by
  rw [sortedT_iff_pairwise, inorder_setFifo hs p f, map_fst_setKeyA,
    ← sortedT_iff_pairwise]
  exact hs

theorem sortedT_appendAt {t : LTree} (hs : SortedT t) (p : Int) (o : Order) :
    SortedT (appendAt t p o) := by
  rw [sortedT_iff_pairwise, inorder_appendAt hs p o, map_fst_appKeyA,
    ← sortedT_iff_pairwise]
  exact hs

theorem removeLimit_spec {t : LTree} (hs : SortedT t) (p : Int) :
    inorder (removeLimit t p).1 = eraseKeyA p (inorder t) ∧
    (removeLimit t p).2 = (if p ∈ (inorder t).map Prod.fst then 1 else 0) := by
  induction t generalizing p with
  | nil => simp [removeLimit, eraseKeyA_nil, inorder]
  | node l np nf nh r ihl ihr =>
    obtain ⟨hsl, hsr, hkl, hkr⟩ := hs
    rcases lt_trichotomy p np with h | h | h
    · have hml := ihl hsl p
      have hmem : (p ∈ (inorder (node l np nf nh r)).map Prod.fst) ↔
          (p ∈ (inorder l).map Prod.fst) := by
        rw [inorder]
        simp only [List.map_append, List.map_cons, List.mem_append, List.mem_cons]
        constructor
        · rintro (hm | hm | hm)
          · exact hm
          · omega
          · exact absurd hm (keyT_bounds_right hkr (le_of_lt h))
        · exact fun hm => Or.inl hm
      rw [removeLimit.eq_def]
      simp only [if_pos h]
      refine ⟨?_, ?_⟩
      · rw [inorder_rebalDel, inorder_upH, inorder, hml.1]
        conv_rhs => rw [inorder]
        rw [eraseKeyA_append, eraseKeyA_cons, if_neg (by omega),
          eraseKeyA_of_not_mem (keyT_bounds_right hkr (le_of_lt h))]
      · rw [hml.2]
        by_cases hp : p ∈ (inorder l).map Prod.fst
        · rw [if_pos hp, if_pos (hmem.2 hp)]
        · rw [if_neg hp, if_neg (fun hh => hp (hmem.1 hh))]
    · subst h
      have hmem : p ∈ (inorder (node l p nf nh r)).map Prod.fst := by
        rw [inorder]
        simp
      cases l with
      | nil =>
        rw [removeLimit.eq_def]
        simp only [if_neg (lt_irrefl p)]
        refine ⟨?_, by rw [if_pos hmem]⟩
        rw [inorder, inorder, List.nil_append, eraseKeyA_cons, if_pos rfl,
          eraseKeyA_of_not_mem (keyT_bounds_right hkr (le_refl _))]
      | node la lb lc ld le =>
        cases r with
        | nil =>
          rw [removeLimit.eq_def]
          simp only [if_neg (lt_irrefl p)]
          refine ⟨?_, by rw [if_pos hmem]⟩
          conv_rhs => rw [inorder]
          rw [eraseKeyA_append, eraseKeyA_cons, if_pos rfl]
          have hnil : eraseKeyA p (inorder nil) = [] := rfl
          rw [hnil, List.append_nil,
            eraseKeyA_of_not_mem (keyT_bounds_left hkl (le_refl _))]
        | node a b c d e =>
          rcases hio : inorder (node a b c d e) with _ | ⟨⟨sp, sf⟩, tail⟩
          · exact absurd hio (by simp [inorder])
          · have hgm : getMinT (node a b c d e) = some (sp, sf) := by
              rw [getMinT_eq_head, hio]
              rfl
            have hpw := (sortedT_iff_pairwise (node a b c d e)).1 hsr
            rw [hio] at hpw
            simp only [List.map_cons, List.pairwise_cons] at hpw
            have hsp_tail : sp ∉ tail.map Prod.fst := fun hm =>
              absurd (hpw.1 sp hm) (lt_irrefl sp)
            have hmr := ihr hsr sp
            have hspmem : sp ∈ (inorder (node a b c d e)).map Prod.fst := by
              rw [hio]
              simp
            rw [removeLimit.eq_def]
            simp only [if_neg (lt_irrefl p)]
            rw [hgm]
            simp only []
            refine ⟨?_, ?_⟩
            · rw [inorder_rebalDel, inorder_upH, inorder, hmr.1, hio, eraseKeyA_cons,
                if_pos rfl, eraseKeyA_of_not_mem hsp_tail]
              conv_rhs => rw [inorder]
              rw [eraseKeyA_append, eraseKeyA_cons, if_pos rfl,
                eraseKeyA_of_not_mem (keyT_bounds_left hkl (le_refl _)), hio,
                eraseKeyA_cons]
              have hppw := hkr sp (by rw [hio]; simp)
              rw [if_neg (by omega), eraseKeyA_of_not_mem]
              intro hm
              have := hkr p (by rw [hio]; simp [hm])
              omega
            · rw [hmr.2, if_pos hspmem, if_pos hmem]
    · have hmr := ihr hsr p
      have hmem : (p ∈ (inorder (node l np nf nh r)).map Prod.fst) ↔
          (p ∈ (inorder r).map Prod.fst) := by
        rw [inorder]
        simp only [List.map_append, List.map_cons, List.mem_append, List.mem_cons]
        constructor
        · rintro (hm | hm | hm)
          · exact absurd hm (keyT_bounds_left hkl (le_of_lt h))
          · omega
          · exact hm
        · exact fun hm => Or.inr (Or.inr hm)
      rw [removeLimit.eq_def]
      simp only [if_neg (show ¬ p < np by omega), if_pos h]
      refine ⟨?_, ?_⟩
      · rw [inorder_rebalDel, inorder_upH, inorder, hmr.1]
        conv_rhs => rw [inorder]
        rw [eraseKeyA_append, eraseKeyA_cons, if_neg (by omega),
          eraseKeyA_of_not_mem (keyT_bounds_left hkl (le_of_lt h))]
      · rw [hmr.2]
        by_cases hp : p ∈ (inorder r).map Prod.fst
        · rw [if_pos hp, if_pos (hmem.2 hp)]
        · rw [if_neg hp, if_neg (fun hh => hp (hmem.1 hh))]

theorem sortedT_removeLimit {t : LTree} (hs : SortedT t) (p : Int) :
    SortedT (removeLimit t p).1 := by
  rw [sortedT_iff_pairwise, (removeLimit_spec hs p).1]
  exact ((sortedT_iff_pairwise t).1 hs).sublist ((eraseKeyA_sublist p (inorder t)).map _)

theorem length_eraseKeyA_lt {p : Int} {L : List (Int × List Order)}
    (h : p ∈ L.map Prod.fst) : (eraseKeyA p L).length < L.length := by
  induction L with
  | nil => simp at h
  | cons e rest ih =>
    rw [eraseKeyA_cons]
    by_cases he : e.1 = p
    · rw [if_pos he]
      have := (eraseKeyA_sublist p rest).length_le
      simp only [List.length_cons]
      omega
    · simp only [List.map_cons, List.mem_cons] at h
      rcases h with h | h
      · exact absurd h.symm he
      · rw [if_neg he]
        simp only [List.length_cons]
        exact Nat.succ_lt_succ (ih h)

theorem limitCount_removeLimit_lt {t : LTree} (hs : SortedT t) {p : Int}
    (hp : p ∈ (inorder t).map Prod.fst) :
    limitCount (removeLimit t p).1 < limitCount t := by
  rw [limitCount_eq_length, limitCount_eq_length, (removeLimit_spec hs p).1]
  exact length_eraseKeyA_lt hp

end LTree

/-! ## Matching-loop lemmas -/


theorem matchLoop_zero (takerId : Nat) (side : Side) (price : Int) (fuel : Nat) (t : LTree)
    (ts : Nat) (le : Int) :
    matchLoop takerId side price fuel 0 t ts le = ⟨0, t, [], ts, [], 0, le⟩ := by
  cases fuel with
  | zero => rfl
  | succ n =>
    rw [matchLoop, if_pos rfl]

theorem lastPriceD_nil (le : Int) : lastPriceD le [] = le := rfl

theorem lastPriceD_append (le : Int) (A B : List TradeReport) :
    lastPriceD le (A ++ B) = lastPriceD (lastPriceD le A) B := by
  cases B with
  | nil => rw [List.append_nil, lastPriceD_nil]
  | cons b B' =>
    rw [lastPriceD, lastPriceD, List.getLast?_append_cons]
    rcases h : (b :: B').getLast? with _ | tr
    · exact absurd (List.getLast?_eq_none_iff.1 h) (by simp)
    · rfl

theorem lastPriceD_const (le bp : Int) (trs : List TradeReport)
    (hne : trs ≠ []) (hall : ∀ tr ∈ trs, tr.price = bp) :
    lastPriceD le trs = bp := by
  rw [lastPriceD]
  rcases hlast : trs.getLast? with _ | tr
  · exact absurd (List.getLast?_eq_none_iff.1 hlast) hne
  · exact hall tr (List.mem_of_mem_getLast? hlast)

theorem walkFIFO_facts (takerId : Nat) (lvlPrice : Int) :
    ∀ (fifo : List Order) (s ts : Nat),
      ((walkFIFO takerId lvlPrice s fifo ts).trades.map (fun tr => (tr.makerId, tr.price)) =
        (fifo.take (walkFIFO takerId lvlPrice s fifo ts).trades.length).map
          (fun o => (o.id, lvlPrice))) ∧
      (walkFIFO takerId lvlPrice s fifo ts).trades.length ≤ fifo.length ∧
      ((walkFIFO takerId lvlPrice s fifo ts).fifo = [] →
        (walkFIFO takerId lvlPrice s fifo ts).trades.length = fifo.length) ∧
      ((walkFIFO takerId lvlPrice s fifo ts).fifo ≠ [] →
        (walkFIFO takerId lvlPrice s fifo ts).remaining = 0) ∧
      (∀ tr ∈ (walkFIFO takerId lvlPrice s fifo ts).trades, tr.price = lvlPrice) ∧
      (0 < s → fifo ≠ [] → (walkFIFO takerId lvlPrice s fifo ts).trades ≠ []) := by
  intro fifo
  induction fifo with
  | nil =>
    intro s ts
    cases s <;> simp [walkFIFO]
  | cons m rest ih =>
    intro s ts
    cases s with
    | zero => simp [walkFIFO]
    | succ n =>
      rw [walkFIFO]
      by_cases hms : m.shares - min (n + 1) m.shares = 0
      · simp only [if_pos hms]
        obtain ⟨ih1, ih2, ih3, ih4, ih5, ih6⟩ := ih (n + 1 - min (n + 1) m.shares) (ts + 1)
        refine ⟨?_, ?_, ?_, ?_, ?_, ?_⟩
        · simp only [List.map_cons, List.length_cons, List.take_succ_cons, ih1]
        · simp only [List.length_cons]
          omega
        · intro hf
          simp only [List.length_cons, ih3 hf]
        · exact ih4
        · intro tr htr
          rcases List.mem_cons.1 htr with rfl | htr
          · rfl
          · exact ih5 tr htr
        · intro _ _
          simp
      · simp only [if_neg hms]
        refine ⟨?_, ?_, ?_, ?_, ?_, ?_⟩
        · simp
        · simp
        · intro hf
          simp at hf
        · intro _
          rcases Nat.le_total (n + 1) m.shares with hle | hle
          · rw [Nat.min_eq_left hle]
            omega
          · rw [Nat.min_eq_right hle] at hms ⊢
            omega
        · intro tr htr
          simp at htr
          subst htr
          rfl
        · intro _ _
          simp



theorem matchLoop_step (takerId : Nat) (side : Side) (price : Int) (fuel s : Nat)
    (t : LTree) (ts : Nat) (le : Int) (hs0 : ¬ s = 0) {bp : Int} {bf : List Order}
    (hb : bestFor side t = some (bp, bf)) (hcf : crossFail side price bp = false) :
    matchLoop takerId side price (fuel + 1) s t ts le =
      (let w := walkFIFO takerId bp s bf ts
       let le' := if w.trades = [] then le else bp
       let tr := if w.fifo = [] then removeLimit t bp else (setFifo t bp w.fifo, 0)
       let r := matchLoop takerId side price fuel w.remaining tr.1 w.ts le'
       ⟨r.remaining, r.tree, w.trades ++ r.trades, r.ts, w.removedIds ++ r.removedIds,
         tr.2 + r.recycledLimits, r.lastExec⟩) := by
  rw [matchLoop, if_neg hs0, hb]
  simp only [hcf, Bool.false_eq_true, if_false]



theorem prio_buy_cons {t : LTree} {bp : Int} {bf : List Order}
    {rest : List (Int × List Order)} (hio : inorder t = (bp, bf) :: rest) :
    prio Side.Buy t = bf.map (fun o => (bp, o)) ++ flattenLevels rest := by
  rw [prio, hio, flattenLevels]

theorem matchLoop_prefix_buy (takerId : Nat) (price : Int) :
    ∀ (fuel : Nat) (t : LTree) (s ts : Nat) (le : Int), SortedT t → limitCount t < fuel →
      (matchLoop takerId Side.Buy price fuel s t ts le).trades.map
          (fun tr => (tr.makerId, tr.price)) =
        ((prio Side.Buy t).take
            (matchLoop takerId Side.Buy price fuel s t ts le).trades.length).map
          (fun e => (e.2.id, e.1)) := by
  intro fuel
  induction fuel with
  | zero =>
    intro t s ts le hs hf
    omega
  | succ n ih =>
    intro t s ts le hs hf
    by_cases hs0 : s = 0
    · subst hs0
      rw [matchLoop_zero]
      simp
    rcases hio : inorder t with _ | ⟨⟨bp, bf⟩, rest⟩
    · have ht : t = LTree.nil := (inorder_eq_nil_iff t).1 hio
      subst ht
      rw [matchLoop, if_neg hs0]
      have hb : bestFor Side.Buy LTree.nil = none := rfl
      rw [hb]
      simp
    · have hb : bestFor Side.Buy t = some (bp, bf) := by
        show getMinT t = some (bp, bf)
        rw [getMinT_eq_head, hio]
        rfl
      by_cases hcf : crossFail Side.Buy price bp = true
      · rw [matchLoop, if_neg hs0, hb]
        simp only [hcf, if_true]
        simp
      · have hcf2 : crossFail Side.Buy price bp = false := by
          revert hcf
          cases crossFail Side.Buy price bp <;> simp
        rw [matchLoop_step takerId Side.Buy price n s t ts le hs0 hb hcf2]
        obtain ⟨hmap, hlen, hfeq, hfne, hprices, hne⟩ :=
          walkFIFO_facts takerId bp bf s ts
        by_cases hwf : (walkFIFO takerId bp s bf ts).fifo = []
        · simp only [if_pos hwf]
          have hpw := (sortedT_iff_pairwise t).1 hs
          rw [hio] at hpw
          simp only [List.map_cons, List.pairwise_cons] at hpw
          have hbp_rest : bp ∉ rest.map Prod.fst := fun hm =>
            absurd (hpw.1 bp hm) (lt_irrefl bp)
          have hio2 : inorder (removeLimit t bp).1 = rest := by
            rw [(removeLimit_spec hs bp).1, hio, eraseKeyA_cons, if_pos rfl,
              eraseKeyA_of_not_mem hbp_rest]
          have hs2 : SortedT (removeLimit t bp).1 := sortedT_removeLimit hs bp
          have hcount : limitCount (removeLimit t bp).1 < n := by
            rw [limitCount_eq_length, hio2]
            rw [limitCount_eq_length, hio] at hf
            simp only [List.length_cons] at hf
            omega
          have ihr := ih (removeLimit t bp).1 (walkFIFO takerId bp s bf ts).remaining
            (walkFIFO takerId bp s bf ts).ts
            (if (walkFIFO takerId bp s bf ts).trades = [] then le else bp) hs2 hcount
          have hprio2 : prio Side.Buy (removeLimit t bp).1 = flattenLevels rest := by
            rw [prio, hio2]
          rw [hprio2] at ihr
          have hwlen : (walkFIFO takerId bp s bf ts).trades.length = bf.length := hfeq hwf
          simp only [List.map_append, List.length_append, hmap, hwlen, ihr,
            prio_buy_cons hio, List.take_take]
          rw [List.take_of_length_le (le_refl bf.length)]
          have hlm : bf.length = (bf.map (fun o => (bp, o))).length := by
            rw [List.length_map]
          rw [hlm, List.take_append, List.map_append, List.map_map]
          rfl
        · simp only [if_neg hwf]
          rw [hfne hwf, matchLoop_zero]
          simp only [List.append_nil]
          rw [hmap, prio_buy_cons hio,
            List.take_append_of_le_length (by rw [List.length_map]; exact hlen),
            ← List.map_take, List.map_map]
          rfl



theorem prio_sell_snoc {t : LTree} {bp : Int} {bf : List Order}
    {revinit : List (Int × List Order)} (hio : (inorder t).reverse = (bp, bf) :: revinit) :
    prio Side.Sell t = bf.map (fun o => (bp, o)) ++ flattenLevels revinit := by
  rw [prio, hio, flattenLevels]

theorem matchLoop_prefix_sell (takerId : Nat) (price : Int) :
    ∀ (fuel : Nat) (t : LTree) (s ts : Nat) (le : Int), SortedT t → limitCount t < fuel →
      (matchLoop takerId Side.Sell price fuel s t ts le).trades.map
          (fun tr => (tr.makerId, tr.price)) =
        ((prio Side.Sell t).take
            (matchLoop takerId Side.Sell price fuel s t ts le).trades.length).map
          (fun e => (e.2.id, e.1)) := by
  intro fuel
  induction fuel with
  | zero =>
    intro t s ts le hs hf
    omega
  | succ n ih =>
    intro t s ts le hs hf
    by_cases hs0 : s = 0
    · subst hs0
      rw [matchLoop_zero]
      simp
    rcases hio : (inorder t).reverse with _ | ⟨⟨bp, bf⟩, revinit⟩
    · have ht : t = LTree.nil := by
        apply (inorder_eq_nil_iff t).1
        have := congrArg List.reverse hio
        simpa using this
      subst ht
      rw [matchLoop, if_neg hs0]
      have hb : bestFor Side.Sell LTree.nil = none := rfl
      rw [hb]
      simp
    · have hEq : inorder t = revinit.reverse ++ [(bp, bf)] := by
        have := congrArg List.reverse hio
        simpa using this
      have hb : bestFor Side.Sell t = some (bp, bf) := by
        show getMaxT t = some (bp, bf)
        rw [getMaxT_eq_getLast, ← List.head?_reverse, hio]
        rfl
      by_cases hcf : crossFail Side.Sell price bp = true
      · rw [matchLoop, if_neg hs0, hb]
        simp only [hcf, if_true]
        simp
      · have hcf2 : crossFail Side.Sell price bp = false := by
          revert hcf
          cases crossFail Side.Sell price bp <;> simp
        rw [matchLoop_step takerId Side.Sell price n s t ts le hs0 hb hcf2]
        obtain ⟨hmap, hlen, hfeq, hfne, hprices, hne⟩ :=
          walkFIFO_facts takerId bp bf s ts
        by_cases hwf : (walkFIFO takerId bp s bf ts).fifo = []
        · simp only [if_pos hwf]
          have hpw := (sortedT_iff_pairwise t).1 hs
          rw [hEq] at hpw
          rw [List.map_append, List.pairwise_append] at hpw
          have hbp_init : bp ∉ (revinit.reverse).map Prod.fst := by
            intro hm
            have := hpw.2.2 bp hm bp (by simp)
            exact absurd this (lt_irrefl bp)
          have hio2 : inorder (removeLimit t bp).1 = revinit.reverse := by
            rw [(removeLimit_spec hs bp).1, hEq, eraseKeyA_append,
              eraseKeyA_of_not_mem hbp_init, eraseKeyA_cons, if_pos rfl, eraseKeyA_nil,
              List.append_nil]
          have hs2 : SortedT (removeLimit t bp).1 := sortedT_removeLimit hs bp
          have hcount : limitCount (removeLimit t bp).1 < n := by
            rw [limitCount_eq_length, hio2]
            rw [limitCount_eq_length, hEq] at hf
            simp only [List.length_append, List.length_reverse, List.length_cons] at hf ⊢
            omega
          have ihr := ih (removeLimit t bp).1 (walkFIFO takerId bp s bf ts).remaining
            (walkFIFO takerId bp s bf ts).ts
            (if (walkFIFO takerId bp s bf ts).trades = [] then le else bp) hs2 hcount
          have hprio2 : prio Side.Sell (removeLimit t bp).1 = flattenLevels revinit := by
            rw [prio, hio2, List.reverse_reverse]
          rw [hprio2] at ihr
          have hwlen : (walkFIFO takerId bp s bf ts).trades.length = bf.length := hfeq hwf
          simp only [List.map_append, List.length_append, hmap, hwlen, ihr,
            prio_sell_snoc hio, List.take_take]
          rw [List.take_of_length_le (le_refl bf.length)]
          have hlm : bf.length = (bf.map (fun o => (bp, o))).length := by
            rw [List.length_map]
          rw [hlm, List.take_append, List.map_append, List.map_map]
          rfl
        · simp only [if_neg hwf]
          rw [hfne hwf, matchLoop_zero]
          simp only [List.append_nil]
          rw [hmap, prio_sell_snoc hio,
            List.take_append_of_le_length (by rw [List.length_map]; exact hlen),
            ← List.map_take, List.map_map]
          rfl



theorem pairwise_map_const {R : Int → Int → Prop} (hrefl : ∀ p, R p p) (p : Int)
    (f : List Order) : (f.map (fun _ => p)).Pairwise R := by
  induction f with
  | nil => simp
  | cons o rest ih =>
    rw [List.map_cons, List.pairwise_cons]
    refine ⟨?_, ih⟩
    intro q hq
    rcases List.mem_map.1 hq with ⟨o2, _, rfl⟩
    exact hrefl p

theorem mem_map_fst_flattenLevels {L : List (Int × List Order)} {q : Int}
    (hq : q ∈ (flattenLevels L).map Prod.fst) : q ∈ L.map Prod.fst := by
  induction L with
  | nil => simp [flattenLevels] at hq
  | cons e rest ih =>
    rcases e with ⟨p, f⟩
    rw [flattenLevels, List.map_append, List.mem_append] at hq
    rcases hq with hq | hq
    · rcases List.mem_map.1 hq with ⟨x, hx, rfl⟩
      rcases List.mem_map.1 hx with ⟨o, _, rfl⟩
      simp
    · rw [List.map_cons, List.mem_cons]
      exact Or.inr (ih hq)

theorem pairwise_map_fst_flattenLevels (R : Int → Int → Prop) (hrefl : ∀ p, R p p)
    {L : List (Int × List Order)} (hL : (L.map Prod.fst).Pairwise R) :
    ((flattenLevels L).map Prod.fst).Pairwise R := by
  induction L with
  | nil => simp [flattenLevels]
  | cons e rest ih =>
    rcases e with ⟨p, f⟩
    simp only [List.map_cons, List.pairwise_cons] at hL
    rw [flattenLevels, List.map_append, List.pairwise_append]
    refine ⟨?_, ih hL.2, ?_⟩
    · rw [List.map_map]
      have : (Prod.fst ∘ fun o => ((p : Int), o)) = fun (_ : Order) => p := rfl
      rw [this]
      exact pairwise_map_const hrefl p f
    · intro a ha b hb
      rw [List.map_map] at ha
      have hap : a = p := by
        rcases List.mem_map.1 ha with ⟨o, _, rfl⟩
        rfl
      subst hap
      exact hL.1 b (mem_map_fst_flattenLevels hb)

theorem prio_pairwise (side : Side) {t : LTree} (hs : SortedT t) :
    ((prio side t).map Prod.fst).Pairwise (priorityLE side) := by
  cases side
  · have hpr : prio Side.Buy t = flattenLevels (inorder t) := rfl
    rw [hpr]
    apply pairwise_map_fst_flattenLevels (priorityLE Side.Buy) (fun p => le_refl p)
    exact ((sortedT_iff_pairwise t).1 hs).imp le_of_lt
  · have hpr : prio Side.Sell t = flattenLevels (inorder t).reverse := rfl
    rw [hpr]
    apply pairwise_map_fst_flattenLevels (priorityLE Side.Sell) (fun p => le_refl p)
    rw [List.map_reverse, List.pairwise_reverse]
    exact ((sortedT_iff_pairwise t).1 hs).imp le_of_lt

theorem matchLoop_no_crossfail (takerId : Nat) (side : Side) (price : Int) :
    ∀ (fuel : Nat) (t : LTree) (s ts : Nat) (le : Int), SortedT t → limitCount t < fuel →
      (∀ q ∈ (inorder t).map Prod.fst, crossFail side price q = false) →
      (matchLoop takerId side price fuel s t ts le).remaining = 0 ∨
      (matchLoop takerId side price fuel s t ts le).tree = LTree.nil := by
  intro fuel
  induction fuel with
  | zero =>
    intro t s ts le hs hf hq
    omega
  | succ n ih =>
    intro t s ts le hs hf hq
    by_cases hs0 : s = 0
    · subst hs0
      rw [matchLoop_zero]
      exact Or.inl rfl
    rcases hbo : bestFor side t with _ | ⟨bp, bf⟩
    · have ht : t = LTree.nil := by
        apply (inorder_eq_nil_iff t).1
        cases side
        · have hm : (inorder t).head? = none := by rw [← getMinT_eq_head]; exact hbo
          exact List.head?_eq_none_iff.1 hm
        · have hm : (inorder t).getLast? = none := by rw [← getMaxT_eq_getLast]; exact hbo
          exact List.getLast?_eq_none_iff.1 hm
      rw [matchLoop, if_neg hs0, hbo]
      exact Or.inr ht
    · have hbp_mem : bp ∈ (inorder t).map Prod.fst := by
        cases side
        · have hm : (inorder t).head? = some (bp, bf) := by
            rw [← getMinT_eq_head]; exact hbo
          exact List.mem_map_of_mem Prod.fst (List.mem_of_mem_head? hm)
        · have hm : (inorder t).getLast? = some (bp, bf) := by
            rw [← getMaxT_eq_getLast]; exact hbo
          exact List.mem_map_of_mem Prod.fst (List.mem_of_mem_getLast? hm)
      have hcf : crossFail side price bp = false := hq bp hbp_mem
      rw [matchLoop_step takerId side price n s t ts le hs0 hbo hcf]
      obtain ⟨hmap, hlen, hfeq, hfne, hprices, hne⟩ :=
        walkFIFO_facts takerId bp bf s ts
      by_cases hwf : (walkFIFO takerId bp s bf ts).fifo = []
      · simp only [if_pos hwf]
        apply ih
        · exact sortedT_removeLimit hs bp
        · have := limitCount_removeLimit_lt hs hbp_mem
          omega
        · intro q hqm
          apply hq
          have hsub : ((removeLimit t bp).1.inorder.map Prod.fst).Sublist
              ((inorder t).map Prod.fst) := by
            rw [(removeLimit_spec hs bp).1]
            exact (eraseKeyA_sublist bp (inorder t)).map Prod.fst
          exact hsub.subset hqm
      · simp only [if_neg hwf]
        rw [hfne hwf, matchLoop_zero]
        exact Or.inl rfl

theorem matchLoop_lastExec (takerId : Nat) (side : Side) (price : Int) :
    ∀ (fuel : Nat) (t : LTree) (s ts : Nat) (le : Int),
      (matchLoop takerId side price fuel s t ts le).lastExec =
        lastPriceD le (matchLoop takerId side price fuel s t ts le).trades := by
  intro fuel
  induction fuel with
  | zero =>
    intro t s ts le
    rfl
  | succ n ih =>
    intro t s ts le
    by_cases hs0 : s = 0
    · subst hs0
      rw [matchLoop_zero]
      rfl
    rcases hbo : bestFor side t with _ | ⟨bp, bf⟩
    · rw [matchLoop, if_neg hs0, hbo]
      rfl
    by_cases hcf : crossFail side price bp = true
    · rw [matchLoop, if_neg hs0, hbo]
      simp only [hcf, if_true]
      rfl
    · have hcf2 : crossFail side price bp = false := by
        revert hcf
        cases crossFail side price bp <;> simp
      rw [matchLoop_step takerId side price n s t ts le hs0 hbo hcf2]
      obtain ⟨hmap, hlen, hfeq, hfne, hprices, hne⟩ :=
        walkFIFO_facts takerId bp bf s ts
      simp only []
      rw [lastPriceD_append]
      by_cases hwt : (walkFIFO takerId bp s bf ts).trades = []
      · simp only [if_pos hwt, hwt, lastPriceD_nil]
        exact ih _ _ _ _
      · simp only [if_neg hwt]
        rw [lastPriceD_const le bp _ hwt hprices]
        exact ih _ _ _ _

/-! ## Stop-scan lemmas -/


theorem fireLevels_nil : fireLevels [] = [] := rfl

theorem fireLevels_cons (e : Int × List Order) (L : List (Int × List Order)) :
    fireLevels (e :: L) = fireLevel e.2 ++ fireLevels L := rfl

theorem checkStopsSell_spec (px : Int) :
    ∀ (fuel : Nat) (t : LTree), SortedT t → limitCount t ≤ fuel →
      (checkStopsSell px fuel t).triggered =
        fireLevels ((inorder t).filter (fun e => px ≤ e.1)).reverse := by
  intro fuel
  induction fuel with
  | zero =>
    intro t hs hf
    have hnil : inorder t = [] := by
      rw [limitCount_eq_length] at hf
      exact List.length_eq_zero.1 (Nat.le_zero.1 hf)
    rw [checkStopsSell, hnil]
    rfl
  | succ n ih =>
    intro t hs hf
    rcases hio : (inorder t).reverse with _ | ⟨⟨hp, bf⟩, revinit⟩
    · have hnil : inorder t = [] := by
        have := congrArg List.reverse hio
        simpa using this
      have hgm : getMaxT t = none := by
        rw [getMaxT_eq_getLast, hnil]
        rfl
      rw [checkStopsSell, hgm]
      simp only [hnil]
      rfl
    · have hEq : inorder t = revinit.reverse ++ [(hp, bf)] := by
        have := congrArg List.reverse hio
        simpa using this
      have hgm : getMaxT t = some (hp, bf) := by
        rw [getMaxT_eq_getLast, ← List.head?_reverse, hio]
        rfl
      have hpw := (sortedT_iff_pairwise t).1 hs
      rw [hEq, List.map_append, List.pairwise_append] at hpw
      have hinit_lt : ∀ e ∈ revinit.reverse, e.1 < hp := by
        intro e he
        exact hpw.2.2 e.1 (List.mem_map_of_mem Prod.fst he) hp (by simp)
      rw [checkStopsSell, hgm]
      simp only []
      by_cases hq : px ≤ hp
      · rw [if_pos hq]
        have hhp_init : hp ∉ (revinit.reverse).map Prod.fst := by
          intro hm
          rcases List.mem_map.1 hm with ⟨e, he, hfst⟩
          have := hinit_lt e he
          omega
        have hio2 : inorder (removeLimit t hp).1 = revinit.reverse := by
          rw [(removeLimit_spec hs hp).1, hEq, eraseKeyA_append,
            eraseKeyA_of_not_mem hhp_init, eraseKeyA_cons, if_pos rfl, eraseKeyA_nil,
            List.append_nil]
        have hs2 : SortedT (removeLimit t hp).1 := sortedT_removeLimit hs hp
        have hcount : limitCount (removeLimit t hp).1 ≤ n := by
          rw [limitCount_eq_length, hio2]
          rw [limitCount_eq_length, hEq] at hf
          simp only [List.length_append, List.length_reverse, List.length_cons] at hf ⊢
          omega
        have ihr := ih (removeLimit t hp).1 hs2 hcount
        rw [hio2] at ihr
        simp only [ihr, hEq, List.filter_append]
        rw [show (List.filter (fun e => decide (px ≤ e.1)) [(hp, bf)]) = [(hp, bf)] by
          simp [hq]]
        rw [List.reverse_append]
        simp only [List.reverse_cons, List.reverse_nil, List.nil_append,
          List.singleton_append, fireLevels_cons]
      · rw [if_neg hq]
        have hflt : (inorder t).filter (fun e => decide (px ≤ e.1)) = [] := by
          rw [List.filter_eq_nil_iff]
          intro e he
          rw [hEq, List.mem_append] at he
          rcases he with he | he
          · have := hinit_lt e he
            simp only [decide_eq_true_eq]
            omega
          · rcases List.mem_singleton.1 he with rfl
            simp only [decide_eq_true_eq]
            omega
        rw [hflt]
        rfl

theorem checkStopsBuy_spec (px : Int) :
    ∀ (fuel : Nat) (t : LTree), SortedT t → limitCount t ≤ fuel →
      (checkStopsBuy px fuel t).triggered =
        fireLevels ((inorder t).filter (fun e => e.1 ≤ px)) := by
  intro fuel
  induction fuel with
  | zero =>
    intro t hs hf
    have hnil : inorder t = [] := by
      rw [limitCount_eq_length] at hf
      exact List.length_eq_zero.1 (Nat.le_zero.1 hf)
    rw [checkStopsBuy, hnil]
    rfl
  | succ n ih =>
    intro t hs hf
    rcases hio : inorder t with _ | ⟨⟨lp, bf⟩, rest⟩
    · have hgm : getMinT t = none := by
        rw [getMinT_eq_head, hio]
        rfl
      rw [checkStopsBuy, hgm]
      rfl
    · have hgm : getMinT t = some (lp, bf) := by
        rw [getMinT_eq_head, hio]
        rfl
      have hpw := (sortedT_iff_pairwise t).1 hs
      rw [hio] at hpw
      simp only [List.map_cons, List.pairwise_cons] at hpw
      have hrest_gt : ∀ q ∈ rest.map Prod.fst, lp < q := hpw.1
      rw [checkStopsBuy, hgm]
      simp only []
      by_cases hq : lp ≤ px
      · rw [if_pos hq]
        have hlp_rest : lp ∉ rest.map Prod.fst := by
          intro hm
          have := hrest_gt lp hm
          omega
        have hio2 : inorder (removeLimit t lp).1 = rest := by
          rw [(removeLimit_spec hs lp).1, hio, eraseKeyA_cons, if_pos rfl,
            eraseKeyA_of_not_mem hlp_rest]
        have hs2 : SortedT (removeLimit t lp).1 := sortedT_removeLimit hs lp
        have hcount : limitCount (removeLimit t lp).1 ≤ n := by
          rw [limitCount_eq_length, hio2]
          rw [limitCount_eq_length, hio] at hf
          simp only [List.length_cons] at hf
          omega
        have ihr := ih (removeLimit t lp).1 hs2 hcount
        rw [hio2] at ihr
        simp only [ihr, hio, List.filter_cons]
        rw [if_pos (by simp [hq])]
        rw [fireLevels_cons]
      · rw [if_neg hq]
        have hflt : (inorder t).filter (fun e => decide (e.1 ≤ px)) = [] := by
          rw [List.filter_eq_nil_iff]
          intro e he
          rw [hio, List.mem_cons] at he
          simp only [decide_eq_true_eq]
          rcases he with rfl | he
          · omega
          · have := hrest_gt e.1 (List.mem_map_of_mem Prod.fst he)
            omega
        rw [hio] at hflt
        rw [hflt]
        rfl

/-! ## Zero-quantity submit lemmas -/


theorem mapLookup_mapSet (m : List (Nat × Side × Int)) (id : Nat) (v : Side × Int) :
    mapLookup (mapSet m id v) id = some v := by
  induction m with
  | nil => simp [mapSet, mapLookup]
  | cons e rest ih =>
    rcases e with ⟨k, w⟩
    by_cases hk : k = id
    · subst hk
      simp [mapSet, mapLookup]
    · simp [mapSet, mapLookup, hk, ih]

theorem lookKeyA_appKeyA_mem {p : Int} (o : Order) {L : List (Int × List Order)}
    (h : p ∈ L.map Prod.fst) : lookKeyA p (appKeyA p o L) = lookKeyA p L ++ [o] := by
  induction L with
  | nil => simp at h
  | cons e rest ih =>
    by_cases he : e.1 = p
    · rw [appKeyA_cons, if_pos he, lookKeyA_cons, lookKeyA_cons, if_pos he]
      simp [he]
    · simp only [List.map_cons, List.mem_cons] at h
      rcases h with h | h
      · exact absurd h.symm he
      · rw [appKeyA_cons, if_neg he, lookKeyA_cons, lookKeyA_cons, if_neg he, if_neg he,
          ih h]

theorem lookKeyA_insKey_self {p : Int} {L : List (Int × List Order)}
    (h : p ∉ L.map Prod.fst) : lookKeyA p (insKey p L) = [] := by
  induction L with
  | nil => simp [insKey, lookKeyA]
  | cons e rest ih =>
    simp only [List.map_cons, List.mem_cons, not_or] at h
    by_cases hp : p < e.1
    · rw [insKey, if_pos hp, lookKeyA_cons, if_pos rfl]
    · rw [insKey, if_neg hp, lookKeyA_cons, if_neg (fun hh => h.1 hh.symm), ih h.2]

theorem fifoAtD_append_arm {t : LTree} (hs : SortedT t) (p : Int) (o : Order) :
    fifoAtD (appendAt (insertT t p) p o) p = fifoAtD t p ++ [o] := by
  have hs2 : SortedT (insertT t p) := sortedT_insertT hs p
  rw [fifoAtD_eq_lookKeyA (sortedT_appendAt hs2 p o), inorder_appendAt hs2,
    fifoAtD_eq_lookKeyA hs, inorder_insertT hs]
  by_cases hm : p ∈ (inorder t).map Prod.fst
  · rw [if_pos hm, lookKeyA_appKeyA_mem o hm]
  · rw [if_neg hm, lookKeyA_of_not_mem hm, List.nil_append]
    have hmem : p ∈ (insKey p (inorder t)).map Prod.fst := mem_map_fst_insKey.2 (Or.inl rfl)
    rw [lookKeyA_appKeyA_mem o hmem, lookKeyA_insKey_self hm, List.nil_append]

theorem processOrder_qty0_noop (st : EngineState) (id : Nat) (side : Side) (ty : OrderType)
    (price sp : Int) (hty : ty = OrderType.Market ∨ ty = OrderType.Limit) :
    processOrder st id side ty 0 price sp = st := by
  rcases st with ⟨bt, slt, sbt, sst, om, som, fo, fl, trs, tsc, gid⟩
  have hns : ¬ (ty = OrderType.Stop ∨ ty = OrderType.StopLimit) := by
    rcases hty with rfl | rfl <;> simp
  rw [processOrder, processOrderInternalT, if_neg hns]
  by_cases hfo : fo = 0
  · subst hfo
    rw [if_pos rfl]
  · rw [if_neg (by simpa using hfo)]
    have hrr : ¬ (0 < (0 : Nat) ∧ ty = OrderType.Limit) := by simp
    cases side <;>
      simp [matchLoop_zero, applyMatch, restOrRecycle, hrr] <;>
      omega



theorem processOrder_qty0_arm (st : EngineState) (id : Nat) (side : Side) (ty : OrderType)
    (price sp : Int) (hty : ty = OrderType.Stop ∨ ty = OrderType.StopLimit)
    (hfo : 0 < st.freeOrders) (hsorted : SortedT (stopTreeOf st side))
    (hca : containsP (stopTreeOf st side) sp = true ∨ 0 < st.freeLimits) :
    mapLookup (processOrder st id side ty 0 price sp).stopOrderMap id = some (side, sp) ∧
    fifoAtD (stopTreeOf (processOrder st id side ty 0 price sp) side) sp =
      fifoAtD (stopTreeOf st side) sp ++ [⟨id, side, ty, 0, price, sp⟩] := by
  rw [processOrder, processOrderInternalT, if_pos hty, armStop,
    if_neg (by omega : ¬ st.freeOrders = 0)]
  cases side
  · simp only [stopTreeOf] at hsorted hca ⊢
    rw [if_neg (by
      intro hand
      rcases hca with hca | hca
      · rw [hca] at hand
        simp at hand
      · have := hand.2
        simp at this
        omega)]
    refine ⟨mapLookup_mapSet _ _ _, ?_⟩
    simp only [stopTreeOf]
    exact fifoAtD_append_arm hsorted sp ⟨id, .Buy, ty, 0, price, sp⟩
  · simp only [stopTreeOf] at hsorted hca ⊢
    rw [if_neg (by
      intro hand
      rcases hca with hca | hca
      · rw [hca] at hand
        simp at hand
      · have := hand.2
        simp at this
        omega)]
    refine ⟨mapLookup_mapSet _ _ _, ?_⟩
    simp only [stopTreeOf]
    exact fifoAtD_append_arm hsorted sp ⟨id, .Sell, ty, 0, price, sp⟩

/-! ## Theorems on the claims -/

/-- C1, counterexample: in the scenario (sell limit 10@90 rests, sell stop
qty 5 stop 95 is armed, buy limit 4@100 is submitted), the single trade
{taker 3, maker 1, qty 4, price 90} is emitted as the claim says, but the
trigger pass of the buy-aggressor submit scans only the stop-buy tree, so
the armed sell stop does not fire and `stop_count()` is not 0. -/
theorem claim_C1_counterexample :
    c1Run.trades = [⟨3, 1, 4, 90, 0⟩] ∧ stopCount c1Run ≠ 0 := by
  decide

/-- C1, amended: the scenario emits exactly the trade {3, 1, 4, 90}, order
1 rests with 6 shares at price 90, `resting_count() = 1` — but stop order
2 stays armed (the buy-aggressor trigger pass checks the stop-buy tree
only), so `stop_count() = 1`. -/
theorem claim_C1_theorem :
    c1Run.trades = [⟨3, 1, 4, 90, 0⟩] ∧
    stopCount c1Run = 1 ∧
    restingCount c1Run = 1 ∧
    c1Run.sellTree = .node .nil 90 [⟨1, .Sell, .Limit, 6, 90, 0⟩] 1 .nil ∧
    c1Run.stopSellTree = .node .nil 95 [⟨2, .Sell, .Stop, 5, 0, 95⟩] 1 .nil := by
  decide

/-- C3, counterexample: with sell stops armed at stop prices 95 (id 10)
and 99 (id 11) and a last fill at 90, both qualify, but the scan collects
the level at 99 first although 95 is strictly closer to the last fill —
the collection order is farthest-first, not closest-first. -/
theorem claim_C3_counterexample :
    (checkStopsSell 90 (LTree.limitCount c3StopTree) c3StopTree).triggered.map
        TriggeredStop.originalId = [11, 10] ∧
    (95 : Int) - 90 < 99 - 90 := by
  decide

/-- C3, amended: every qualifying stop fires — the sell-aggressor pass
fires exactly the stop-sell levels with price ≥ the last fill and the
buy-aggressor pass exactly the stop-buy levels with price ≤ it — but the
collection (and hence re-submission) order is by stop-price distance from
the last fill FARTHEST first: strictly descending stop prices for a sell
aggressor, strictly ascending for a buy aggressor, each moving toward the
last fill. -/
theorem claim_C3_theorem (px : Int) (t : LTree) (hs : SortedT t) :
    ((checkStopsSell px (limitCount t) t).triggered =
        fireLevels (((inorder t).filter (fun e => px ≤ e.1)).reverse) ∧
      ((((inorder t).filter (fun e => px ≤ e.1)).reverse).map Prod.fst).Pairwise (· > ·) ∧
      (∀ e ∈ (inorder t).filter (fun e => px ≤ e.1), px ≤ e.1)) ∧
    ((checkStopsBuy px (limitCount t) t).triggered =
        fireLevels ((inorder t).filter (fun e => e.1 ≤ px)) ∧
      (((inorder t).filter (fun e => e.1 ≤ px)).map Prod.fst).Pairwise (· < ·) ∧
      (∀ e ∈ (inorder t).filter (fun e => e.1 ≤ px), e.1 ≤ px)) := by
  refine ⟨⟨checkStopsSell_spec px (limitCount t) t hs (le_refl _), ?_, ?_⟩,
    ⟨checkStopsBuy_spec px (limitCount t) t hs (le_refl _), ?_, ?_⟩⟩
  · rw [List.map_reverse, List.pairwise_reverse]
    exact ((sortedT_iff_pairwise t).1 hs).sublist ((List.filter_sublist _).map Prod.fst)
  · intro e he
    have := (List.mem_filter.1 he).2
    exact of_decide_eq_true this
  · exact ((sortedT_iff_pairwise t).1 hs).sublist ((List.filter_sublist _).map Prod.fst)
  · intro e he
    have := (List.mem_filter.1 he).2
    exact of_decide_eq_true this

/-- C3, witness: the amended theorem applied to the armed stop-sell tree
with levels 95 and 99 and last fill 90. -/
theorem claim_C3_witness :
    LTree.SortedT c3StopTree ∧
    (((checkStopsSell 90 (LTree.limitCount c3StopTree) c3StopTree).triggered =
        fireLevels (((LTree.inorder c3StopTree).filter (fun e => 90 ≤ e.1)).reverse) ∧
      ((((LTree.inorder c3StopTree).filter (fun e => 90 ≤ e.1)).reverse).map
          Prod.fst).Pairwise (· > ·) ∧
      (∀ e ∈ (LTree.inorder c3StopTree).filter (fun e => 90 ≤ e.1), 90 ≤ e.1)) ∧
    ((checkStopsBuy 90 (LTree.limitCount c3StopTree) c3StopTree).triggered =
        fireLevels ((LTree.inorder c3StopTree).filter (fun e => e.1 ≤ 90)) ∧
      (((LTree.inorder c3StopTree).filter (fun e => e.1 ≤ 90)).map
          Prod.fst).Pairwise (· < ·) ∧
      (∀ e ∈ (LTree.inorder c3StopTree).filter (fun e => e.1 ≤ 90), e.1 ≤ 90))) :=
  ⟨by decide, claim_C3_theorem 90 c3StopTree (by decide)⟩


/-- C4, counterexample: a sell limit rests at price 0, a buy stop is armed
at stop price 0, and a buy limit then trades 2@0.  A trade was emitted,
and running the trigger pass at the final price 0 would fire the stop
(0 ≥ 0), but the engine guards the pass with `lastExecutedPrice > 0`, so
the stop stays armed: the pass is not invoked for a zero-price final
trade. -/
theorem claim_C4_counterexample :
    c4Run.trades = [⟨3, 1, 2, 0, 0⟩] ∧
    stopCount c4Run = 1 ∧
    c4Run.stopBuyTree = .node .nil 0 [⟨2, .Buy, .Stop, 3, 10, 0⟩] 1 .nil ∧
    (checkStopsBuy 0 (LTree.limitCount c4Run.stopBuyTree) c4Run.stopBuyTree).triggered ≠ [] := by
  decide

/-- C5, counterexample: against a book whose only resting buy level has
the negative price −1, a sell market order (sentinel price 0) fails the
cross test immediately: its matching loop stops with 3 of 3 shares
remaining and a non-empty opposite tree, emitting nothing. -/
theorem claim_C5_counterexample :
    (matchLoop 2 .Sell 0 (LTree.limitCount c5BuyTree + 1) 3 c5BuyTree 0 0).remaining = 3 ∧
    (matchLoop 2 .Sell 0 (LTree.limitCount c5BuyTree + 1) 3 c5BuyTree 0 0).tree = c5BuyTree ∧
    c5BuyTree ≠ .nil ∧
    (matchLoop 2 .Sell 0 (LTree.limitCount c5BuyTree + 1) 3 c5BuyTree 0 0).trades = [] := by
  decide

/-- C6: with two buy limits resting at price 100 and the level pool
exhausted (`freeLimits = 0`), `modifyOrder(1, 5, 101)` hits a null level
allocation at the re-homing step and returns false — but the state is not
what it was: order 1 has already been unlinked from the level-100 FIFO
(which now holds only order 2) while its id is still in the resting index,
so the action was not dropped atomically. -/
theorem claim_C6_theorem :
    (modifyOrder c6Pre 1 5 101).2 = false ∧
    c6Pre.freeLimits = 0 ∧
    LTree.fifoAtD c6Pre.buyTree 100 =
      [⟨1, .Buy, .Limit, 5, 100, 0⟩, ⟨2, .Buy, .Limit, 5, 100, 0⟩] ∧
    LTree.fifoAtD (modifyOrder c6Pre 1 5 101).1.buyTree 100 =
      [⟨2, .Buy, .Limit, 5, 100, 0⟩] ∧
    mapLookup (modifyOrder c6Pre 1 5 101).1.orderMap 1 = some (.Buy, 100) ∧
    (modifyOrder c6Pre 1 5 101).1 ≠ c6Pre := by
  decide

/-- C2: for any submit of a market or limit order (the matching loop with
the engine's fuel, any taker parameters, against any search-ordered
opposite tree), the emitted trades pair each maker with its level price
and are exactly an initial segment of the priority stream — the
flattening of the opposite tree's levels, best price first (ascending for
a buy aggressor, descending for a sell aggressor), each level's FIFO head
first — and that stream's prices are priority-monotone.  In particular
every execution price is the resting maker's level price. -/
theorem claim_C2_theorem (takerId : Nat) (side : Side) (price : Int) (s : Nat) (t : LTree)
    (ts : Nat) (le : Int) (hs : LTree.SortedT t) :
    ((matchLoop takerId side price (LTree.limitCount t + 1) s t ts le).trades.map
        (fun tr => (tr.makerId, tr.price)) =
      ((prio side t).take
          (matchLoop takerId side price (LTree.limitCount t + 1) s t ts le).trades.length).map
        (fun e => (e.2.id, e.1))) ∧
    ((prio side t).map Prod.fst).Pairwise (priorityLE side) := by
  refine ⟨?_, prio_pairwise side hs⟩
  cases side
  · exact matchLoop_prefix_buy takerId price (LTree.limitCount t + 1) t s ts le hs (by omega)
  · exact matchLoop_prefix_sell takerId price (LTree.limitCount t + 1) t s ts le hs (by omega)

/-- C2, witness: the theorem applied to a concrete two-level sell book and
a buy limit taker. -/
theorem claim_C2_witness :
    LTree.SortedT c2Tree ∧
    (((matchLoop 3 .Buy 100 (LTree.limitCount c2Tree + 1) 4 c2Tree 0 0).trades.map
        (fun tr => (tr.makerId, tr.price)) =
      ((prio .Buy c2Tree).take
          (matchLoop 3 .Buy 100 (LTree.limitCount c2Tree + 1) 4 c2Tree 0 0).trades.length).map
        (fun e => (e.2.id, e.1))) ∧
    ((prio .Buy c2Tree).map Prod.fst).Pairwise (priorityLE .Buy)) :=
  ⟨by decide, claim_C2_theorem 3 .Buy 100 4 c2Tree 0 0 (by decide)⟩

/-- C5, amended: a buy market order (sentinel price maximum-positive i64)
never fails the cross test while an opposite level exists, provided every
resting price fits in i64; its loop ends only with the opposite tree empty
or the taker filled.  A sell market order (sentinel price 0) has that
property only when every resting buy price is non-negative: a
negative-price buy level makes the sentinel 0 fail the cross test (see the
counterexample). -/
theorem claim_C5_theorem (takerId : Nat) (s ts : Nat) (le : Int) (t : LTree)
    (hs : LTree.SortedT t) :
    ((∀ q ∈ (LTree.inorder t).map Prod.fst, q ≤ maxI64) →
      (matchLoop takerId .Buy maxI64 (LTree.limitCount t + 1) s t ts le).remaining = 0 ∨
      (matchLoop takerId .Buy maxI64 (LTree.limitCount t + 1) s t ts le).tree = .nil) ∧
    ((∀ q ∈ (LTree.inorder t).map Prod.fst, 0 ≤ q) →
      (matchLoop takerId .Sell 0 (LTree.limitCount t + 1) s t ts le).remaining = 0 ∨
      (matchLoop takerId .Sell 0 (LTree.limitCount t + 1) s t ts le).tree = .nil) := by
  constructor
  · intro hq
    apply matchLoop_no_crossfail takerId .Buy maxI64 (LTree.limitCount t + 1) t s ts le hs
      (by omega)
    intro q hm
    have hle := hq q hm
    show decide (maxI64 < q) = false
    exact decide_eq_false (not_lt.2 hle)
  · intro hq
    apply matchLoop_no_crossfail takerId .Sell 0 (LTree.limitCount t + 1) t s ts le hs
      (by omega)
    intro q hm
    have hle := hq q hm
    show decide (q < 0) = false
    exact decide_eq_false (not_lt.2 hle)

/-- C5, witness: the amended theorem applied to a concrete book with
non-negative prices, for both market sentinels. -/
theorem claim_C5_witness :
    LTree.SortedT c2Tree ∧
    ((matchLoop 3 .Buy maxI64 (LTree.limitCount c2Tree + 1) 6 c2Tree 0 0).remaining = 0 ∨
      (matchLoop 3 .Buy maxI64 (LTree.limitCount c2Tree + 1) 6 c2Tree 0 0).tree = .nil) ∧
    ((matchLoop 4 .Sell 0 (LTree.limitCount c2Tree + 1) 6 c2Tree 0 0).remaining = 0 ∨
      (matchLoop 4 .Sell 0 (LTree.limitCount c2Tree + 1) 6 c2Tree 0 0).tree = .nil) :=
  ⟨by decide, (claim_C5_theorem 3 6 0 0 c2Tree (by decide)).1 (by decide),
    (claim_C5_theorem 4 6 0 0 c2Tree (by decide)).2 (by decide)⟩

/-- C7, counterexample: the state reached by resting a buy limit 5@100 and
then calling `modifyOrder(1, 0, 100)` has an order resting in the buy tree
with a remaining share count of 0 — the modify path overwrites the share
count in place with no positivity check. -/
theorem claim_C7_counterexample :
    LTree.fifoAtD c7Run.buyTree 100 = [⟨1, .Buy, .Limit, 0, 100, 0⟩] ∧
    ∃ e ∈ LTree.inorder c7Run.buyTree, ∃ o ∈ e.2, o.shares = 0 := by
  decide

/-- C10: submitting a market or limit order with qty = 0 is a complete
no-op: no trades, nothing rests, all trees, indices and counters —
including both arena free-slot counts, the allocated taker being recycled
— are exactly as before.  A stop or stop-limit with qty = 0, by contrast,
is armed and indexed like any other stop: its id maps to its stop level
and the order (with 0 shares) sits at that level's FIFO tail. -/
theorem claim_C10_theorem (st : EngineState) (id : Nat) (side : Side) (ty : OrderType)
    (price sp : Int) :
    ((ty = OrderType.Market ∨ ty = OrderType.Limit) →
      processOrder st id side ty 0 price sp = st) ∧
    ((ty = OrderType.Stop ∨ ty = OrderType.StopLimit) → 0 < st.freeOrders →
      LTree.SortedT (stopTreeOf st side) →
      (LTree.containsP (stopTreeOf st side) sp = true ∨ 0 < st.freeLimits) →
      mapLookup (processOrder st id side ty 0 price sp).stopOrderMap id = some (side, sp) ∧
      LTree.fifoAtD (stopTreeOf (processOrder st id side ty 0 price sp) side) sp =
        LTree.fifoAtD (stopTreeOf st side) sp ++ [⟨id, side, ty, 0, price, sp⟩]) :=
  ⟨fun hty => processOrder_qty0_noop st id side ty price sp hty,
    fun hty hfo hs hca => processOrder_qty0_arm st id side ty price sp hty hfo hs hca⟩

/-- C10, witness: a qty-0 buy limit into a book with a resting sell is a
no-op, and a qty-0 buy stop is armed and indexed. -/
theorem claim_C10_witness :
    (processOrder c10Pre 5 .Buy .Limit 0 95 0 = c10Pre) ∧
    (mapLookup (processOrder c10Pre 5 .Buy .Stop 0 95 80).stopOrderMap 5 =
        some (.Buy, 80) ∧
      LTree.fifoAtD (stopTreeOf (processOrder c10Pre 5 .Buy .Stop 0 95 80) .Buy) 80 =
        LTree.fifoAtD (stopTreeOf c10Pre .Buy) 80 ++ [⟨5, .Buy, .Stop, 0, 95, 80⟩]) :=
  ⟨(claim_C10_theorem c10Pre 5 .Buy .Limit 95 0).1 (Or.inr rfl),
   (claim_C10_theorem c10Pre 5 .Buy .Stop 95 80).2 (Or.inl rfl) (by decide) (by decide)
     (by decide)⟩



theorem eraseById_append_self (id : Nat) (f : List Order) (o : Order) (ho : o.id = id)
    (hfresh : id ∉ f.map Order.id) : eraseById (f ++ [o]) id = f := by
  induction f with
  | nil => simp [eraseById, ho]
  | cons x rest ih =>
    simp only [List.map_cons, List.mem_cons, not_or] at hfresh
    rw [List.cons_append, eraseById, if_neg (fun hh => hfresh.1 hh.symm), ih hfresh.2]

theorem mem_lookKeyA {p : Int} {L : List (Int × List Order)}
    (h : p ∈ L.map Prod.fst) : (p, lookKeyA p L) ∈ L := by
  induction L with
  | nil => simp at h
  | cons e rest ih =>
    by_cases he : e.1 = p
    · rw [lookKeyA_cons, if_pos he]
      have he2 : (p, e.2) = e := by
        rcases e with ⟨k, f⟩
        simp at he
        rw [he]
      rw [he2]
      exact List.mem_cons_self _ _
    · simp only [List.map_cons, List.mem_cons] at h
      rcases h with h | h
      · exact absurd h.symm he
      · rw [lookKeyA_cons, if_neg he]
        exact List.mem_cons_of_mem _ (ih h)

theorem setKey_appKey_cancel {p : Int} (o : Order) {L : List (Int × List Order)}
    (hnd : (L.map Prod.fst).Nodup) :
    setKeyA p (lookKeyA p L) (appKeyA p o L) = L := by
  induction L with
  | nil => rfl
  | cons e rest ih =>
    simp only [List.map_cons, List.nodup_cons] at hnd
    by_cases he : e.1 = p
    · subst he
      rw [lookKeyA_cons, if_pos rfl, appKeyA_cons, if_pos rfl, setKeyA_cons, if_pos rfl]
      have hrest : appKeyA e.1 o rest = rest :=
        appKeyA_of_not_mem o (fun hm => hnd.1 hm)
      have hrest2 : setKeyA e.1 e.2 rest = rest :=
        setKeyA_of_not_mem e.2 (fun hm => hnd.1 hm)
      rw [hrest, hrest2]
    · rw [lookKeyA_cons, if_neg he, appKeyA_cons, if_neg he, setKeyA_cons, if_neg he,
        ih hnd.2]

theorem eraseKeyA_appKeyA (p : Int) (o : Order) (L : List (Int × List Order)) :
    eraseKeyA p (appKeyA p o L) = eraseKeyA p L := by
  induction L with
  | nil => rfl
  | cons e rest ih =>
    by_cases he : e.1 = p
    · rw [appKeyA_cons, if_pos he, eraseKeyA_cons, eraseKeyA_cons, if_pos he, if_pos he, ih]
    · rw [appKeyA_cons, if_neg he, eraseKeyA_cons, eraseKeyA_cons, if_neg he, if_neg he, ih]

theorem eraseKeyA_insKey {p : Int} {L : List (Int × List Order)}
    (h : p ∉ L.map Prod.fst) : eraseKeyA p (insKey p L) = L := by
  induction L with
  | nil => simp [insKey, eraseKeyA]
  | cons e rest ih =>
    simp only [List.map_cons, List.mem_cons, not_or] at h
    by_cases hp : p < e.1
    · rw [insKey, if_pos hp, eraseKeyA_cons, if_pos rfl,
        eraseKeyA_of_not_mem (by simp only [List.map_cons, List.mem_cons, not_or]; exact h)]
    · rw [insKey, if_neg hp, eraseKeyA_cons, if_neg (fun hh => h.1 hh.symm), ih h.2]

theorem mapErase_mapSet_fresh {m : List (Nat × Side × Int)} {id : Nat}
    (h : mapLookup m id = none) (v : Side × Int) : mapErase (mapSet m id v) id = m := by
  induction m with
  | nil => simp [mapSet, mapErase]
  | cons e rest ih =>
    rcases e with ⟨k, w⟩
    rw [mapLookup] at h
    by_cases hk : k = id
    · rw [if_pos hk] at h
      exact absurd h (by simp)
    · rw [if_neg hk] at h
      rw [mapSet, if_neg hk, mapErase, if_neg hk, ih h]

theorem matchLoop_no_trades (takerId : Nat) (side : Side) (price : Int) (fuel s : Nat)
    (t : LTree) (ts : Nat) (le : Int) (hne : NonemptyFifos t)
    (h : (matchLoop takerId side price fuel s t ts le).trades = []) :
    matchLoop takerId side price fuel s t ts le = ⟨s, t, [], ts, [], 0, le⟩ := by
  cases fuel with
  | zero => rfl
  | succ n =>
    by_cases hs0 : s = 0
    · subst hs0
      rw [matchLoop_zero]
    rcases hbo : bestFor side t with _ | ⟨bp, bf⟩
    · rw [matchLoop, if_neg hs0, hbo]
    by_cases hcf : crossFail side price bp = true
    · rw [matchLoop, if_neg hs0, hbo]
      simp only [hcf, if_true]
    · have hcf2 : crossFail side price bp = false := by
        revert hcf
        cases crossFail side price bp <;> simp
      have hmem : (bp, bf) ∈ inorder t := by
        cases side
        · have hm : (inorder t).head? = some (bp, bf) := by
            rw [← getMinT_eq_head]
            exact hbo
          exact List.mem_of_mem_head? hm
        · have hm : (inorder t).getLast? = some (bp, bf) := by
            rw [← getMaxT_eq_getLast]
            exact hbo
          exact List.mem_of_mem_getLast? hm
      have hbf : bf ≠ [] := hne (bp, bf) hmem
      obtain ⟨hmap, hlen, hfeq, hfne, hprices, hne2⟩ := walkFIFO_facts takerId bp bf s ts
      have hwt : (walkFIFO takerId bp s bf ts).trades ≠ [] :=
        hne2 (Nat.pos_of_ne_zero hs0) hbf
      rw [matchLoop_step takerId side price n s t ts le hs0 hbo hcf2] at h
      simp only [List.append_eq_nil] at h
      exact absurd h.1 hwt

theorem processOrder_rest_eq (st : EngineState) (id : Nat) (side : Side) (qty : Nat)
    (price : Int) (hq : 0 < qty) (hfo : 0 < st.freeOrders)
    (halloc : containsP (restTreeOf st side) price = true ∨ 0 < st.freeLimits)
    (hnfo : NonemptyFifos (oppTreeOf st side))
    (hnotrade : (matchLoop id side price (limitCount (oppTreeOf st side) + 1) qty
        (oppTreeOf st side) st.tsCounter 0).trades = []) :
    processOrder st id side .Limit qty price 0 =
      { withRestTree st side (appendAt (insertT (restTreeOf st side) price) price
          ⟨id, side, .Limit, qty, price, 0⟩) with
        orderMap := mapSet st.orderMap id (side, price),
        freeOrders := st.freeOrders - 1,
        freeLimits := if containsP (restTreeOf st side) price then st.freeLimits
          else st.freeLimits - 1 } := by
  have hml := matchLoop_no_trades id side price (limitCount (oppTreeOf st side) + 1) qty
    (oppTreeOf st side) st.tsCounter 0 hnfo hnotrade
  rcases st with ⟨bt, slt, sbt, sst, om, som, fo, fl, trs, tsc, gid⟩
  have hfo2 : 0 < fo := hfo
  have hcond : ∀ t : LTree, containsP t price = true ∨ 0 < fl →
      ¬ (¬ (containsP t price = true) ∧ fl = 0) := by
    intro t h hand
    rcases h with h | h
    · exact hand.1 h
    · omega
  cases side
  · simp only [oppTreeOf] at hml
    simp only [restTreeOf, oppTreeOf, withRestTree] at halloc ⊢
    rw [processOrder, processOrderInternalT, if_neg (by simp),
      if_neg (by omega : ¬ fo = 0)]
    simp only []
    rw [hml]
    simp only [applyMatch, List.append_nil, List.foldl_nil, List.length_nil,
      Nat.add_zero]
    rw [if_neg (by omega : ¬ (0 : Int) < 0)]
    simp only [restOrRecycle]
    rw [if_pos ⟨hq, trivial⟩, if_neg (hcond bt halloc)]
    rfl
  · simp only [oppTreeOf] at hml
    simp only [restTreeOf, oppTreeOf, withRestTree] at halloc ⊢
    rw [processOrder, processOrderInternalT, if_neg (by simp),
      if_neg (by omega : ¬ fo = 0)]
    simp only []
    rw [hml]
    simp only [applyMatch, List.append_nil, List.foldl_nil, List.length_nil,
      Nat.add_zero]
    rw [if_neg (by omega : ¬ (0 : Int) < 0)]
    simp only [restOrRecycle]
    rw [if_pos ⟨hq, trivial⟩, if_neg (hcond slt halloc)]
    rfl



/-- C9: submitting a fresh limit order that crosses nothing, then immediately
cancelling it, emits no trade, indexes the order (side, price) while it rests,
reports the cancel as successful, and restores the observable engine state
(level contents of all four trees, both indices, both arena counters, trade log,
and counters) exactly. -/
theorem claim_C9_theorem (st : EngineState) (id : Nat) (side : Side) (qty : Nat)
    (price : Int)
    (hs : SortedT (restTreeOf st side))
    (hnf : NonemptyFifos (restTreeOf st side))
    (hnfo : NonemptyFifos (oppTreeOf st side))
    (hq : 0 < qty) (hfo : 0 < st.freeOrders)
    (halloc : containsP (restTreeOf st side) price = true ∨ 0 < st.freeLimits)
    (hfresh : mapLookup st.orderMap id = none)
    (hfresh2 : id ∉ (fifoAtD (restTreeOf st side) price).map Order.id)
    (hnotrade : (matchLoop id side price (limitCount (oppTreeOf st side) + 1) qty
        (oppTreeOf st side) st.tsCounter 0).trades = []) :
    (processOrder st id side .Limit qty price 0).trades = st.trades ∧
    mapLookup (processOrder st id side .Limit qty price 0).orderMap id =
      some (side, price) ∧
    (cancelOrder (processOrder st id side .Limit qty price 0) id).2 = true ∧
    obs (cancelOrder (processOrder st id side .Limit qty price 0) id).1 = obs st := by
  rw [processOrder_rest_eq st id side qty price hq hfo halloc hnfo hnotrade]
  have hs2 : SortedT (insertT (restTreeOf st side) price) := sortedT_insertT hs price
  have hfifo : fifoAtD (appendAt (insertT (restTreeOf st side) price) price
      ⟨id, side, .Limit, qty, price, 0⟩) price =
      fifoAtD (restTreeOf st side) price ++ [⟨id, side, .Limit, qty, price, 0⟩] :=
    fifoAtD_append_arm hs price _
  have herase : eraseById (fifoAtD (restTreeOf st side) price ++
      [⟨id, side, .Limit, qty, price, 0⟩]) id = fifoAtD (restTreeOf st side) price :=
    eraseById_append_self id _ _ rfl hfresh2
  have hnd : ((inorder (restTreeOf st side)).map Prod.fst).Nodup :=
    ((sortedT_iff_pairwise (restTreeOf st side)).1 hs).imp (fun hlt => ne_of_lt hlt)
  cases side
  · simp only [restTreeOf] at hs hnf hfresh2 halloc hs2 hfifo herase hnd
    simp only [restTreeOf, oppTreeOf, withRestTree]
    refine ⟨trivial, mapLookup_mapSet _ _ _, ?_⟩
    rw [cancelOrder]
    simp only []
    rw [mapLookup_mapSet]
    simp only [unlinkAt]
    rw [hfifo, herase]
    by_cases hcp : containsP st.buyTree price = true
    · have hmem : price ∈ (inorder st.buyTree).map Prod.fst :=
        (containsP_iff hs price).1 hcp
      have hf0 : fifoAtD st.buyTree price = lookKeyA price (inorder st.buyTree) :=
        fifoAtD_eq_lookKeyA hs price
      have hfne : fifoAtD st.buyTree price ≠ [] := by
        rw [hf0]
        exact hnf (price, lookKeyA price (inorder st.buyTree)) (mem_lookKeyA hmem)
      rw [if_neg hfne]
      refine ⟨trivial, ?_⟩
      simp only [obs, Prod.mk.injEq]
      refine ⟨?_, True.intro, True.intro, True.intro, ?_, True.intro, ?_, ?_, True.intro⟩
      · rw [inorder_setFifo (sortedT_appendAt hs2 price _) price,
          inorder_appendAt hs2 price, inorder_insertT hs price, if_pos hmem, hf0,
          setKey_appKey_cancel _ hnd]
      · exact mapErase_mapSet_fresh hfresh (Side.Buy, price)
      · omega
      · rw [if_pos hcp]
        omega
    · have hmem : price ∉ (inorder st.buyTree).map Prod.fst := fun hm =>
        hcp ((containsP_iff hs price).2 hm)
      have hf0 : fifoAtD st.buyTree price = [] := by
        rw [fifoAtD_eq_lookKeyA hs price]
        exact lookKeyA_of_not_mem hmem
      rw [if_pos hf0]
      have hio2 : inorder (appendAt (insertT st.buyTree price) price
          ⟨id, .Buy, .Limit, qty, price, 0⟩) =
          appKeyA price ⟨id, .Buy, .Limit, qty, price, 0⟩
            (insKey price (inorder st.buyTree)) := by
        rw [inorder_appendAt hs2 price, inorder_insertT hs price, if_neg hmem]
      have hmem2 : price ∈ ((inorder (appendAt (insertT st.buyTree price) price
          ⟨id, .Buy, .Limit, qty, price, 0⟩)).map Prod.fst) := by
        rw [hio2, map_fst_appKeyA]
        exact mem_map_fst_insKey.2 (Or.inl rfl)
      have hrs := removeLimit_spec (sortedT_appendAt hs2 price
        ⟨id, .Buy, .Limit, qty, price, 0⟩) price
      refine ⟨trivial, ?_⟩
      simp only [obs, Prod.mk.injEq]
      refine ⟨?_, True.intro, True.intro, True.intro, ?_, True.intro, ?_, ?_, True.intro⟩
      · rw [hrs.1, hio2, eraseKeyA_appKeyA, eraseKeyA_insKey hmem]
      · exact mapErase_mapSet_fresh hfresh (Side.Buy, price)
      · omega
      · rw [hrs.2, if_pos hmem2, if_neg hcp]
        rcases halloc with h | h
        · exact absurd h hcp
        · omega
  · simp only [restTreeOf] at hs hnf hfresh2 halloc hs2 hfifo herase hnd
    simp only [restTreeOf, oppTreeOf, withRestTree]
    refine ⟨trivial, mapLookup_mapSet _ _ _, ?_⟩
    rw [cancelOrder]
    simp only []
    rw [mapLookup_mapSet]
    simp only [unlinkAt]
    rw [hfifo, herase]
    by_cases hcp : containsP st.sellTree price = true
    · have hmem : price ∈ (inorder st.sellTree).map Prod.fst :=
        (containsP_iff hs price).1 hcp
      have hf0 : fifoAtD st.sellTree price = lookKeyA price (inorder st.sellTree) :=
        fifoAtD_eq_lookKeyA hs price
      have hfne : fifoAtD st.sellTree price ≠ [] := by
        rw [hf0]
        exact hnf (price, lookKeyA price (inorder st.sellTree)) (mem_lookKeyA hmem)
      rw [if_neg hfne]
      refine ⟨trivial, ?_⟩
      simp only [obs, Prod.mk.injEq]
      refine ⟨True.intro, ?_, True.intro, True.intro, ?_, True.intro, ?_, ?_, True.intro⟩
      · rw [inorder_setFifo (sortedT_appendAt hs2 price _) price,
          inorder_appendAt hs2 price, inorder_insertT hs price, if_pos hmem, hf0,
          setKey_appKey_cancel _ hnd]
      · exact mapErase_mapSet_fresh hfresh (Side.Sell, price)
      · omega
      · rw [if_pos hcp]
        omega
    · have hmem : price ∉ (inorder st.sellTree).map Prod.fst := fun hm =>
        hcp ((containsP_iff hs price).2 hm)
      have hf0 : fifoAtD st.sellTree price = [] := by
        rw [fifoAtD_eq_lookKeyA hs price]
        exact lookKeyA_of_not_mem hmem
      rw [if_pos hf0]
      have hio2 : inorder (appendAt (insertT st.sellTree price) price
          ⟨id, .Sell, .Limit, qty, price, 0⟩) =
          appKeyA price ⟨id, .Sell, .Limit, qty, price, 0⟩
            (insKey price (inorder st.sellTree)) := by
        rw [inorder_appendAt hs2 price, inorder_insertT hs price, if_neg hmem]
      have hmem2 : price ∈ ((inorder (appendAt (insertT st.sellTree price) price
          ⟨id, .Sell, .Limit, qty, price, 0⟩)).map Prod.fst) := by
        rw [hio2, map_fst_appKeyA]
        exact mem_map_fst_insKey.2 (Or.inl rfl)
      have hrs := removeLimit_spec (sortedT_appendAt hs2 price
        ⟨id, .Sell, .Limit, qty, price, 0⟩) price
      refine ⟨trivial, ?_⟩
      simp only [obs, Prod.mk.injEq]
      refine ⟨True.intro, ?_, True.intro, True.intro, ?_, True.intro, ?_, ?_, True.intro⟩
      · rw [hrs.1, hio2, eraseKeyA_appKeyA, eraseKeyA_insKey hmem]
      · exact mapErase_mapSet_fresh hfresh (Side.Sell, price)
      · omega
      · rw [hrs.2, if_pos hmem2, if_neg hcp]
        rcases halloc with h | h
        · exact absurd h hcp
        · omega



/-- Witness for C9: a fresh buy limit at price 100 on the empty ten-slot engine. -/
theorem claim_C9_witness :
    LTree.SortedT (restTreeOf (initState 10) .Buy) ∧
    NonemptyFifos (restTreeOf (initState 10) .Buy) ∧
    NonemptyFifos (oppTreeOf (initState 10) .Buy) ∧
    0 < 5 ∧ 0 < (initState 10).freeOrders ∧
    (LTree.containsP (restTreeOf (initState 10) .Buy) 100 = true ∨
      0 < (initState 10).freeLimits) ∧
    mapLookup (initState 10).orderMap 1 = none ∧
    1 ∉ (LTree.fifoAtD (restTreeOf (initState 10) .Buy) 100).map Order.id ∧
    (matchLoop 1 .Buy 100 (LTree.limitCount (oppTreeOf (initState 10) .Buy) + 1) 5
        (oppTreeOf (initState 10) .Buy) (initState 10).tsCounter 0).trades = [] ∧
    ((processOrder (initState 10) 1 .Buy .Limit 5 100 0).trades = (initState 10).trades ∧
      mapLookup (processOrder (initState 10) 1 .Buy .Limit 5 100 0).orderMap 1 =
        some (.Buy, 100) ∧
      (cancelOrder (processOrder (initState 10) 1 .Buy .Limit 5 100 0) 1).2 = true ∧
      obs (cancelOrder (processOrder (initState 10) 1 .Buy .Limit 5 100 0) 1).1 =
        obs (initState 10)) :=
  ⟨by decide,
    by intro e he; simp [restTreeOf, initState, LTree.inorder] at he,
    by intro e he; simp [oppTreeOf, initState, LTree.inorder] at he,
    by decide, by decide, by decide, by decide, by decide, by decide,
    claim_C9_theorem (initState 10) 1 .Buy 5 100 (by decide)
      (by intro e he; simp [restTreeOf, initState, LTree.inorder] at he)
      (by intro e he; simp [oppTreeOf, initState, LTree.inorder] at he)
      (by decide) (by decide) (by decide) (by decide) (by decide) (by decide)⟩


theorem restOrRecycle_stops (st : EngineState) (id : Nat) (side : Side) (ty : OrderType)
    (price sp : Int) (r : Nat) :
    (restOrRecycle st id side ty price sp r).stopBuyTree = st.stopBuyTree ∧
    (restOrRecycle st id side ty price sp r).stopSellTree = st.stopSellTree ∧
    (restOrRecycle st id side ty price sp r).stopOrderMap = st.stopOrderMap := by
  rw [restOrRecycle.eq_def]
  by_cases h1 : 0 < r ∧ ty = OrderType.Limit
  · rw [if_pos h1]
    cases side
    · by_cases h2 : ¬ (containsP st.buyTree price = true) ∧ st.freeLimits = 0
      · rw [if_pos h2]
        exact ⟨rfl, rfl, rfl⟩
      · rw [if_neg h2]
        exact ⟨rfl, rfl, rfl⟩
    · by_cases h2 : ¬ (containsP st.sellTree price = true) ∧ st.freeLimits = 0
      · rw [if_pos h2]
        exact ⟨rfl, rfl, rfl⟩
      · rw [if_neg h2]
        exact ⟨rfl, rfl, rfl⟩
  · rw [if_neg h1]
    exact ⟨rfl, rfl, rfl⟩

/-- C4, amended: for a top-level market or limit submit, the final
`lastExecutedPrice` is 0 when no trade was emitted and the last trade's
price otherwise; the trigger pass runs exactly once, at that price with
the aggressor's side, precisely when that price is strictly positive, and
is skipped (stop trees and stop index untouched) otherwise — so a final
trade priced at zero or below leaves qualifying stops armed. -/
theorem claim_C4_theorem (st : EngineState) (id : Nat) (side : Side) (ty : OrderType)
    (qty : Nat) (price stopPrice : Int) (m : MatchRes)
    (hty : ty = OrderType.Market ∨ ty = OrderType.Limit)
    (hfo : 0 < st.freeOrders)
    (hm : m = matchLoop id side price (limitCount (oppTreeOf st side) + 1) qty
        (oppTreeOf st side) st.tsCounter 0) :
    (m.trades = [] → m.lastExec = 0) ∧
    (∀ tr, m.trades.getLast? = some tr → m.lastExec = tr.price) ∧
    (0 < m.lastExec →
      processOrder st id side ty qty price stopPrice =
        (runCheckStops (applyMatch { st with freeOrders := st.freeOrders - 1 } side m)
            m.lastExec side).2.foldl
          (fun s d =>
            processNoChk { s with genId := s.genId + 1 } s.genId d.side d.convertToType
              d.shares d.limitPrice 0)
          (restOrRecycle
            (runCheckStops (applyMatch { st with freeOrders := st.freeOrders - 1 } side m)
                m.lastExec side).1
            id side ty price stopPrice m.remaining)) ∧
    (m.lastExec ≤ 0 →
      processOrder st id side ty qty price stopPrice =
        restOrRecycle (applyMatch { st with freeOrders := st.freeOrders - 1 } side m)
          id side ty price stopPrice m.remaining ∧
      (processOrder st id side ty qty price stopPrice).stopBuyTree = st.stopBuyTree ∧
      (processOrder st id side ty qty price stopPrice).stopSellTree = st.stopSellTree ∧
      (processOrder st id side ty qty price stopPrice).stopOrderMap = st.stopOrderMap) := by
  have hnotstop : ¬ (ty = OrderType.Stop ∨ ty = OrderType.StopLimit) := by
    rcases hty with h | h <;> subst h <;> simp
  subst hm
  refine ⟨?_, ?_, ?_, ?_⟩
  · intro h
    rw [matchLoop_lastExec, h]
    rfl
  · intro tr htr
    rw [matchLoop_lastExec]
    simp [lastPriceD, htr]
  · intro hle
    rcases st with ⟨bt, slt, sbt, sst, om, som, fo, fl, trs, tsc, gid⟩
    have hfo2 : 0 < fo := hfo
    cases side
    · simp only [oppTreeOf] at hle ⊢
      rw [processOrder, processOrderInternalT, if_neg hnotstop,
        if_neg (by omega : ¬ fo = 0)]
      simp only []
      rw [if_pos hle]
    · simp only [oppTreeOf] at hle ⊢
      rw [processOrder, processOrderInternalT, if_neg hnotstop,
        if_neg (by omega : ¬ fo = 0)]
      simp only []
      rw [if_pos hle]
  · intro hle
    rcases st with ⟨bt, slt, sbt, sst, om, som, fo, fl, trs, tsc, gid⟩
    have hfo2 : 0 < fo := hfo
    cases side
    · simp only [oppTreeOf] at hle ⊢
      have hkey : processOrder ⟨bt, slt, sbt, sst, om, som, fo, fl, trs, tsc, gid⟩
          id .Buy ty qty price stopPrice =
          restOrRecycle (applyMatch ⟨bt, slt, sbt, sst, om, som, fo - 1, fl, trs, tsc, gid⟩
              .Buy (matchLoop id .Buy price (limitCount slt + 1) qty slt tsc 0))
            id .Buy ty price stopPrice
            (matchLoop id .Buy price (limitCount slt + 1) qty slt tsc 0).remaining := by
        rw [processOrder, processOrderInternalT, if_neg hnotstop,
          if_neg (by omega : ¬ fo = 0)]
        simp only []
        rw [if_neg (not_lt.2 hle)]
        rfl
      refine ⟨hkey, ?_⟩
      rw [hkey]
      have hrs := restOrRecycle_stops
        (applyMatch ⟨bt, slt, sbt, sst, om, som, fo - 1, fl, trs, tsc, gid⟩
          .Buy (matchLoop id .Buy price (limitCount slt + 1) qty slt tsc 0))
        id .Buy ty price stopPrice
        (matchLoop id .Buy price (limitCount slt + 1) qty slt tsc 0).remaining
      exact ⟨hrs.1, hrs.2.1, hrs.2.2⟩
    · simp only [oppTreeOf] at hle ⊢
      have hkey : processOrder ⟨bt, slt, sbt, sst, om, som, fo, fl, trs, tsc, gid⟩
          id .Sell ty qty price stopPrice =
          restOrRecycle (applyMatch ⟨bt, slt, sbt, sst, om, som, fo - 1, fl, trs, tsc, gid⟩
              .Sell (matchLoop id .Sell price (limitCount bt + 1) qty bt tsc 0))
            id .Sell ty price stopPrice
            (matchLoop id .Sell price (limitCount bt + 1) qty bt tsc 0).remaining := by
        rw [processOrder, processOrderInternalT, if_neg hnotstop,
          if_neg (by omega : ¬ fo = 0)]
        simp only []
        rw [if_neg (not_lt.2 hle)]
        rfl
      refine ⟨hkey, ?_⟩
      rw [hkey]
      have hrs := restOrRecycle_stops
        (applyMatch ⟨bt, slt, sbt, sst, om, som, fo - 1, fl, trs, tsc, gid⟩
          .Sell (matchLoop id .Sell price (limitCount bt + 1) qty bt tsc 0))
        id .Sell ty price stopPrice
        (matchLoop id .Sell price (limitCount bt + 1) qty bt tsc 0).remaining
      exact ⟨hrs.1, hrs.2.1, hrs.2.2⟩



/-- Witness for C4: a buy market order crossing the resting sell at 90. -/
theorem claim_C4_witness :
    (OrderType.Market = OrderType.Market ∨ OrderType.Market = OrderType.Limit) ∧
    0 < c10Pre.freeOrders ∧
    ((c4wM.trades = [] → c4wM.lastExec = 0) ∧
     (∀ tr, c4wM.trades.getLast? = some tr → c4wM.lastExec = tr.price) ∧
     (0 < c4wM.lastExec →
       processOrder c10Pre 3 .Buy .Market 4 maxI64 0 =
         (runCheckStops (applyMatch { c10Pre with freeOrders := c10Pre.freeOrders - 1 }
             .Buy c4wM) c4wM.lastExec .Buy).2.foldl
           (fun s d =>
             processNoChk { s with genId := s.genId + 1 } s.genId d.side d.convertToType
               d.shares d.limitPrice 0)
           (restOrRecycle
             (runCheckStops (applyMatch { c10Pre with freeOrders := c10Pre.freeOrders - 1 }
                 .Buy c4wM) c4wM.lastExec .Buy).1
             3 .Buy .Market maxI64 0 c4wM.remaining)) ∧
     (c4wM.lastExec ≤ 0 →
       processOrder c10Pre 3 .Buy .Market 4 maxI64 0 =
         restOrRecycle (applyMatch { c10Pre with freeOrders := c10Pre.freeOrders - 1 }
             .Buy c4wM) 3 .Buy .Market maxI64 0 c4wM.remaining ∧
       (processOrder c10Pre 3 .Buy .Market 4 maxI64 0).stopBuyTree = c10Pre.stopBuyTree ∧
       (processOrder c10Pre 3 .Buy .Market 4 maxI64 0).stopSellTree = c10Pre.stopSellTree ∧
       (processOrder c10Pre 3 .Buy .Market 4 maxI64 0).stopOrderMap = c10Pre.stopOrderMap)) :=
  ⟨Or.inl rfl, by decide,
    claim_C4_theorem c10Pre 3 .Buy .Market 4 maxI64 0 c4wM (Or.inl rfl) (by decide) rfl⟩


theorem mem_insKey {p : Int} {e : Int × List Order} :
    ∀ {L : List (Int × List Order)}, e ∈ insKey p L → e = (p, []) ∨ e ∈ L := by
  intro L
  induction L with
  | nil =>
    intro h
    rw [insKey] at h
    rcases List.mem_singleton.1 h with rfl
    exact Or.inl rfl
  | cons e0 rest ih =>
    intro h
    rw [insKey] at h
    by_cases hlt : p < e0.1
    · rw [if_pos hlt] at h
      rcases List.mem_cons.1 h with rfl | h2
      · exact Or.inl rfl
      · exact Or.inr h2
    · rw [if_neg hlt] at h
      rcases List.mem_cons.1 h with rfl | h2
      · exact Or.inr (List.mem_cons_self _ _)
      · rcases ih h2 with h3 | h3
        · exact Or.inl h3
        · exact Or.inr (List.mem_cons_of_mem _ h3)

theorem mem_eraseKeyA {p : Int} {e : Int × List Order} :
    ∀ {L : List (Int × List Order)}, e ∈ eraseKeyA p L → e ∈ L := by
  intro L
  induction L with
  | nil =>
    intro h
    simp [eraseKeyA] at h
  | cons e0 rest ih =>
    intro h
    rw [eraseKeyA] at h
    by_cases heq : e0.1 = p
    · rw [if_pos heq] at h
      exact List.mem_cons_of_mem _ (ih h)
    · rw [if_neg heq] at h
      rcases List.mem_cons.1 h with rfl | h2
      · exact List.mem_cons_self _ _
      · exact List.mem_cons_of_mem _ (ih h2)

theorem mem_eraseById {id : Nat} {o : Order} :
    ∀ {f : List Order}, o ∈ eraseById f id → o ∈ f := by
  intro f
  induction f with
  | nil =>
    intro h
    simp [eraseById] at h
  | cons o0 rest ih =>
    intro h
    rw [eraseById] at h
    by_cases heq : o0.id = id
    · rw [if_pos heq] at h
      exact List.mem_cons_of_mem _ h
    · rw [if_neg heq] at h
      rcases List.mem_cons.1 h with rfl | h2
      · exact List.mem_cons_self _ _
      · exact List.mem_cons_of_mem _ (ih h2)

theorem mem_setSharesFifo {id q : Nat} {o : Order} :
    ∀ {f : List Order}, o ∈ setSharesFifo f id q →
      o ∈ f ∨ (∃ o0 ∈ f, o = { o0 with shares := q }) := by
  intro f
  induction f with
  | nil =>
    intro h
    simp [setSharesFifo] at h
  | cons o0 rest ih =>
    intro h
    rw [setSharesFifo] at h
    by_cases heq : o0.id = id
    · rw [if_pos heq] at h
      rcases List.mem_cons.1 h with rfl | h2
      · exact Or.inr ⟨o0, List.mem_cons_self _ _, rfl⟩
      · exact Or.inl (List.mem_cons_of_mem _ h2)
    · rw [if_neg heq] at h
      rcases List.mem_cons.1 h with rfl | h2
      · exact Or.inl (List.mem_cons_self _ _)
      · rcases ih h2 with h3 | ⟨o1, ho1, h3⟩
        · exact Or.inl (List.mem_cons_of_mem _ h3)
        · exact Or.inr ⟨o1, List.mem_cons_of_mem _ ho1, h3⟩

theorem posShares_of_inorder_eq {t t' : LTree} (he : inorder t' = inorder t)
    (hp : PosShares t) : PosShares t' := by
  intro e he2 o ho
  rw [he] at he2
  exact hp e he2 o ho

theorem posShares_fifoAtD {t : LTree} (hs : SortedT t) (hp : PosShares t) (p : Int) :
    ∀ o ∈ fifoAtD t p, 0 < o.shares := by
  intro o ho
  rw [fifoAtD_eq_lookKeyA hs] at ho
  by_cases hm : p ∈ (inorder t).map Prod.fst
  · exact hp (p, lookKeyA p (inorder t)) (mem_lookKeyA hm) o ho
  · rw [lookKeyA_of_not_mem hm] at ho
    simp at ho

theorem posShares_setFifo {t : LTree} (hs : SortedT t) {p : Int} {f : List Order}
    (hp : PosShares t) (hf : ∀ o ∈ f, 0 < o.shares) : PosShares (setFifo t p f) := by
  intro e he o ho
  rw [inorder_setFifo hs, setKeyA] at he
  rcases List.mem_map.1 he with ⟨e0, he0, heq⟩
  by_cases h : e0.1 = p
  · rw [if_pos h] at heq
    rw [← heq] at ho
    exact hf o ho
  · rw [if_neg h] at heq
    rw [← heq] at ho
    exact hp e0 he0 o ho

theorem posShares_appendAt {t : LTree} (hs : SortedT t) {p : Int} {o0 : Order}
    (hp : PosShares t) (ho0 : 0 < o0.shares) : PosShares (appendAt t p o0) := by
  intro e he o ho
  rw [inorder_appendAt hs, appKeyA] at he
  rcases List.mem_map.1 he with ⟨e0, he0, heq⟩
  by_cases h : e0.1 = p
  · rw [if_pos h] at heq
    rw [← heq] at ho
    rcases List.mem_append.1 ho with h2 | h2
    · exact hp e0 he0 o h2
    · rcases List.mem_singleton.1 h2 with rfl
      exact ho0
  · rw [if_neg h] at heq
    rw [← heq] at ho
    exact hp e0 he0 o ho

theorem posShares_insertT {t : LTree} (hs : SortedT t) (p : Int)
    (hp : PosShares t) : PosShares (insertT t p) := by
  intro e he o ho
  rw [inorder_insertT hs] at he
  by_cases hm : p ∈ (inorder t).map Prod.fst
  · rw [if_pos hm] at he
    exact hp e he o ho
  · rw [if_neg hm] at he
    rcases mem_insKey he with rfl | h2
    · simp at ho
    · exact hp e h2 o ho

theorem posShares_removeLimit {t : LTree} (hs : SortedT t) (p : Int)
    (hp : PosShares t) : PosShares (removeLimit t p).1 := by
  intro e he o ho
  rw [(removeLimit_spec hs p).1] at he
  exact hp e (mem_eraseKeyA he) o ho

theorem sortedT_unlinkAt {t : LTree} (hs : SortedT t) (lp : Int) (id : Nat) :
    SortedT (unlinkAt t lp id).1 := by
  rw [unlinkAt]
  by_cases h : eraseById (fifoAtD t lp) id = []
  · rw [if_pos h]
    exact sortedT_removeLimit hs lp
  · rw [if_neg h]
    exact sortedT_setFifo hs lp _

theorem posShares_unlinkAt {t : LTree} (hs : SortedT t) (hp : PosShares t)
    (lp : Int) (id : Nat) : PosShares (unlinkAt t lp id).1 := by
  rw [unlinkAt]
  by_cases h : eraseById (fifoAtD t lp) id = []
  · rw [if_pos h]
    exact posShares_removeLimit hs lp hp
  · rw [if_neg h]
    exact posShares_setFifo hs hp fun o ho =>
      posShares_fifoAtD hs hp lp o (mem_eraseById ho)



theorem walkFIFO_fifo_pos (takerId : Nat) (lp : Int) :
    ∀ (fifo : List Order) (s ts : Nat), (∀ o ∈ fifo, 0 < o.shares) →
      ∀ o ∈ (walkFIFO takerId lp s fifo ts).fifo, 0 < o.shares := by
  intro fifo
  induction fifo with
  | nil =>
    intro s ts h o ho
    cases s <;> simp [walkFIFO] at ho
  | cons m rest ih =>
    intro s ts h o ho
    cases s with
    | zero =>
      exact h o ho
    | succ n =>
      rw [walkFIFO] at ho
      by_cases hms : m.shares - min (n + 1) m.shares = 0
      · simp only [if_pos hms] at ho
        exact ih _ _ (fun o2 ho2 => h o2 (List.mem_cons_of_mem m ho2)) o ho
      · simp only [if_neg hms] at ho
        rcases List.mem_cons.1 ho with rfl | ho2
        · show 0 < m.shares - min (n + 1) m.shares
          omega
        · exact h o (List.mem_cons_of_mem m ho2)

theorem bestFor_mem {side : Side} {t : LTree} {bp : Int} {bf : List Order}
    (hb : bestFor side t = some (bp, bf)) : (bp, bf) ∈ inorder t := by
  cases side
  · rw [bestFor, getMinT_eq_head] at hb
    exact List.mem_of_mem_head? hb
  · rw [bestFor, getMaxT_eq_getLast] at hb
    exact List.mem_of_mem_getLast? hb

theorem matchLoop_tree_inv (takerId : Nat) (side : Side) (price : Int) :
    ∀ (fuel : Nat) (t : LTree) (s ts : Nat) (le : Int), SortedT t → PosShares t →
      SortedT (matchLoop takerId side price fuel s t ts le).tree ∧
      PosShares (matchLoop takerId side price fuel s t ts le).tree := by
  intro fuel
  induction fuel with
  | zero =>
    intro t s ts le hs hp
    exact ⟨hs, hp⟩
  | succ n ih =>
    intro t s ts le hs hp
    by_cases hs0 : s = 0
    · subst hs0
      rw [matchLoop_zero]
      exact ⟨hs, hp⟩
    rcases hbo : bestFor side t with _ | ⟨bp, bf⟩
    · rw [matchLoop, if_neg hs0, hbo]
      exact ⟨hs, hp⟩
    by_cases hcf : crossFail side price bp = true
    · rw [matchLoop, if_neg hs0, hbo]
      simp only [hcf, if_true]
      exact ⟨hs, hp⟩
    · have hcf2 : crossFail side price bp = false := by
        revert hcf
        cases crossFail side price bp <;> simp
      rw [matchLoop_step takerId side price n s t ts le hs0 hbo hcf2]
      simp only []
      have hbfpos : ∀ o ∈ bf, 0 < o.shares := hp (bp, bf) (bestFor_mem hbo)
      by_cases hwf : (walkFIFO takerId bp s bf ts).fifo = []
      · rw [if_pos hwf]
        exact ih _ _ _ _ (sortedT_removeLimit hs bp) (posShares_removeLimit hs bp hp)
      · rw [if_neg hwf]
        exact ih _ _ _ _ (sortedT_setFifo hs bp _)
          (posShares_setFifo hs hp (walkFIFO_fifo_pos takerId bp bf s ts hbfpos))

theorem checkStopsSell_tree_sorted (px : Int) :
    ∀ (fuel : Nat) (t : LTree), SortedT t →
      SortedT (checkStopsSell px fuel t).tree := by
  intro fuel
  induction fuel with
  | zero =>
    intro t hs
    exact hs
  | succ n ih =>
    intro t hs
    rw [checkStopsSell]
    rcases hgm : getMaxT t with _ | ⟨hp2, hf⟩
    · exact hs
    simp only []
    by_cases hle : px ≤ hp2
    · rw [if_pos hle]
      exact ih _ (sortedT_removeLimit hs hp2)
    · rw [if_neg hle]
      exact hs

theorem checkStopsBuy_tree_sorted (px : Int) :
    ∀ (fuel : Nat) (t : LTree), SortedT t →
      SortedT (checkStopsBuy px fuel t).tree := by
  intro fuel
  induction fuel with
  | zero =>
    intro t hs
    exact hs
  | succ n ih =>
    intro t hs
    rw [checkStopsBuy]
    rcases hgm : getMinT t with _ | ⟨lp2, lf⟩
    · exact hs
    simp only []
    by_cases hle : lp2 ≤ px
    · rw [if_pos hle]
      exact ih _ (sortedT_removeLimit hs lp2)
    · rw [if_neg hle]
      exact hs



theorem foldl_preserve {α β : Type} (P : α → Prop) (f : α → β → α)
    (hf : ∀ s a, P s → P (f s a)) :
    ∀ (l : List β) (s : α), P s → P (l.foldl f s) := by
  intro l
  induction l with
  | nil =>
    intro s hs
    exact hs
  | cons a rest ih =>
    intro s hs
    exact ih _ (hf s a hs)

theorem armStop_inv (st : EngineState) (id : Nat) (side : Side) (ty : OrderType)
    (qty : Nat) (price sp : Int) (h : PosInv st) :
    PosInv (armStop st id side ty qty price sp) := by
  simp only [PosInv] at h
  obtain ⟨h1, h2, h3, h4, h5, h6⟩ := h
  rw [armStop.eq_def]
  by_cases hfo : st.freeOrders = 0
  · rw [if_pos hfo]
    exact ⟨h1, h2, h3, h4, h5, h6⟩
  · rw [if_neg hfo]
    simp only []
    cases side
    · by_cases hex : ¬ (containsP st.stopBuyTree sp = true) ∧ st.freeLimits = 0
      · rw [if_pos hex]
        exact ⟨h1, h2, h3, h4, h5, h6⟩
      · rw [if_neg hex]
        exact ⟨h1, h2, sortedT_appendAt (sortedT_insertT h3 sp) sp _, h4, h5, h6⟩
    · by_cases hex : ¬ (containsP st.stopSellTree sp = true) ∧ st.freeLimits = 0
      · rw [if_pos hex]
        exact ⟨h1, h2, h3, h4, h5, h6⟩
      · rw [if_neg hex]
        exact ⟨h1, h2, h3, sortedT_appendAt (sortedT_insertT h4 sp) sp _, h5, h6⟩

theorem restOrRecycle_inv (st : EngineState) (id : Nat) (side : Side) (ty : OrderType)
    (price sp : Int) (r : Nat) (h : PosInv st) :
    PosInv (restOrRecycle st id side ty price sp r) := by
  simp only [PosInv] at h
  obtain ⟨h1, h2, h3, h4, h5, h6⟩ := h
  rw [restOrRecycle.eq_def]
  by_cases hg : 0 < r ∧ ty = OrderType.Limit
  · rw [if_pos hg]
    cases side
    · simp only []
      by_cases hex : ¬ (containsP st.buyTree price = true) ∧ st.freeLimits = 0
      · rw [if_pos hex]
        exact ⟨h1, h2, h3, h4, h5, h6⟩
      · rw [if_neg hex]
        exact ⟨sortedT_appendAt (sortedT_insertT h1 price) price _, h2, h3, h4,
          posShares_appendAt (sortedT_insertT h1 price)
            (posShares_insertT h1 price h5) hg.1, h6⟩
    · simp only []
      by_cases hex : ¬ (containsP st.sellTree price = true) ∧ st.freeLimits = 0
      · rw [if_pos hex]
        exact ⟨h1, h2, h3, h4, h5, h6⟩
      · rw [if_neg hex]
        exact ⟨h1, sortedT_appendAt (sortedT_insertT h2 price) price _, h3, h4, h5,
          posShares_appendAt (sortedT_insertT h2 price)
            (posShares_insertT h2 price h6) hg.1⟩
  · rw [if_neg hg]
    exact ⟨h1, h2, h3, h4, h5, h6⟩

theorem applyMatch_inv (st : EngineState) (side : Side) (m : MatchRes) (h : PosInv st)
    (hms : SortedT m.tree) (hmp : PosShares m.tree) : PosInv (applyMatch st side m) := by
  simp only [PosInv] at h
  obtain ⟨h1, h2, h3, h4, h5, h6⟩ := h
  cases side
  · exact ⟨h1, hms, h3, h4, h5, hmp⟩
  · exact ⟨hms, h2, h3, h4, hmp, h6⟩

theorem runCheckStops_inv (st : EngineState) (px : Int) (side : Side) (h : PosInv st) :
    PosInv (runCheckStops st px side).1 := by
  simp only [PosInv] at h
  obtain ⟨h1, h2, h3, h4, h5, h6⟩ := h
  cases side
  · exact ⟨h1, h2, checkStopsBuy_tree_sorted px _ _ h3, h4, h5, h6⟩
  · exact ⟨h1, h2, h3, checkStopsSell_tree_sorted px _ _ h4, h5, h6⟩

theorem processNoChk_inv (st : EngineState) (id : Nat) (side : Side) (ty : OrderType)
    (qty : Nat) (price sp : Int) (h : PosInv st) :
    PosInv (processNoChk st id side ty qty price sp) := by
  rw [processNoChk.eq_def]
  by_cases hstop : ty = OrderType.Stop ∨ ty = OrderType.StopLimit
  · rw [if_pos hstop]
    exact armStop_inv st id side ty qty price sp h
  · rw [if_neg hstop]
    by_cases hfo : st.freeOrders = 0
    · rw [if_pos hfo]
      exact h
    · rw [if_neg hfo]
      simp only []
      apply restOrRecycle_inv
      cases side
      · have hm := matchLoop_tree_inv id .Buy price (limitCount st.sellTree + 1)
          st.sellTree qty st.tsCounter 0 h.2.1 h.2.2.2.2.2
        exact applyMatch_inv _ .Buy _ h hm.1 hm.2
      · have hm := matchLoop_tree_inv id .Sell price (limitCount st.buyTree + 1)
          st.buyTree qty st.tsCounter 0 h.1 h.2.2.2.2.1
        exact applyMatch_inv _ .Sell _ h hm.1 hm.2

theorem processOrder_inv (st : EngineState) (id : Nat) (side : Side) (ty : OrderType)
    (qty : Nat) (price sp : Int) (h : PosInv st) :
    PosInv (processOrder st id side ty qty price sp) := by
  rw [processOrder, processOrderInternalT.eq_def]
  by_cases hstop : ty = OrderType.Stop ∨ ty = OrderType.StopLimit
  · rw [if_pos hstop]
    exact armStop_inv st id side ty qty price sp h
  · rw [if_neg hstop]
    by_cases hfo : st.freeOrders = 0
    · rw [if_pos hfo]
      exact h
    · rw [if_neg hfo]
      simp only []
      apply foldl_preserve PosInv _
        (fun s d hs => processNoChk_inv { s with genId := s.genId + 1 } s.genId d.side
          d.convertToType d.shares d.limitPrice 0 hs)
      apply restOrRecycle_inv
      cases side
      · have hm := matchLoop_tree_inv id .Buy price (limitCount st.sellTree + 1)
          st.sellTree qty st.tsCounter 0 h.2.1 h.2.2.2.2.2
        have hst2 := applyMatch_inv _ .Buy _ h hm.1 hm.2
        by_cases hle : 0 < (matchLoop id .Buy price (limitCount st.sellTree + 1) qty
            st.sellTree st.tsCounter 0).lastExec
        · rw [if_pos hle]
          exact runCheckStops_inv _ _ .Buy hst2
        · rw [if_neg hle]
          exact hst2
      · have hm := matchLoop_tree_inv id .Sell price (limitCount st.buyTree + 1)
          st.buyTree qty st.tsCounter 0 h.1 h.2.2.2.2.1
        have hst2 := applyMatch_inv _ .Sell _ h hm.1 hm.2
        by_cases hle : 0 < (matchLoop id .Sell price (limitCount st.buyTree + 1) qty
            st.buyTree st.tsCounter 0).lastExec
        · rw [if_pos hle]
          exact runCheckStops_inv _ _ .Sell hst2
        · rw [if_neg hle]
          exact hst2



theorem cancelOrder_inv (st : EngineState) (id : Nat) (h : PosInv st) :
    PosInv (cancelOrder st id).1 := by
  simp only [PosInv] at h
  obtain ⟨h1, h2, h3, h4, h5, h6⟩ := h
  rw [cancelOrder.eq_def]
  rcases hl : mapLookup st.orderMap id with _ | ⟨side, lp⟩
  · rcases hl2 : mapLookup st.stopOrderMap id with _ | ⟨side2, lp2⟩
    · exact ⟨h1, h2, h3, h4, h5, h6⟩
    · cases side2
      · exact ⟨h1, h2, sortedT_unlinkAt h3 lp2 id, h4, h5, h6⟩
      · exact ⟨h1, h2, h3, sortedT_unlinkAt h4 lp2 id, h5, h6⟩
  · cases side
    · exact ⟨sortedT_unlinkAt h1 lp id, h2, h3, h4,
        posShares_unlinkAt h1 h5 lp id, h6⟩
    · exact ⟨h1, sortedT_unlinkAt h2 lp id, h3, h4, h5,
        posShares_unlinkAt h2 h6 lp id⟩

theorem modifyOrder_inv (st : EngineState) (id : Nat) (q : Nat) (p : Int)
    (hq : 0 < q) (h : PosInv st) : PosInv (modifyOrder st id q p).1 := by
  simp only [PosInv] at h
  obtain ⟨h1, h2, h3, h4, h5, h6⟩ := h
  rw [modifyOrder.eq_def]
  rcases hl : mapLookup st.orderMap id with _ | ⟨side, lp⟩
  · exact ⟨h1, h2, h3, h4, h5, h6⟩
  · cases side
    · simp only []
      rcases ho : orderAt st.buyTree lp id with _ | o
      · exact ⟨h1, h2, h3, h4, h5, h6⟩
      · simp only []
        by_cases hpe : p = o.price
        · rw [if_pos hpe]
          refine ⟨sortedT_setFifo h1 lp _, h2, h3, h4, ?_, h6⟩
          refine posShares_setFifo h1 h5 fun o2 ho2 => ?_
          rcases mem_setSharesFifo ho2 with h7 | ⟨o0, ho0, rfl⟩
          · exact posShares_fifoAtD h1 h5 lp o2 h7
          · exact hq
        · rw [if_neg hpe]
          by_cases hex : ¬ (containsP (unlinkAt st.buyTree lp id).1 p = true) ∧
              st.freeLimits + (unlinkAt st.buyTree lp id).2 = 0
          · rw [if_pos hex]
            exact ⟨sortedT_unlinkAt h1 lp id, h2, h3, h4,
              posShares_unlinkAt h1 h5 lp id, h6⟩
          · rw [if_neg hex]
            exact ⟨sortedT_appendAt (sortedT_insertT (sortedT_unlinkAt h1 lp id) p) p _,
              h2, h3, h4,
              posShares_appendAt (sortedT_insertT (sortedT_unlinkAt h1 lp id) p)
                (posShares_insertT (sortedT_unlinkAt h1 lp id) p
                  (posShares_unlinkAt h1 h5 lp id)) hq, h6⟩
    · simp only []
      rcases ho : orderAt st.sellTree lp id with _ | o
      · exact ⟨h1, h2, h3, h4, h5, h6⟩
      · simp only []
        by_cases hpe : p = o.price
        · rw [if_pos hpe]
          refine ⟨h1, sortedT_setFifo h2 lp _, h3, h4, h5, ?_⟩
          refine posShares_setFifo h2 h6 fun o2 ho2 => ?_
          rcases mem_setSharesFifo ho2 with h7 | ⟨o0, ho0, rfl⟩
          · exact posShares_fifoAtD h2 h6 lp o2 h7
          · exact hq
        · rw [if_neg hpe]
          by_cases hex : ¬ (containsP (unlinkAt st.sellTree lp id).1 p = true) ∧
              st.freeLimits + (unlinkAt st.sellTree lp id).2 = 0
          · rw [if_pos hex]
            exact ⟨h1, sortedT_unlinkAt h2 lp id, h3, h4, h5,
              posShares_unlinkAt h2 h6 lp id⟩
          · rw [if_neg hex]
            exact ⟨h1, sortedT_appendAt (sortedT_insertT (sortedT_unlinkAt h2 lp id) p) p _,
              h3, h4, h5,
              posShares_appendAt (sortedT_insertT (sortedT_unlinkAt h2 lp id) p)
                (posShares_insertT (sortedT_unlinkAt h2 lp id) p
                  (posShares_unlinkAt h2 h6 lp id)) hq⟩

theorem applyAct_inv (st : EngineState) (a : Act)
    (hq : ∀ id q p, a = Act.modify id q p → 0 < q) (h : PosInv st) :
    PosInv (applyAct st a) := by
  cases a with
  | submit id side ty qty price sp =>
    exact processOrder_inv st id side ty qty price sp h
  | cancel id =>
    exact cancelOrder_inv st id h
  | modify id q p =>
    exact modifyOrder_inv st id q p (hq id q p rfl) h

theorem posInv_foldl :
    ∀ (acts : List Act) (st : EngineState), PosInv st → ModsPos acts →
      PosInv (acts.foldl applyAct st) := by
  intro acts
  induction acts with
  | nil =>
    intro st h _
    exact h
  | cons a rest ih =>
    intro st h hm
    refine ih _ (applyAct_inv st a (fun id q p heq => hm a (List.mem_cons_self _ _) id q p heq) h)
      (fun a2 ha2 id q p heq => hm a2 (List.mem_cons_of_mem _ ha2) id q p heq)

theorem posInv_init (n : Nat) : PosInv (initState n) := by
  refine ⟨trivial, trivial, trivial, trivial, ?_, ?_⟩ <;>
    (intro e he; simp [initState, inorder] at he)



/-- C7, amended: in every state reachable by submit, cancel, and modify
actions in which every modify carries a strictly positive new quantity,
every order resting in a price-level FIFO of the resting-buy or
resting-sell tree has a strictly positive remaining share count. -/
theorem claim_C7_theorem (n : Nat) (acts : List Act) (hm : ModsPos acts) :
    PosShares (runActs n acts).buyTree ∧ PosShares (runActs n acts).sellTree := by
  have h := posInv_foldl acts (initState n) (posInv_init n) hm
  exact ⟨h.2.2.2.2.1, h.2.2.2.2.2⟩

/-- Witness for C7: rest a buy limit of 5 shares and modify it in place to
3 shares; the reachable-state positivity applies. -/
theorem claim_C7_witness :
    ModsPos [Act.submit 1 .Buy .Limit 5 100 0, Act.modify 1 3 100] ∧
    (PosShares (runActs 10 [Act.submit 1 .Buy .Limit 5 100 0,
        Act.modify 1 3 100]).buyTree ∧
     PosShares (runActs 10 [Act.submit 1 .Buy .Limit 5 100 0,
        Act.modify 1 3 100]).sellTree) := by
  have hm : ModsPos [Act.submit 1 .Buy .Limit 5 100 0, Act.modify 1 3 100] := by
    intro a ha id q p heq
    rcases List.mem_cons.1 ha with rfl | ha2
    · cases heq
    · rcases List.mem_singleton.1 ha2 with rfl
      cases heq
      decide
  exact ⟨hm, claim_C7_theorem 10 _ hm⟩


theorem hgt_eq_realH : ∀ {t : LTree}, HeightsOk t → hgt t = realH t := by
  intro t h
  cases t with
  | nil => rfl
  | node l p f ht r =>
    obtain ⟨-, -, h3⟩ := h
    simp only [hgt, realH, h3]

theorem setFifo_avl : ∀ (t : LTree) (p : Int) (f : List Order),
    (realH (setFifo t p f) = realH t) ∧ (AVL t → AVL (setFifo t p f)) := by
  intro t
  induction t with
  | nil =>
    intro p f
    exact ⟨rfl, fun h => h⟩
  | node l np nf nh r ihl ihr =>
    intro p f
    rw [setFifo]
    by_cases h1 : p < np
    · rw [if_pos h1]
      refine ⟨?_, ?_⟩
      · simp only [realH, (ihl p f).1]
      · intro ⟨⟨hh1, hh2, hh3⟩, hb1, hb2, hb3, hb4⟩
        have hl := (ihl p f).2 ⟨hh1, hb1⟩
        refine ⟨⟨hl.1, hh2, ?_⟩, hl.2, hb2, ?_, ?_⟩ <;>
          rw [(ihl p f).1] <;> [exact hh3; exact hb3; exact hb4]
    · rw [if_neg h1]
      by_cases h2 : np < p
      · rw [if_pos h2]
        refine ⟨?_, ?_⟩
        · simp only [realH, (ihr p f).1]
        · intro ⟨⟨hh1, hh2, hh3⟩, hb1, hb2, hb3, hb4⟩
          have hr := (ihr p f).2 ⟨hh2, hb2⟩
          refine ⟨⟨hh1, hr.1, ?_⟩, hb1, hr.2, ?_, ?_⟩ <;>
            rw [(ihr p f).1] <;> [exact hh3; exact hb3; exact hb4]
      · rw [if_neg h2]
        exact ⟨rfl, fun h => h⟩

theorem appendAt_avl : ∀ (t : LTree) (p : Int) (o : Order),
    (realH (appendAt t p o) = realH t) ∧ (AVL t → AVL (appendAt t p o)) := by
  intro t
  induction t with
  | nil =>
    intro p o
    exact ⟨rfl, fun h => h⟩
  | node l np nf nh r ihl ihr =>
    intro p o
    rw [appendAt]
    by_cases h1 : p < np
    · rw [if_pos h1]
      refine ⟨?_, ?_⟩
      · simp only [realH, (ihl p o).1]
      · intro ⟨⟨hh1, hh2, hh3⟩, hb1, hb2, hb3, hb4⟩
        have hl := (ihl p o).2 ⟨hh1, hb1⟩
        refine ⟨⟨hl.1, hh2, ?_⟩, hl.2, hb2, ?_, ?_⟩ <;>
          rw [(ihl p o).1] <;> [exact hh3; exact hb3; exact hb4]
    · rw [if_neg h1]
      by_cases h2 : np < p
      · rw [if_pos h2]
        refine ⟨?_, ?_⟩
        · simp only [realH, (ihr p o).1]
        · intro ⟨⟨hh1, hh2, hh3⟩, hb1, hb2, hb3, hb4⟩
          have hr := (ihr p o).2 ⟨hh2, hb2⟩
          refine ⟨⟨hh1, hr.1, ?_⟩, hb1, hr.2, ?_, ?_⟩ <;>
            rw [(ihr p o).1] <;> [exact hh3; exact hb3; exact hb4]
      · rw [if_neg h2]
        exact ⟨rfl, fun h => h⟩



theorem rotR_avl (a b c : LTree) (xp yp : Int) (xf yf : List Order) (hx hy : Nat)
    (hha : HeightsOk a) (hhb : HeightsOk b) (hhc : HeightsOk c)
    (hba : BalancedT a) (hbb : BalancedT b) (hbc : BalancedT c)
    (h1 : realH b ≤ realH a) (h2 : realH a = realH c + 1) (h3 : realH a ≤ realH b + 1) :
    AVL (rotR (node (node a xp xf hx b) yp yf hy c)) ∧
    realH (rotR (node (node a xp xf hx b) yp yf hy c)) =
      (if realH b < realH a then realH c + 2 else realH c + 3) := by
  have hres : rotR (node (node a xp xf hx b) yp yf hy c) =
      node a xp xf (1 + max (hgt a) (1 + max (hgt b) (hgt c)))
        (node b yp yf (1 + max (hgt b) (hgt c)) c) := rfl
  rw [hres, hgt_eq_realH hha, hgt_eq_realH hhb, hgt_eq_realH hhc]
  refine ⟨⟨⟨hha, ⟨hhb, hhc, by simp [realH]⟩, by simp [realH]⟩,
    hba, ⟨hbb, hbc, by omega, by omega⟩,
    by simp only [realH]; push_cast; omega, by simp only [realH]; push_cast; omega⟩, ?_⟩
  by_cases hlt : realH b < realH a
  · rw [if_pos hlt]
    simp only [realH]
    omega
  · rw [if_neg hlt]
    simp only [realH]
    omega

theorem rotL_avl (a b c : LTree) (xp yp : Int) (xf yf : List Order) (hx hy : Nat)
    (hha : HeightsOk a) (hhb : HeightsOk b) (hhc : HeightsOk c)
    (hba : BalancedT a) (hbb : BalancedT b) (hbc : BalancedT c)
    (h1 : realH b ≤ realH c) (h2 : realH c = realH a + 1) (h3 : realH c ≤ realH b + 1) :
    AVL (rotL (node a xp xf hx (node b yp yf hy c))) ∧
    realH (rotL (node a xp xf hx (node b yp yf hy c))) =
      (if realH b < realH c then realH a + 2 else realH a + 3) := by
  have hres : rotL (node a xp xf hx (node b yp yf hy c)) =
      node (node a xp xf (1 + max (hgt a) (hgt b)) b) yp yf
        (1 + max (1 + max (hgt a) (hgt b)) (hgt c)) c := rfl
  rw [hres, hgt_eq_realH hha, hgt_eq_realH hhb, hgt_eq_realH hhc]
  refine ⟨⟨⟨⟨hha, hhb, by simp [realH]⟩, hhc, by simp [realH]⟩,
    ⟨hba, hbb, by omega, by omega⟩, hbc,
    by simp only [realH]; push_cast; omega, by simp only [realH]; push_cast; omega⟩, ?_⟩
  by_cases hlt : realH b < realH c
  · rw [if_pos hlt]
    simp only [realH]
    omega
  · rw [if_neg hlt]
    simp only [realH]
    omega

theorem rotLR_avl (a b1 b2 c : LTree) (xp zp yp : Int) (xf zf yf : List Order)
    (hx hz hy : Nat)
    (hha : HeightsOk a) (hhb1 : HeightsOk b1) (hhb2 : HeightsOk b2) (hhc : HeightsOk c)
    (hba : BalancedT a) (hbb1 : BalancedT b1) (hbb2 : BalancedT b2) (hbc : BalancedT c)
    (h1 : max (realH b1) (realH b2) = realH a)
    (h2 : (realH b1 : Int) - realH b2 ≤ 1) (h3 : (realH b2 : Int) - realH b1 ≤ 1)
    (h4 : realH a = realH c) :
    AVL (rotR (withLeft (node (node a xp xf hx (node b1 zp zf hz b2)) yp yf hy c)
      (rotL (node a xp xf hx (node b1 zp zf hz b2))))) ∧
    realH (rotR (withLeft (node (node a xp xf hx (node b1 zp zf hz b2)) yp yf hy c)
      (rotL (node a xp xf hx (node b1 zp zf hz b2))))) = realH c + 2 := by
  have hres : rotR (withLeft (node (node a xp xf hx (node b1 zp zf hz b2)) yp yf hy c)
      (rotL (node a xp xf hx (node b1 zp zf hz b2)))) =
      node (node a xp xf (1 + max (hgt a) (hgt b1)) b1) zp zf
        (1 + max (1 + max (hgt a) (hgt b1)) (1 + max (hgt b2) (hgt c)))
        (node b2 yp yf (1 + max (hgt b2) (hgt c)) c) := rfl
  rw [hres, hgt_eq_realH hha, hgt_eq_realH hhb1, hgt_eq_realH hhb2, hgt_eq_realH hhc]
  refine ⟨⟨⟨⟨hha, hhb1, by simp [realH]⟩, ⟨hhb2, hhc, by simp [realH]⟩, by simp [realH]⟩,
    ⟨hba, hbb1, by omega, by omega⟩,
    ⟨hbb2, hbc, by omega, by omega⟩,
    by simp only [realH]; push_cast; omega, by simp only [realH]; push_cast; omega⟩, ?_⟩
  simp only [realH]
  omega

theorem rotRL_avl (a b1 b2 c : LTree) (xp zp yp : Int) (xf zf yf : List Order)
    (hx hz hy : Nat)
    (hha : HeightsOk a) (hhb1 : HeightsOk b1) (hhb2 : HeightsOk b2) (hhc : HeightsOk c)
    (hba : BalancedT a) (hbb1 : BalancedT b1) (hbb2 : BalancedT b2) (hbc : BalancedT c)
    (h1 : max (realH b1) (realH b2) = realH c)
    (h2 : (realH b1 : Int) - realH b2 ≤ 1) (h3 : (realH b2 : Int) - realH b1 ≤ 1)
    (h4 : realH c = realH a) :
    AVL (rotL (withRight (node a xp xf hx (node (node b1 zp zf hz b2) yp yf hy c))
      (rotR (node (node b1 zp zf hz b2) yp yf hy c)))) ∧
    realH (rotL (withRight (node a xp xf hx (node (node b1 zp zf hz b2) yp yf hy c))
      (rotR (node (node b1 zp zf hz b2) yp yf hy c)))) = realH a + 2 := by
  have hres : rotL (withRight (node a xp xf hx (node (node b1 zp zf hz b2) yp yf hy c))
      (rotR (node (node b1 zp zf hz b2) yp yf hy c))) =
      node (node a xp xf (1 + max (hgt a) (hgt b1)) b1) zp zf
        (1 + max (1 + max (hgt a) (hgt b1)) (1 + max (hgt b2) (hgt c)))
        (node b2 yp yf (1 + max (hgt b2) (hgt c)) c) := rfl
  rw [hres, hgt_eq_realH hha, hgt_eq_realH hhb1, hgt_eq_realH hhb2, hgt_eq_realH hhc]
  refine ⟨⟨⟨⟨hha, hhb1, by simp [realH]⟩, ⟨hhb2, hhc, by simp [realH]⟩, by simp [realH]⟩,
    ⟨hba, hbb1, by omega, by omega⟩,
    ⟨hbb2, hbc, by omega, by omega⟩,
    by simp only [realH]; push_cast; omega, by simp only [realH]; push_cast; omega⟩, ?_⟩
  simp only [realH]
  omega



theorem rebalIns_id (p : Int) (n : LTree) (h1 : ¬ 1 < getBal n)
    (h2 : ¬ getBal n < -1) : rebalIns p n = n := by
  rw [rebalIns, if_neg (fun h => h1 h.1), if_neg (fun h => h2 h.1),
    if_neg (fun h => h1 h.1), if_neg (fun h => h2 h.1)]

theorem rebalDel_id (n : LTree) (h1 : ¬ 1 < getBal n) (h2 : ¬ getBal n < -1) :
    rebalDel n = n := by
  rw [rebalDel, if_neg (fun h => h1 h.1), if_neg (fun h => h1 h.1),
    if_neg (fun h => h2 h.1), if_neg (fun h => h2 h.1)]

theorem rebalIns_left (l' r : LTree) (np p : Int) (nf : List Order)
    (hA : AVL l') (hh2 : HeightsOk r) (hb2 : BalancedT r)
    (hgap : realH l' = realH r + 2)
    (hdir : (p < rootPrice l' ∧ realBal l' = 1) ∨
      (rootPrice l' < p ∧ realBal l' = -1)) :
    AVL (rebalIns p (node l' np nf (1 + max (hgt l') (hgt r)) r)) ∧
    realH (rebalIns p (node l' np nf (1 + max (hgt l') (hgt r)) r)) = realH r + 2 := by
  obtain ⟨hhl, hbl⟩ := hA
  have hgb : getBal (node l' np nf (1 + max (hgt l') (hgt r)) r) =
      (realH l' : Int) - realH r := by
    simp [getBal, hgt_eq_realH hhl, hgt_eq_realH hh2]
  have h1lt : 1 < getBal (node l' np nf (1 + max (hgt l') (hgt r)) r) := by
    rw [hgb]
    omega
  cases l' with
  | nil =>
    simp [realH] at hgap
  | node a xp xf hx b =>
    obtain ⟨hha, hhb, hrec⟩ := hhl
    obtain ⟨hba, hbb, hbal1, hbal2⟩ := hbl
    rcases hdir with ⟨hpl, hlean⟩ | ⟨hpl, hlean⟩
    · simp only [realBal] at hlean
      rw [rebalIns, if_pos ⟨h1lt, hpl⟩]
      have := rotR_avl a b r xp np xf nf hx (1 + max (hgt (node a xp xf hx b)) (hgt r))
        hha hhb hh2 hba hbb hb2 (by omega)
        (by simp only [realH] at hgap; omega) (by omega)
      refine ⟨this.1, ?_⟩
      rw [this.2, if_pos (by omega)]
    · simp only [realBal] at hlean
      have hnpl : ¬ p < rootPrice (node a xp xf hx b) := lt_asymm hpl
      rw [rebalIns, if_neg (fun h => hnpl h.2),
        if_neg (fun h => absurd h.1 (by rw [hgb]; omega)),
        if_pos ⟨h1lt, hpl⟩]
      cases b with
      | nil =>
        simp only [realH] at hlean
        omega
      | node b1 zp zf hz b2 =>
        obtain ⟨hhb1, hhb2, hrecb⟩ := hhb
        obtain ⟨hbb1, hbb2, hbalb1, hbalb2⟩ := hbb
        have := rotLR_avl a b1 b2 r xp zp np xf zf nf hx hz
          (1 + max (hgt (node a xp xf hx (node b1 zp zf hz b2))) (hgt r))
          hha hhb1 hhb2 hh2 hba hbb1 hbb2 hb2
          (by simp only [realH] at hlean; omega) hbalb1 hbalb2
          (by simp only [realH] at hgap hlean ⊢; omega)
        exact ⟨this.1, this.2⟩

theorem rebalIns_right (l r' : LTree) (np p : Int) (nf : List Order)
    (hA : AVL r') (hh1 : HeightsOk l) (hb1 : BalancedT l)
    (hgap : realH r' = realH l + 2)
    (hdir : (rootPrice r' < p ∧ realBal r' = -1) ∨
      (p < rootPrice r' ∧ realBal r' = 1)) :
    AVL (rebalIns p (node l np nf (1 + max (hgt l) (hgt r')) r')) ∧
    realH (rebalIns p (node l np nf (1 + max (hgt l) (hgt r')) r')) = realH l + 2 := by
  obtain ⟨hhr, hbr⟩ := hA
  have hgb : getBal (node l np nf (1 + max (hgt l) (hgt r')) r') =
      (realH l : Int) - realH r' := by
    simp [getBal, hgt_eq_realH hhr, hgt_eq_realH hh1]
  have h1lt : getBal (node l np nf (1 + max (hgt l) (hgt r')) r') < -1 := by
    rw [hgb]
    omega
  have hn1 : ¬ 1 < getBal (node l np nf (1 + max (hgt l) (hgt r')) r') := by
    rw [hgb]
    omega
  cases r' with
  | nil =>
    simp [realH] at hgap
  | node b xp xf hx c =>
    obtain ⟨hhb, hhc, hrec⟩ := hhr
    obtain ⟨hbb, hbc, hbal1, hbal2⟩ := hbr
    rcases hdir with ⟨hpl, hlean⟩ | ⟨hpl, hlean⟩
    · simp only [realBal] at hlean
      rw [rebalIns, if_neg (fun h => hn1 h.1), if_pos ⟨h1lt, hpl⟩]
      have := rotL_avl l b c np xp nf xf (1 + max (hgt l) (hgt (node b xp xf hx c))) hx
        hh1 hhb hhc hb1 hbb hbc (by omega)
        (by simp only [realH] at hgap; omega) (by omega)
      refine ⟨this.1, ?_⟩
      rw [this.2, if_pos (by omega)]
    · simp only [realBal] at hlean
      have hnpl : ¬ rootPrice (node b xp xf hx c) < p := lt_asymm hpl
      rw [rebalIns, if_neg (fun h => hn1 h.1), if_neg (fun h => hnpl h.2),
        if_neg (fun h => hn1 h.1), if_pos ⟨h1lt, hpl⟩]
      cases b with
      | nil =>
        simp only [realH] at hlean
        omega
      | node b1 zp zf hz b2 =>
        obtain ⟨hhb1, hhb2, hrecb⟩ := hhb
        obtain ⟨hbb1, hbb2, hbalb1, hbalb2⟩ := hbb
        have := rotRL_avl l b1 b2 c np zp xp nf zf xf
          (1 + max (hgt l) (hgt (node (node b1 zp zf hz b2) xp xf hx c))) hz hx
          hh1 hhb1 hhb2 hhc hb1 hbb1 hbb2 hbc
          (by simp only [realH] at hlean; omega) hbalb1 hbalb2
          (by simp only [realH] at hgap hlean ⊢; omega)
        exact ⟨this.1, this.2⟩



theorem rebalDel_heavyL (l r : LTree) (np : Int) (nf : List Order)
    (hA : AVL l) (hh2 : HeightsOk r) (hb2 : BalancedT r)
    (hgap : realH l = realH r + 2) :
    AVL (rebalDel (node l np nf (1 + max (hgt l) (hgt r)) r)) ∧
    (realH (rebalDel (node l np nf (1 + max (hgt l) (hgt r)) r)) = realH r + 2 ∨
     realH (rebalDel (node l np nf (1 + max (hgt l) (hgt r)) r)) = realH r + 3) := by
  obtain ⟨hhl, hbl⟩ := hA
  have hgb : getBal (node l np nf (1 + max (hgt l) (hgt r)) r) =
      (realH l : Int) - realH r := by
    simp [getBal, hgt_eq_realH hhl, hgt_eq_realH hh2]
  have h1lt : 1 < getBal (node l np nf (1 + max (hgt l) (hgt r)) r) := by
    rw [hgb]
    omega
  cases l with
  | nil =>
    simp [realH] at hgap
  | node a xp xf hx b =>
    obtain ⟨hha, hhb, hrec⟩ := hhl
    obtain ⟨hba, hbb, hbal1, hbal2⟩ := hbl
    have hgbl : getBal (node a xp xf hx b) = (realH a : Int) - realH b := by
      simp [getBal, hgt_eq_realH hha, hgt_eq_realH hhb]
    by_cases hlean : 0 ≤ getBal (node a xp xf hx b)
    · rw [rebalDel, if_pos ⟨h1lt, hlean⟩]
      rw [hgbl] at hlean
      have := rotR_avl a b r xp np xf nf hx (1 + max (hgt (node a xp xf hx b)) (hgt r))
        hha hhb hh2 hba hbb hb2 (by omega)
        (by simp only [realH] at hgap; omega) (by omega)
      refine ⟨this.1, ?_⟩
      rw [this.2]
      by_cases hba2 : realH b < realH a
      · rw [if_pos hba2]
        exact Or.inl rfl
      · rw [if_neg hba2]
        exact Or.inr rfl
    · have hlean2 : (realH a : Int) - realH b < 0 := by
        rw [hgbl] at hlean
        omega
      rw [rebalDel, if_neg (fun h => hlean h.2),
        if_pos ⟨h1lt, show getBal (node a xp xf hx b) < 0 by omega⟩]
      cases b with
      | nil =>
        simp only [realH] at hlean2
        omega
      | node b1 zp zf hz b2 =>
        obtain ⟨hhb1, hhb2, hrecb⟩ := hhb
        obtain ⟨hbb1, hbb2, hbalb1, hbalb2⟩ := hbb
        have := rotLR_avl a b1 b2 r xp zp np xf zf nf hx hz
          (1 + max (hgt (node a xp xf hx (node b1 zp zf hz b2))) (hgt r))
          hha hhb1 hhb2 hh2 hba hbb1 hbb2 hb2
          (by simp only [realH] at hlean2 hgap hbal1 hbal2 ⊢; omega) hbalb1 hbalb2
          (by simp only [realH] at hlean2 hgap hbal1 hbal2 ⊢; omega)
        exact ⟨this.1, Or.inl this.2⟩

theorem rebalDel_heavyR (l r : LTree) (np : Int) (nf : List Order)
    (hA : AVL r) (hh1 : HeightsOk l) (hb1 : BalancedT l)
    (hgap : realH r = realH l + 2) :
    AVL (rebalDel (node l np nf (1 + max (hgt l) (hgt r)) r)) ∧
    (realH (rebalDel (node l np nf (1 + max (hgt l) (hgt r)) r)) = realH l + 2 ∨
     realH (rebalDel (node l np nf (1 + max (hgt l) (hgt r)) r)) = realH l + 3) := by
  obtain ⟨hhr, hbr⟩ := hA
  have hgb : getBal (node l np nf (1 + max (hgt l) (hgt r)) r) =
      (realH l : Int) - realH r := by
    simp [getBal, hgt_eq_realH hhr, hgt_eq_realH hh1]
  have h1lt : getBal (node l np nf (1 + max (hgt l) (hgt r)) r) < -1 := by
    rw [hgb]
    omega
  have hn1 : ¬ 1 < getBal (node l np nf (1 + max (hgt l) (hgt r)) r) := by
    rw [hgb]
    omega
  cases r with
  | nil =>
    simp [realH] at hgap
  | node b xp xf hx c =>
    obtain ⟨hhb, hhc, hrec⟩ := hhr
    obtain ⟨hbb, hbc, hbal1, hbal2⟩ := hbr
    have hgbr : getBal (node b xp xf hx c) = (realH b : Int) - realH c := by
      simp [getBal, hgt_eq_realH hhb, hgt_eq_realH hhc]
    by_cases hlean : getBal (node b xp xf hx c) ≤ 0
    · rw [rebalDel, if_neg (fun h => hn1 h.1), if_neg (fun h => hn1 h.1),
        if_pos ⟨h1lt, hlean⟩]
      rw [hgbr] at hlean
      have := rotL_avl l b c np xp nf xf (1 + max (hgt l) (hgt (node b xp xf hx c))) hx
        hh1 hhb hhc hb1 hbb hbc (by omega)
        (by simp only [realH] at hgap; omega) (by omega)
      refine ⟨this.1, ?_⟩
      rw [this.2]
      by_cases hbc2 : realH b < realH c
      · rw [if_pos hbc2]
        exact Or.inl rfl
      · rw [if_neg hbc2]
        exact Or.inr rfl
    · have hlean2 : 0 < (realH b : Int) - realH c := by
        rw [hgbr] at hlean
        omega
      rw [rebalDel, if_neg (fun h => hn1 h.1), if_neg (fun h => hn1 h.1),
        if_neg (fun h => hlean h.2),
        if_pos ⟨h1lt, show 0 < getBal (node b xp xf hx c) by omega⟩]
      cases b with
      | nil =>
        simp only [realH] at hlean2
        omega
      | node b1 zp zf hz b2 =>
        obtain ⟨hhb1, hhb2, hrecb⟩ := hhb
        obtain ⟨hbb1, hbb2, hbalb1, hbalb2⟩ := hbb
        have := rotRL_avl l b1 b2 c np zp xp nf zf xf
          (1 + max (hgt l) (hgt (node (node b1 zp zf hz b2) xp xf hx c))) hz hx
          hh1 hhb1 hhb2 hhc hb1 hbb1 hbb2 hbc
          (by simp only [realH] at hlean2 hgap hbal1 hbal2 ⊢; omega) hbalb1 hbalb2
          (by simp only [realH] at hlean2 hgap hbal1 hbal2 ⊢; omega)
        exact ⟨this.1, Or.inl this.2⟩



theorem insertT_mem_eq : ∀ (t : LTree) (p : Int), containsP t p = true → AVL t →
    insertT t p = t := by
  intro t
  induction t with
  | nil =>
    intro p hc _
    simp [containsP] at hc
  | node l np nf nh r ihl ihr =>
    intro p hc hav
    obtain ⟨⟨hh1, hh2, hh3⟩, hb1, hb2, hb3, hb4⟩ := hav
    have hup : upH (node l np nf nh r) = node l np nf nh r := by
      rw [upH, hgt_eq_realH hh1, hgt_eq_realH hh2, ← hh3]
    have hgb : getBal (node l np nf nh r) = (realH l : Int) - realH r := by
      simp [getBal, hgt_eq_realH hh1, hgt_eq_realH hh2]
    rw [insertT]
    by_cases h1 : p < np
    · rw [if_pos h1]
      rw [containsP, if_pos h1] at hc
      rw [ihl p hc ⟨hh1, hb1⟩, hup]
      exact rebalIns_id p _ (by rw [hgb]; omega) (by rw [hgb]; omega)
    · rw [if_neg h1]
      by_cases h2 : np < p
      · rw [if_pos h2]
        rw [containsP, if_neg h1, if_pos h2] at hc
        rw [ihr p hc ⟨hh2, hb2⟩, hup]
        exact rebalIns_id p _ (by rw [hgb]; omega) (by rw [hgb]; omega)
      · rw [if_neg h2]

theorem insertT_avl : ∀ (t : LTree) (p : Int), containsP t p = false → AVL t →
    AVL (insertT t p) ∧
    (realH (insertT t p) = realH t ∨ realH (insertT t p) = realH t + 1) ∧
    (realH (insertT t p) = realH t + 1 → 2 ≤ realH (insertT t p) →
      (p < rootPrice (insertT t p) ∧ realBal (insertT t p) = 1) ∨
      (rootPrice (insertT t p) < p ∧ realBal (insertT t p) = -1)) := by
  intro t
  induction t with
  | nil =>
    intro p hc _
    refine ⟨⟨⟨trivial, trivial, by simp [realH]⟩, trivial, trivial, by simp [realH],
      by simp [realH]⟩, Or.inr (by simp [insertT, realH]), ?_⟩
    intro _ h2
    rw [insertT] at h2
    simp [realH] at h2
  | node l np nf nh r ihl ihr =>
    intro p hc hav
    obtain ⟨⟨hh1, hh2, hh3⟩, hb1, hb2, hb3, hb4⟩ := hav
    rw [insertT]
    by_cases h1 : p < np
    · rw [if_pos h1]
      rw [containsP, if_pos h1] at hc
      obtain ⟨⟨hhl2, hbl2⟩, ihB, ihC⟩ := ihl p hc ⟨hh1, hb1⟩
      rw [upH]
      have hgbn : getBal (node (insertT l p) np nf
          (1 + max (hgt (insertT l p)) (hgt r)) r) =
          (realH (insertT l p) : Int) - realH r := by
        simp [getBal, hgt_eq_realH hhl2, hgt_eq_realH hh2]
      rcases ihB with hng | hg
      · rw [rebalIns_id p _ (by rw [hgbn]; omega) (by rw [hgbn]; omega)]
        refine ⟨⟨⟨hhl2, hh2, by rw [hgt_eq_realH hhl2, hgt_eq_realH hh2]⟩,
          hbl2, hb2, by omega, by omega⟩, by simp only [realH]; omega, ?_⟩
        intro hgr _
        exfalso
        simp only [realH] at hgr
        omega
      · by_cases hbal : (realH (insertT l p) : Int) - realH r ≤ 1
        · rw [rebalIns_id p _ (by rw [hgbn]; omega) (by rw [hgbn]; omega)]
          refine ⟨⟨⟨hhl2, hh2, by rw [hgt_eq_realH hhl2, hgt_eq_realH hh2]⟩,
            hbl2, hb2, by omega, by omega⟩, by simp only [realH]; omega, ?_⟩
          intro hgr _
          left
          refine ⟨h1, ?_⟩
          show (realH (insertT l p) : Int) - realH r = 1
          simp only [realH] at hgr
          omega
        · have hgap : realH (insertT l p) = realH r + 2 := by omega
          have hdir := ihC hg (by omega)
          have hrl := rebalIns_left (insertT l p) r np p nf ⟨hhl2, hbl2⟩ hh2 hb2
            hgap hdir
          refine ⟨hrl.1, ?_, ?_⟩
          · left
            rw [hrl.2]
            simp only [realH]
            omega
          · intro hgr _
            exfalso
            rw [hrl.2] at hgr
            simp only [realH] at hgr
            omega
    · rw [if_neg h1]
      by_cases h2 : np < p
      · rw [if_pos h2]
        rw [containsP, if_neg h1, if_pos h2] at hc
        obtain ⟨⟨hhr2, hbr2⟩, ihB, ihC⟩ := ihr p hc ⟨hh2, hb2⟩
        rw [upH]
        have hgbn : getBal (node l np nf
            (1 + max (hgt l) (hgt (insertT r p))) (insertT r p)) =
            (realH l : Int) - realH (insertT r p) := by
          simp [getBal, hgt_eq_realH hhr2, hgt_eq_realH hh1]
        rcases ihB with hng | hg
        · rw [rebalIns_id p _ (by rw [hgbn]; omega) (by rw [hgbn]; omega)]
          refine ⟨⟨⟨hh1, hhr2, by rw [hgt_eq_realH hhr2, hgt_eq_realH hh1]⟩,
            hb1, hbr2, by omega, by omega⟩, by simp only [realH]; omega, ?_⟩
          intro hgr _
          exfalso
          simp only [realH] at hgr
          omega
        · by_cases hbal : (realH (insertT r p) : Int) - realH l ≤ 1
          · rw [rebalIns_id p _ (by rw [hgbn]; omega) (by rw [hgbn]; omega)]
            refine ⟨⟨⟨hh1, hhr2, by rw [hgt_eq_realH hhr2, hgt_eq_realH hh1]⟩,
              hb1, hbr2, by omega, by omega⟩, by simp only [realH]; omega, ?_⟩
            intro hgr _
            right
            refine ⟨h2, ?_⟩
            show (realH l : Int) - realH (insertT r p) = -1
            simp only [realH] at hgr
            omega
          · have hgap : realH (insertT r p) = realH l + 2 := by omega
            have hdir := (ihC hg (by omega)).symm
            have hrl := rebalIns_right l (insertT r p) np p nf ⟨hhr2, hbr2⟩ hh1 hb1
              hgap hdir
            refine ⟨hrl.1, ?_, ?_⟩
            · left
              rw [hrl.2]
              simp only [realH]
              omega
            · intro hgr _
              exfalso
              rw [hrl.2] at hgr
              simp only [realH] at hgr
              omega
      · rw [if_neg h2]
        rw [containsP, if_neg h1, if_neg h2] at hc
        simp at hc



theorem removeLimit_avl : ∀ (t : LTree) (p : Int), AVL t →
    AVL (removeLimit t p).1 ∧
    (realH (removeLimit t p).1 = realH t ∨ realH (removeLimit t p).1 + 1 = realH t) := by
  intro t
  induction t with
  | nil =>
    intro p _
    exact ⟨⟨trivial, trivial⟩, Or.inl rfl⟩
  | node l np nf nh r ihl ihr =>
    intro p hav
    obtain ⟨⟨hh1, hh2, hh3⟩, hb1, hb2, hb3, hb4⟩ := hav
    rw [removeLimit.eq_def]
    simp only []
    by_cases h1 : p < np
    · rw [if_pos h1]
      simp only []
      obtain ⟨⟨hhl2, hbl2⟩, ihH⟩ := ihl p ⟨hh1, hb1⟩
      rw [upH]
      have hgbn : getBal (node (removeLimit l p).1 np nf
          (1 + max (hgt (removeLimit l p).1) (hgt r)) r) =
          (realH (removeLimit l p).1 : Int) - realH r := by
        simp [getBal, hgt_eq_realH hhl2, hgt_eq_realH hh2]
      by_cases hgap : (realH (removeLimit l p).1 : Int) - realH r < -1
      · have hrd := rebalDel_heavyR (removeLimit l p).1 r np nf ⟨hh2, hb2⟩ hhl2 hbl2
          (by omega)
        refine ⟨hrd.1, ?_⟩
        rcases hrd.2 with he | he <;> rw [he] <;> simp only [realH] <;> omega
      · rw [rebalDel_id _ (by rw [hgbn]; omega) (by rw [hgbn]; omega)]
        refine ⟨⟨⟨hhl2, hh2, by rw [hgt_eq_realH hhl2, hgt_eq_realH hh2]⟩,
          hbl2, hb2, by omega, by omega⟩, ?_⟩
        simp only [realH]
        omega
    · rw [if_neg h1]
      by_cases h2 : np < p
      · rw [if_pos h2]
        simp only []
        obtain ⟨⟨hhr2, hbr2⟩, ihH⟩ := ihr p ⟨hh2, hb2⟩
        rw [upH]
        have hgbn : getBal (node l np nf
            (1 + max (hgt l) (hgt (removeLimit r p).1)) (removeLimit r p).1) =
            (realH l : Int) - realH (removeLimit r p).1 := by
          simp [getBal, hgt_eq_realH hhr2, hgt_eq_realH hh1]
        by_cases hgap : 1 < (realH l : Int) - realH (removeLimit r p).1
        · have hrd := rebalDel_heavyL l (removeLimit r p).1 np nf ⟨hh1, hb1⟩ hhr2 hbr2
            (by omega)
          refine ⟨hrd.1, ?_⟩
          rcases hrd.2 with he | he <;> rw [he] <;> simp only [realH] <;> omega
        · rw [rebalDel_id _ (by rw [hgbn]; omega) (by rw [hgbn]; omega)]
          refine ⟨⟨⟨hh1, hhr2, by rw [hgt_eq_realH hhr2, hgt_eq_realH hh1]⟩,
            hb1, hbr2, by omega, by omega⟩, ?_⟩
          simp only [realH]
          omega
      · rw [if_neg h2]
        cases l with
        | nil =>
          simp only []
          refine ⟨⟨hh2, hb2⟩, ?_⟩
          simp only [realH]
          omega
        | node la lb lc ld le =>
          cases r with
          | nil =>
            simp only []
            refine ⟨⟨hh1, hb1⟩, ?_⟩
            simp only [realH]
            omega
          | node a b c d e =>
            simp only []
            rcases hgm : getMinT (node a b c d e) with _ | ⟨sp, sf⟩
            · exact ⟨⟨⟨hh1, hh2, hh3⟩, hb1, hb2, hb3, hb4⟩, Or.inl rfl⟩
            · simp only []
              obtain ⟨⟨hhr2, hbr2⟩, ihH⟩ := ihr sp ⟨hh2, hb2⟩
              rw [upH]
              have hrt : realH (node (node la lb lc ld le) np nf nh (node a b c d e)) =
                  1 + max (realH (node la lb lc ld le)) (realH (node a b c d e)) := rfl
              have hgbn : getBal (node (node la lb lc ld le) sp sf
                  (1 + max (hgt (node la lb lc ld le))
                    (hgt (removeLimit (node a b c d e) sp).1))
                  (removeLimit (node a b c d e) sp).1) =
                  (realH (node la lb lc ld le) : Int) -
                    realH (removeLimit (node a b c d e) sp).1 := by
                simp [getBal, hgt_eq_realH hhr2, hgt_eq_realH hh1]
              by_cases hgap : 1 < (realH (node la lb lc ld le) : Int) -
                  realH (removeLimit (node a b c d e) sp).1
              · have hrd := rebalDel_heavyL (node la lb lc ld le)
                  (removeLimit (node a b c d e) sp).1 sp sf ⟨hh1, hb1⟩ hhr2 hbr2
                  (by omega)
                refine ⟨hrd.1, ?_⟩
                rcases hrd.2 with he | he <;> rw [he, hrt] <;> omega
              · rw [rebalDel_id _ (by rw [hgbn]; omega) (by rw [hgbn]; omega)]
                have hnew : realH (node (node la lb lc ld le) sp sf
                    (1 + max (hgt (node la lb lc ld le))
                      (hgt (removeLimit (node a b c d e) sp).1))
                    (removeLimit (node a b c d e) sp).1) =
                    1 + max (realH (node la lb lc ld le))
                      (realH (removeLimit (node a b c d e) sp).1) := rfl
                refine ⟨⟨⟨hh1, hhr2, by rw [hgt_eq_realH hhr2, hgt_eq_realH hh1]⟩,
                  hb1, hbr2, by omega, by omega⟩, ?_⟩
                rw [hnew, hrt]
                omega



theorem avl_insertT {t : LTree} (h : AVL t) (p : Int) : AVL (insertT t p) := by
  by_cases hc : containsP t p = true
  · rw [insertT_mem_eq t p hc h]
    exact h
  · exact (insertT_avl t p (by revert hc; cases containsP t p <;> simp) h).1

theorem avl_removeLimit {t : LTree} (h : AVL t) (p : Int) : AVL (removeLimit t p).1 :=
  (removeLimit_avl t p h).1

theorem avl_setFifo {t : LTree} (h : AVL t) (p : Int) (f : List Order) :
    AVL (setFifo t p f) :=
  (setFifo_avl t p f).2 h

theorem avl_appendAt {t : LTree} (h : AVL t) (p : Int) (o : Order) :
    AVL (appendAt t p o) :=
  (appendAt_avl t p o).2 h

theorem avl_unlinkAt {t : LTree} (h : AVL t) (lp : Int) (id : Nat) :
    AVL (unlinkAt t lp id).1 := by
  rw [unlinkAt]
  by_cases he : eraseById (fifoAtD t lp) id = []
  · rw [if_pos he]
    exact avl_removeLimit h lp
  · rw [if_neg he]
    exact avl_setFifo h lp _

theorem matchLoop_avl (takerId : Nat) (side : Side) (price : Int) :
    ∀ (fuel : Nat) (t : LTree) (s ts : Nat) (le : Int), AVL t →
      AVL (matchLoop takerId side price fuel s t ts le).tree := by
  intro fuel
  induction fuel with
  | zero =>
    intro t s ts le h
    exact h
  | succ n ih =>
    intro t s ts le h
    by_cases hs0 : s = 0
    · subst hs0
      rw [matchLoop_zero]
      exact h
    rcases hbo : bestFor side t with _ | ⟨bp, bf⟩
    · rw [matchLoop, if_neg hs0, hbo]
      exact h
    by_cases hcf : crossFail side price bp = true
    · rw [matchLoop, if_neg hs0, hbo]
      simp only [hcf, if_true]
      exact h
    · have hcf2 : crossFail side price bp = false := by
        revert hcf
        cases crossFail side price bp <;> simp
      rw [matchLoop_step takerId side price n s t ts le hs0 hbo hcf2]
      simp only []
      by_cases hwf : (walkFIFO takerId bp s bf ts).fifo = []
      · rw [if_pos hwf]
        exact ih _ _ _ _ (avl_removeLimit h bp)
      · rw [if_neg hwf]
        exact ih _ _ _ _ (avl_setFifo h bp _)

theorem checkStopsSell_avl (px : Int) :
    ∀ (fuel : Nat) (t : LTree), AVL t → AVL (checkStopsSell px fuel t).tree := by
  intro fuel
  induction fuel with
  | zero =>
    intro t h
    exact h
  | succ n ih =>
    intro t h
    rw [checkStopsSell]
    rcases hgm : getMaxT t with _ | ⟨hp2, hf⟩
    · exact h
    simp only []
    by_cases hle : px ≤ hp2
    · rw [if_pos hle]
      exact ih _ (avl_removeLimit h hp2)
    · rw [if_neg hle]
      exact h

theorem checkStopsBuy_avl (px : Int) :
    ∀ (fuel : Nat) (t : LTree), AVL t → AVL (checkStopsBuy px fuel t).tree := by
  intro fuel
  induction fuel with
  | zero =>
    intro t h
    exact h
  | succ n ih =>
    intro t h
    rw [checkStopsBuy]
    rcases hgm : getMinT t with _ | ⟨lp2, lf⟩
    · exact h
    simp only []
    by_cases hle : lp2 ≤ px
    · rw [if_pos hle]
      exact ih _ (avl_removeLimit h lp2)
    · rw [if_neg hle]
      exact h



theorem armStop_avlInv (st : EngineState) (id : Nat) (side : Side) (ty : OrderType)
    (qty : Nat) (price sp : Int) (h : AvlInv st) :
    AvlInv (armStop st id side ty qty price sp) := by
  simp only [AvlInv] at h
  obtain ⟨h1, h2, h3, h4⟩ := h
  rw [armStop.eq_def]
  by_cases hfo : st.freeOrders = 0
  · rw [if_pos hfo]
    exact ⟨h1, h2, h3, h4⟩
  · rw [if_neg hfo]
    simp only []
    cases side
    · by_cases hex : ¬ (containsP st.stopBuyTree sp = true) ∧ st.freeLimits = 0
      · rw [if_pos hex]
        exact ⟨h1, h2, h3, h4⟩
      · rw [if_neg hex]
        exact ⟨h1, h2, avl_appendAt (avl_insertT h3 sp) sp _, h4⟩
    · by_cases hex : ¬ (containsP st.stopSellTree sp = true) ∧ st.freeLimits = 0
      · rw [if_pos hex]
        exact ⟨h1, h2, h3, h4⟩
      · rw [if_neg hex]
        exact ⟨h1, h2, h3, avl_appendAt (avl_insertT h4 sp) sp _⟩

theorem restOrRecycle_avlInv (st : EngineState) (id : Nat) (side : Side)
    (ty : OrderType) (price sp : Int) (r : Nat) (h : AvlInv st) :
    AvlInv (restOrRecycle st id side ty price sp r) := by
  simp only [AvlInv] at h
  obtain ⟨h1, h2, h3, h4⟩ := h
  rw [restOrRecycle.eq_def]
  by_cases hg : 0 < r ∧ ty = OrderType.Limit
  · rw [if_pos hg]
    cases side
    · simp only []
      by_cases hex : ¬ (containsP st.buyTree price = true) ∧ st.freeLimits = 0
      · rw [if_pos hex]
        exact ⟨h1, h2, h3, h4⟩
      · rw [if_neg hex]
        exact ⟨avl_appendAt (avl_insertT h1 price) price _, h2, h3, h4⟩
    · simp only []
      by_cases hex : ¬ (containsP st.sellTree price = true) ∧ st.freeLimits = 0
      · rw [if_pos hex]
        exact ⟨h1, h2, h3, h4⟩
      · rw [if_neg hex]
        exact ⟨h1, avl_appendAt (avl_insertT h2 price) price _, h3, h4⟩
  · rw [if_neg hg]
    exact ⟨h1, h2, h3, h4⟩

theorem applyMatch_avlInv (st : EngineState) (side : Side) (m : MatchRes)
    (h : AvlInv st) (hm : AVL m.tree) : AvlInv (applyMatch st side m) := by
  simp only [AvlInv] at h
  obtain ⟨h1, h2, h3, h4⟩ := h
  cases side
  · exact ⟨h1, hm, h3, h4⟩
  · exact ⟨hm, h2, h3, h4⟩

theorem runCheckStops_avlInv (st : EngineState) (px : Int) (side : Side)
    (h : AvlInv st) : AvlInv (runCheckStops st px side).1 := by
  simp only [AvlInv] at h
  obtain ⟨h1, h2, h3, h4⟩ := h
  cases side
  · exact ⟨h1, h2, checkStopsBuy_avl px _ _ h3, h4⟩
  · exact ⟨h1, h2, h3, checkStopsSell_avl px _ _ h4⟩

theorem processNoChk_avlInv (st : EngineState) (id : Nat) (side : Side)
    (ty : OrderType) (qty : Nat) (price sp : Int) (h : AvlInv st) :
    AvlInv (processNoChk st id side ty qty price sp) := by
  rw [processNoChk.eq_def]
  by_cases hstop : ty = OrderType.Stop ∨ ty = OrderType.StopLimit
  · rw [if_pos hstop]
    exact armStop_avlInv st id side ty qty price sp h
  · rw [if_neg hstop]
    by_cases hfo : st.freeOrders = 0
    · rw [if_pos hfo]
      exact h
    · rw [if_neg hfo]
      simp only []
      apply restOrRecycle_avlInv
      cases side
      · exact applyMatch_avlInv _ .Buy _ h
          (matchLoop_avl id .Buy price (limitCount st.sellTree + 1) st.sellTree qty
            st.tsCounter 0 h.2.1)
      · exact applyMatch_avlInv _ .Sell _ h
          (matchLoop_avl id .Sell price (limitCount st.buyTree + 1) st.buyTree qty
            st.tsCounter 0 h.1)

theorem processOrder_avlInv (st : EngineState) (id : Nat) (side : Side)
    (ty : OrderType) (qty : Nat) (price sp : Int) (h : AvlInv st) :
    AvlInv (processOrder st id side ty qty price sp) := by
  rw [processOrder, processOrderInternalT.eq_def]
  by_cases hstop : ty = OrderType.Stop ∨ ty = OrderType.StopLimit
  · rw [if_pos hstop]
    exact armStop_avlInv st id side ty qty price sp h
  · rw [if_neg hstop]
    by_cases hfo : st.freeOrders = 0
    · rw [if_pos hfo]
      exact h
    · rw [if_neg hfo]
      simp only []
      apply foldl_preserve AvlInv _
        (fun s d hs => processNoChk_avlInv { s with genId := s.genId + 1 } s.genId d.side
          d.convertToType d.shares d.limitPrice 0 hs)
      apply restOrRecycle_avlInv
      cases side
      · have hst2 := applyMatch_avlInv _ .Buy _ h
          (matchLoop_avl id .Buy price (limitCount st.sellTree + 1) st.sellTree qty
            st.tsCounter 0 h.2.1)
        by_cases hle : 0 < (matchLoop id .Buy price (limitCount st.sellTree + 1) qty
            st.sellTree st.tsCounter 0).lastExec
        · rw [if_pos hle]
          exact runCheckStops_avlInv _ _ .Buy hst2
        · rw [if_neg hle]
          exact hst2
      · have hst2 := applyMatch_avlInv _ .Sell _ h
          (matchLoop_avl id .Sell price (limitCount st.buyTree + 1) st.buyTree qty
            st.tsCounter 0 h.1)
        by_cases hle : 0 < (matchLoop id .Sell price (limitCount st.buyTree + 1) qty
            st.buyTree st.tsCounter 0).lastExec
        · rw [if_pos hle]
          exact runCheckStops_avlInv _ _ .Sell hst2
        · rw [if_neg hle]
          exact hst2

theorem cancelOrder_avlInv (st : EngineState) (id : Nat) (h : AvlInv st) :
    AvlInv (cancelOrder st id).1 := by
  simp only [AvlInv] at h
  obtain ⟨h1, h2, h3, h4⟩ := h
  rw [cancelOrder.eq_def]
  rcases hl : mapLookup st.orderMap id with _ | ⟨side, lp⟩
  · rcases hl2 : mapLookup st.stopOrderMap id with _ | ⟨side2, lp2⟩
    · exact ⟨h1, h2, h3, h4⟩
    · cases side2
      · exact ⟨h1, h2, avl_unlinkAt h3 lp2 id, h4⟩
      · exact ⟨h1, h2, h3, avl_unlinkAt h4 lp2 id⟩
  · cases side
    · exact ⟨avl_unlinkAt h1 lp id, h2, h3, h4⟩
    · exact ⟨h1, avl_unlinkAt h2 lp id, h3, h4⟩

theorem modifyOrder_avlInv (st : EngineState) (id : Nat) (q : Nat) (p : Int)
    (h : AvlInv st) : AvlInv (modifyOrder st id q p).1 := by
  simp only [AvlInv] at h
  obtain ⟨h1, h2, h3, h4⟩ := h
  rw [modifyOrder.eq_def]
  rcases hl : mapLookup st.orderMap id with _ | ⟨side, lp⟩
  · exact ⟨h1, h2, h3, h4⟩
  · cases side
    · simp only []
      rcases ho : orderAt st.buyTree lp id with _ | o
      · exact ⟨h1, h2, h3, h4⟩
      · simp only []
        by_cases hpe : p = o.price
        · rw [if_pos hpe]
          exact ⟨avl_setFifo h1 lp _, h2, h3, h4⟩
        · rw [if_neg hpe]
          by_cases hex : ¬ (containsP (unlinkAt st.buyTree lp id).1 p = true) ∧
              st.freeLimits + (unlinkAt st.buyTree lp id).2 = 0
          · rw [if_pos hex]
            exact ⟨avl_unlinkAt h1 lp id, h2, h3, h4⟩
          · rw [if_neg hex]
            exact ⟨avl_appendAt (avl_insertT (avl_unlinkAt h1 lp id) p) p _, h2, h3, h4⟩
    · simp only []
      rcases ho : orderAt st.sellTree lp id with _ | o
      · exact ⟨h1, h2, h3, h4⟩
      · simp only []
        by_cases hpe : p = o.price
        · rw [if_pos hpe]
          exact ⟨h1, avl_setFifo h2 lp _, h3, h4⟩
        · rw [if_neg hpe]
          by_cases hex : ¬ (containsP (unlinkAt st.sellTree lp id).1 p = true) ∧
              st.freeLimits + (unlinkAt st.sellTree lp id).2 = 0
          · rw [if_pos hex]
            exact ⟨h1, avl_unlinkAt h2 lp id, h3, h4⟩
          · rw [if_neg hex]
            exact ⟨h1, avl_appendAt (avl_insertT (avl_unlinkAt h2 lp id) p) p _, h3, h4⟩

theorem applyAct_avlInv (st : EngineState) (a : Act) (h : AvlInv st) :
    AvlInv (applyAct st a) := by
  cases a with
  | submit id side ty qty price sp =>
    exact processOrder_avlInv st id side ty qty price sp h
  | cancel id =>
    exact cancelOrder_avlInv st id h
  | modify id q p =>
    exact modifyOrder_avlInv st id q p h

theorem avlInv_init (n : Nat) : AvlInv (initState n) :=
  ⟨⟨trivial, trivial⟩, ⟨trivial, trivial⟩, ⟨trivial, trivial⟩, ⟨trivial, trivial⟩⟩

/-- C8: after every sequence of public operations (submit of any type,
cancel, modify) the four price trees all have correct recorded heights
(each node's stored height is one plus the maximum of its children's) and
are AVL-balanced (every node's balance factor is −1, 0, or 1). -/
theorem claim_C8_theorem (n : Nat) (acts : List Act) :
    AVL (runActs n acts).buyTree ∧ AVL (runActs n acts).sellTree ∧
    AVL (runActs n acts).stopBuyTree ∧ AVL (runActs n acts).stopSellTree := by
  have h := foldl_preserve AvlInv applyAct (fun s a hs => applyAct_avlInv s a hs)
    acts (initState n) (avlInv_init n)
  exact h

end Engine
